import Mathlib

/-!
A shallow embedding of the composite-graph core of the Qualtran repository:
the Register/Signature model, Soquets, Connections, `CompositeBloq`,
`BloqBuilder`, and the structural algorithms (`copy`, `add_from`,
`flatten_once`, `flatten`, controlled wrapping).

The repository sources available here are the usage notebooks
(`composite_bloq.ipynb` and friends); the implementation module
`qualtran/_infra/composite_bloq.py` itself is not among them, so the
definitions below are modelled from the specification, with the notebook
cells (which reproduce the `copy` loop, demonstrate the builder counter,
`add_t` tupling, `add_from`, `flatten_once` and `flatten`) fixing the
behaviour wherever they show it.
-/

namespace Spec2Proof

/-- Sides a register can occupy within a signature. -/
inductive Side where
  | left
  | right
  | thru
deriving DecidableEq

/-- Whether a register with this side appears in the left (consumed) view. -/
def Side.onLeft : Side → Bool
  | .right => false
  | _ => true

/-- Whether a register with this side appears in the right (produced) view. -/
def Side.onRight : Side → Bool
  | .left => false
  | _ => true

/-- Modelled from the spec: a Register is a named, bit-width- and
shape-typed port declaration with a side. -/
structure Register where
  name : String
  bitsize : Nat
  shape : List Nat
  side : Side
deriving DecidableEq

/-- All index tuples addressing the units of a register array shape. -/
def shapeIdxs : List Nat → List (List Nat)
  | [] => [[]]
  | n :: ns => (List.range n).flatMap (fun i => (shapeIdxs ns).map (fun t => i :: t))

/-- The index tuples of one register (a single empty tuple for scalar shape). -/
def Register.idxs (r : Register) : List (List Nat) := shapeIdxs r.shape

/-- Modelled from the spec: a Signature is the ordered list of registers an
operation exposes, partitioned into left and right views. -/
structure Signature where
  regs : List Register
deriving DecidableEq

/-- The left (consumed) view of a signature: LEFT and THRU registers. -/
def Signature.lefts (s : Signature) : List Register :=
  s.regs.filter (fun r => r.side.onLeft)

/-- The right (produced) view of a signature: RIGHT and THRU registers. -/
def Signature.rights (s : Signature) : List Register :=
  s.regs.filter (fun r => r.side.onRight)

/-- Modelled from the spec: an Operation value.  `id` identifies the base
operation (value equality); `nctrl` counts how many controlled wrappers have
been applied to it.  The base signature and optional decomposition of each
`id` are supplied by a `BloqEnv`. -/
structure Bloq where
  id : Nat
  nctrl : Nat
deriving DecidableEq

/-- Modelled from the spec: an Instance is a unique occurrence of an
Operation inside a composite graph, distinguished by the builder-scoped
monotonically increasing identifier `i`. -/
structure BloqInstance where
  bloq : Bloq
  i : Nat
deriving DecidableEq

/-- The holder of a soquet: an instance port, or one of the two graph
boundaries (a left-dangling or right-dangling port). -/
inductive InstOrDangle where
  | inst : BloqInstance → InstOrDangle
  | leftDangle
  | rightDangle
deriving DecidableEq

/-- Modelled from the spec: a Soquet addresses one unit of one register on
one instance (or on the graph boundary), at one index of the register's
shape. -/
structure Soquet where
  binst : InstOrDangle
  reg : Register
  idx : List Nat
deriving DecidableEq

/-- Modelled from the spec: a Connection is a directed wire from a source
soquet (`left`) to a destination soquet (`right`). -/
structure Connection where
  left : Soquet
  right : Soquet
deriving DecidableEq

/-- Modelled from the spec: the immutable composite graph: a boundary
signature, the instances in creation order, and the connections. -/
structure CompositeBloq where
  sig : Signature
  binsts : List BloqInstance
  cxns : List Connection
deriving DecidableEq

/-- The environment tying operation identifiers to their base signatures
and optional one-level decompositions. -/
structure BloqEnv where
  sigOf : Nat → Signature
  decomp : Nat → Option CompositeBloq

/-- The one-bit THRU control register added by the controlled wrapper. -/
def ctrlRegister : Register := ⟨"ctrl", 1, [], .thru⟩

/-- Adds the control register in front of a signature. -/
def ctrlSig (s : Signature) : Signature := ⟨ctrlRegister :: s.regs⟩

/-- Iterated control-register prefixing. -/
def iterCtrlSig : Nat → Signature → Signature
  | 0, s => s
  | n + 1, s => ctrlSig (iterCtrlSig n s)

/-- The signature an operation exposes: its base signature with one control
register added per controlled wrapper. -/
def bloqSig (env : BloqEnv) (b : Bloq) : Signature :=
  iterCtrlSig b.nctrl (env.sigOf b.id)

/-- Modelled from the spec: the controlled wrapper on an operation. -/
def Bloq.controlled (b : Bloq) : Bloq := ⟨b.id, b.nctrl + 1⟩

/-- Wraps the operation of an instance in the controlled wrapper, keeping
its identifier. -/
def wrapInst (bi : BloqInstance) : BloqInstance := ⟨bi.bloq.controlled, bi.i⟩

/-- Rebadges a soquet onto the controlled-wrapped instance; dangling
soquets are unchanged. -/
def wrapSoq (s : Soquet) : Soquet :=
  match s.binst with
  | .inst bi => ⟨.inst (wrapInst bi), s.reg, s.idx⟩
  | _ => s

/-- Rebadges both ends of a connection onto wrapped instances. -/
def wrapCxn (c : Connection) : Connection := ⟨wrapSoq c.left, wrapSoq c.right⟩

/-- The control-port soquet of a holder. -/
def ctrlSoqOf (h : InstOrDangle) : Soquet := ⟨h, ctrlRegister, []⟩

/-- Threads the control wire serially through the given instances, from the
left boundary to the right boundary. -/
def ctrlChainFrom : Soquet → List BloqInstance → List Connection
  | prev, [] => [⟨prev, ctrlSoqOf .rightDangle⟩]
  | prev, bi :: rest => ⟨prev, ctrlSoqOf (.inst bi)⟩ :: ctrlChainFrom (ctrlSoqOf (.inst bi)) rest

/-- Modelled from the spec: the decomposition of the controlled wrapper:
every sub-instance's operation is itself wrapped, the boundary gains the
control register, and the control wire is threaded through all instances. -/
def ctrlWrapGraph (cb : CompositeBloq) : CompositeBloq :=
  ⟨ctrlSig cb.sig, cb.binsts.map wrapInst,
    ctrlChainFrom (ctrlSoqOf .leftDangle) (cb.binsts.map wrapInst) ++ cb.cxns.map wrapCxn⟩

/-- The decomposition of base operation `i0` under `n` controlled
wrappers. -/
def decomposeAux (env : BloqEnv) (i0 : Nat) : Nat → Option CompositeBloq
  | 0 => env.decomp i0
  | n + 1 => (decomposeAux env i0 n).map ctrlWrapGraph

/-- Modelled from the spec: the optional one-level decomposition of an
operation.  A base operation looks its decomposition up in the environment;
a controlled operation decomposes by recursively wrapping every
sub-instance of the underlying decomposition. -/
def decompose (env : BloqEnv) (b : Bloq) : Option CompositeBloq :=
  decomposeAux env b.id b.nctrl

/-- A register-shaped bundle of soquets as handed to and from the builder:
a bare soquet for a scalar register, an array for a shaped one. -/
inductive SoquetT where
  | one : Soquet → SoquetT
  | arr : List Soquet → SoquetT
deriving DecidableEq

/-- The unit soquets of a bundle. -/
def SoquetT.units : SoquetT → List Soquet
  | .one s => [s]
  | .arr ss => ss

/-- The unit soquets of register `r` on holder `h`, one per index. -/
def regUnitsAt (h : InstOrDangle) (r : Register) : List Soquet :=
  r.idxs.map (fun idx => ⟨h, r, idx⟩)

/-- Packs a unit list for register `r` into the bundle shape callers see. -/
def packUnits (r : Register) (us : List Soquet) : SoquetT :=
  if r.shape.isEmpty then
    match us with
    | [u] => .one u
    | _ => .arr us
  else .arr us

/-- The canonical bundle of register `r` on holder `h`. -/
def packSoqT (h : InstOrDangle) (r : Register) : SoquetT :=
  packUnits r (regUnitsAt h r)

/-- All input-port unit soquets of an instance (left view, in order). -/
def inUnits (env : BloqEnv) (bi : BloqInstance) : List Soquet :=
  (bloqSig env bi.bloq).lefts.flatMap (regUnitsAt (.inst bi))

/-- All output-port unit soquets of an instance (right view, in order). -/
def outUnits (env : BloqEnv) (bi : BloqInstance) : List Soquet :=
  (bloqSig env bi.bloq).rights.flatMap (regUnitsAt (.inst bi))

/-- All left-dangling boundary unit soquets of a register list. -/
def ldUnits (regs : List Register) : List Soquet :=
  (regs.filter (fun r => r.side.onLeft)).flatMap (regUnitsAt .leftDangle)

/-- All right-dangling boundary unit soquets of a register list. -/
def rdUnits (regs : List Register) : List Soquet :=
  (regs.filter (fun r => r.side.onRight)).flatMap (regUnitsAt .rightDangle)

/-- Checks a name list for duplicates. -/
def dupFree : List String → Bool
  | [] => true
  | x :: xs => !(xs.contains x) && dupFree xs

/-- A signature is well formed when the name+side pairs are unique, namely
when each view has pairwise distinct names. -/
def sigOk (s : Signature) : Bool :=
  dupFree (s.lefts.map (fun r => r.name)) && dupFree (s.rights.map (fun r => r.name))

/-- Decidable equality for fallible results, so statements about builder
outcomes can be settled by evaluation. -/
instance {ε α : Type} [DecidableEq ε] [DecidableEq α] : DecidableEq (Except ε α) := fun a b =>
  match a, b with
  | .ok x, .ok y =>
    match decEq x y with
    | isTrue h => isTrue (by rw [h])
    | isFalse h => isFalse (fun hc => h (by cases hc; rfl))
  | .error x, .error y =>
    match decEq x y with
    | isTrue h => isTrue (by rw [h])
    | isFalse h => isFalse (fun hc => h (by cases hc; rfl))
  | .ok _, .error _ => isFalse (fun hc => by cases hc)
  | .error _, .ok _ => isFalse (fun hc => by cases hc)

/-- Modelled from the spec: the named construction and validation errors. -/
inductive BloqError where
  | duplicateRegister
  | invalidWidth
  | registerMismatch
  | widthMismatch
  | soquetAlreadyUsed
  | unconsumedSoquet
  | boundaryMismatch
  | incompatibleConnection
  | danglingSoquetUnused
  | cycleDetected
  | notDecomposable
  | flattenDepthExceeded
  | builderFinalized
deriving DecidableEq

/-- Modelled from the spec: the mutable construction facade.  `i` is the
builder-scoped instance counter; `available` is the live-soquet set from
which every wiring consumes. -/
structure BloqBuilder where
  regs : List Register
  binsts : List BloqInstance
  cxns : List Connection
  i : Nat
  available : List Soquet
deriving DecidableEq

/-- A fresh builder with no registers, instances, or live soquets. -/
def BloqBuilder.empty : BloqBuilder := ⟨[], [], [], 0, []⟩

/-- Whether a new register's name is free on each side it occupies. -/
def regNameFree (regs : List Register) (r : Register) : Bool :=
  (!(r.side.onLeft) || !((Signature.mk regs).lefts.map (fun q => q.name)).contains r.name) &&
  (!(r.side.onRight) || !((Signature.mk regs).rights.map (fun q => q.name)).contains r.name)

/-- Modelled from the spec: declares a boundary register.  A register with a
left view contributes its left-dangling soquets to the live set at once,
returned to the caller as sources.  Fails with `invalidWidth` on a zero
width and with `duplicateRegister` on a name+side clash. -/
def BloqBuilder.add_register (bb : BloqBuilder) (r : Register) :
    Except BloqError (BloqBuilder × Option SoquetT) :=
  if r.bitsize == 0 then .error .invalidWidth
  else if regNameFree bb.regs r then
    .ok ({ bb with
            regs := bb.regs ++ [r],
            available := bb.available ++ (if r.side.onLeft then regUnitsAt .leftDangle r else []) },
         if r.side.onLeft then some (packSoqT .leftDangle r) else none)
  else .error .duplicateRegister

/-- Declares every register of a signature in order. -/
def fromRegs : List Register → BloqBuilder → Except BloqError BloqBuilder
  | [], bb => .ok bb
  | r :: rs, bb =>
    match bb.add_register r with
    | .error e => .error e
    | .ok p => fromRegs rs p.1

/-- Modelled from the spec: a fresh builder primed with the registers of a
signature (the notebook's `BloqBuilder.from_signature`). -/
def BloqBuilder.from_signature (s : Signature) : Except BloqError BloqBuilder :=
  fromRegs s.regs .empty

/-- Wires a sequence of provided unit soquets to destination ports built
from index tuples by `dest`, consuming each provided soquet from the live
set.  A soquet that is not live was already consumed: `soquetAlreadyUsed`.
A width disagreement against the port width `w` is `widthMismatch`; an
arity disagreement is the caller's error `aerr`. -/
def wireSeq (w : Nat) (dest : List Nat → Soquet) (aerr : BloqError) :
    List (List Nat) → List Soquet → BloqBuilder → Except BloqError BloqBuilder
  | [], [], bb => .ok bb
  | idx :: idxs, s :: ss, bb =>
    if s ∈ bb.available then
      if s.reg.bitsize == w then
        wireSeq w dest aerr idxs ss
          { bb with
            available := bb.available.erase s,
            cxns := bb.cxns ++ [⟨s, dest idx⟩] }
      else .error .widthMismatch
    else .error .soquetAlreadyUsed
  | _, _, _ => .error aerr

/-- Whether a bundle has the shape kind the register expects. -/
def kindOk (r : Register) : SoquetT → Bool
  | .one _ => r.shape.isEmpty
  | .arr _ => !r.shape.isEmpty

/-- Wires the provided keyword bundles over a register list in order, with
destination ports built per register by `dest2`; a name, kind, or coverage
disagreement is the caller's error `merr`. -/
def wireMany (dest2 : Register → List Nat → Soquet) (uerr merr : BloqError) :
    List Register → List (String × SoquetT) → BloqBuilder → Except BloqError BloqBuilder
  | [], [], bb => .ok bb
  | r :: rs, (n, st) :: ins, bb =>
    if n == r.name && kindOk r st then
      match wireSeq r.bitsize (dest2 r) uerr r.idxs st.units bb with
      | .error e => .error e
      | .ok bb2 => wireMany dest2 uerr merr rs ins bb2
    else .error merr
  | _, _, _ => .error merr

/-- Wires the provided unit soquets to the input ports of register `r` on
instance `bi`. -/
def wireUnits (bi : BloqInstance) (r : Register) :
    List (List Nat) → List Soquet → BloqBuilder → Except BloqError BloqBuilder :=
  wireSeq r.bitsize (fun idx => ⟨.inst bi, r, idx⟩) .registerMismatch

/-- Wires the provided keyword bundles to the left registers of the new
instance, in signature order; a name, kind, or coverage disagreement is
`registerMismatch`. -/
def wireAll (bi : BloqInstance) :
    List Register → List (String × SoquetT) → BloqBuilder → Except BloqError BloqBuilder :=
  wireMany (fun r idx => ⟨.inst bi, r, idx⟩) .registerMismatch .registerMismatch

/-- Modelled from the spec: adds one instance of an operation, wiring the
provided input soquets and minting the output soquets, returned as one
bundle per right register (the notebook's `add_t`, which always returns a
tuple). -/
def BloqBuilder.add_t (env : BloqEnv) (bb : BloqBuilder) (b : Bloq)
    (ins : List (String × SoquetT)) : Except BloqError (BloqBuilder × List SoquetT) :=
  if sigOk (bloqSig env b) then
    match wireAll ⟨b, bb.i⟩ (bloqSig env b).lefts ins bb with
    | .error e => .error e
    | .ok bb2 =>
      .ok ({ bb2 with
              i := bb.i + 1,
              binsts := bb2.binsts ++ [⟨b, bb.i⟩],
              available := bb2.available ++ outUnits env ⟨b, bb.i⟩ },
           (bloqSig env b).rights.map (packSoqT (.inst ⟨b, bb.i⟩)))
  else .error .duplicateRegister

/-- The unpacked result shape of `add`: nothing, a bare bundle, or a
tuple. -/
inductive AddResult where
  | nothing
  | single : SoquetT → AddResult
  | tuple : List SoquetT → AddResult
deriving DecidableEq

/-- Modelled from the spec: `add` is `add_t` with the result unpacked — no
value for an operation with no right registers, a bare bundle for exactly
one, and a tuple otherwise. -/
def BloqBuilder.add (env : BloqEnv) (bb : BloqBuilder) (b : Bloq)
    (ins : List (String × SoquetT)) : Except BloqError (BloqBuilder × AddResult) :=
  (bb.add_t env b ins).map (fun p => (p.1,
    match p.2 with
    | [] => .nothing
    | [st] => .single st
    | sts => .tuple sts))

/-- Wires the supplied final bundles over the declared right-side boundary
registers in order, to the right-dangling boundary ports; any coverage
disagreement is `boundaryMismatch`. -/
def finAll : List Register → List (String × SoquetT) → BloqBuilder → Except BloqError BloqBuilder :=
  wireMany (fun r idx => ⟨.rightDangle, r, idx⟩) .boundaryMismatch .boundaryMismatch

/-- Modelled from the spec: finalizes the builder: wires the supplied
soquets to the right-dangling boundary, checks that no produced soquet is
left unconsumed, and returns the immutable graph. -/
def BloqBuilder.finalize (bb : BloqBuilder) (fins : List (String × SoquetT)) :
    Except BloqError CompositeBloq :=
  match finAll (Signature.mk bb.regs).rights fins bb with
  | .error e => .error e
  | .ok bb2 =>
    if bb2.available.isEmpty then .ok ⟨⟨bb2.regs⟩, bb2.binsts, bb2.cxns⟩
    else .error .unconsumedSoquet

/-- One recorded builder call: a register declaration or an `add_t`. -/
inductive BAct where
  | areg : Register → BAct
  | aadd : Bloq → List (String × SoquetT) → BAct

/-- Runs one recorded builder call. -/
def runAct (env : BloqEnv) (bb : BloqBuilder) : BAct → Except BloqError BloqBuilder
  | .areg r => (bb.add_register r).map (fun p => p.1)
  | .aadd b ins => (bb.add_t env b ins).map (fun p => p.1)

/-- Runs a sequence of recorded builder calls. -/
def runActs (env : BloqEnv) : List BAct → BloqBuilder → Except BloqError BloqBuilder
  | [], bb => .ok bb
  | a :: rest, bb =>
    match runAct env bb a with
    | .error e => .error e
    | .ok bb2 => runActs env rest bb2

/-- Runs a full construction: the recorded calls from a fresh builder, then
`finalize`.  Every finalized composite graph is such a run's output. -/
def buildScript (env : BloqEnv) (acts : List BAct) (fins : List (String × SoquetT)) :
    Except BloqError CompositeBloq :=
  match runActs env acts .empty with
  | .error e => .error e
  | .ok bb => bb.finalize fins

/-- The connections feeding the inputs of an instance. -/
def CompositeBloq.preds (cb : CompositeBloq) (bi : BloqInstance) : List Connection :=
  cb.cxns.filter (fun c => c.right.binst == .inst bi)

/-- The connections leaving the outputs of an instance. -/
def CompositeBloq.succs (cb : CompositeBloq) (bi : BloqInstance) : List Connection :=
  cb.cxns.filter (fun c => c.left.binst == .inst bi)

/-- Modelled from the spec: iterates the instances in topological order
(creation order, which the builder guarantees is topological), each with
its predecessor and successor connections. -/
def CompositeBloq.iter_bloqnections (cb : CompositeBloq) :
    List (BloqInstance × List Connection × List Connection) :=
  cb.binsts.map (fun bi => (bi, cb.preds bi, cb.succs bi))

/-- Renders a side for the textual dump. -/
def sideText : Side → String
  | .left => "L"
  | .right => "R"
  | .thru => "T"

/-- Renders a holder for the textual dump. -/
def holderText : InstOrDangle → String
  | .inst bi => "I" ++ toString bi.bloq.id ++ "c" ++ toString bi.bloq.nctrl ++ "#" ++ toString bi.i
  | .leftDangle => "LeftDangle"
  | .rightDangle => "RightDangle"

/-- Renders an index tuple for the textual dump. -/
def idxText : List Nat → String
  | [] => ""
  | l => "[" ++ String.intercalate ", " (l.map toString) ++ "]"

/-- Renders a soquet for the textual dump. -/
def Soquet.text (s : Soquet) : String :=
  holderText s.binst ++ "." ++ s.reg.name ++ sideText s.reg.side ++ idxText s.idx

/-- Renders a connection for the textual dump. -/
def Connection.text (c : Connection) : String :=
  c.left.text ++ " -> " ++ c.right.text

/-- Modelled from the spec: the deterministic instance-by-instance textual
dump built over `iter_bloqnections`. -/
def CompositeBloq.debug_text (cb : CompositeBloq) : String :=
  String.intercalate "\n" (cb.iter_bloqnections.map (fun t =>
    holderText (.inst t.1) ++ "\n" ++
    String.intercalate "\n" (t.2.1.map (fun c => "  " ++ c.text)) ++ "\n" ++
    String.intercalate "\n" (t.2.2.map (fun c => "  " ++ c.text))))

/-- The source feeding a destination soquet, if any. -/
def CompositeBloq.soqInto (cb : CompositeBloq) (dest : Soquet) : Option Soquet :=
  (cb.cxns.find? (fun c => c.right == dest)).map (fun c => c.left)

/-- Collects a list of optional values, failing when any is missing. -/
def optList {α : Type} : List (Option α) → Option (List α)
  | [] => some []
  | none :: _ => none
  | some a :: rest => (optList rest).map (fun l => a :: l)

/-- The sources feeding every unit of register `r` on holder `h`. -/
def unitsInto (cb : CompositeBloq) (h : InstOrDangle) (r : Register) : Option (List Soquet) :=
  optList (r.idxs.map (fun idx => cb.soqInto ⟨h, r, idx⟩))

/-- The bundle of sources feeding register `r` on holder `h`. -/
def soqTInto (cb : CompositeBloq) (h : InstOrDangle) (r : Register) : Option SoquetT :=
  (unitsInto cb h r).map (packUnits r)

/-- The keyword bundles feeding the inputs of an instance, reconstructed
from the connections (the notebook's `iter_bloqsoqs` input view). -/
def cbloqIns (env : BloqEnv) (cb : CompositeBloq) (bi : BloqInstance) :
    Option (List (String × SoquetT)) :=
  optList ((bloqSig env bi.bloq).lefts.map (fun r =>
    (soqTInto cb (.inst bi) r).map (fun st => (r.name, st))))

/-- The keyword bundles feeding the right-dangling boundary (the
notebook's `final_soqs`). -/
def CompositeBloq.final_soqs (cb : CompositeBloq) : Option (List (String × SoquetT)) :=
  optList (cb.sig.rights.map (fun r =>
    (soqTInto cb .rightDangle r).map (fun st => (r.name, st))))

/-- Looks a soquet up in an old-to-new mapping, defaulting to itself (the
notebook's `map_soqs` on one soquet). -/
def mapSoq (m : List (Soquet × Soquet)) (s : Soquet) : Soquet :=
  ((m.find? (fun p => p.1 == s)).map (fun p => p.2)).getD s

/-- Maps every unit of a bundle through an old-to-new mapping. -/
def mapSoqT (m : List (Soquet × Soquet)) : SoquetT → SoquetT
  | .one s => .one (mapSoq m s)
  | .arr ss => .arr (ss.map (mapSoq m))

/-- Maps every keyword bundle through an old-to-new mapping. -/
def mapIns (m : List (Soquet × Soquet)) (ins : List (String × SoquetT)) :
    List (String × SoquetT) :=
  ins.map (fun p => (p.1, mapSoqT m p.2))

/-- The common copy-with-modification loop over a template graph: for each
instance, reconstruct its inputs, map them into the new builder, run the
per-instance action, and record the old-to-new output mapping. -/
def rebuildLoop (env : BloqEnv) (cb : CompositeBloq)
    (act : BloqBuilder → BloqInstance → List (String × SoquetT) →
      Except BloqError (BloqBuilder × List SoquetT)) :
    List BloqInstance → BloqBuilder → List (Soquet × Soquet) →
    Except BloqError (BloqBuilder × List (Soquet × Soquet))
  | [], bb, m => .ok (bb, m)
  | bi :: rest, bb, m =>
    match cbloqIns env cb bi with
    | none => .error .incompatibleConnection
    | some ins =>
      match act bb bi (mapIns m ins) with
      | .error e => .error e
      | .ok (bb2, outs) =>
        rebuildLoop env cb act rest bb2 (m ++ (outUnits env bi).zip (outs.flatMap SoquetT.units))

/-- Runs a copy-with-modification over a template graph: a fresh builder
from its signature, the loop, then finalize with the mapped final
soquets. -/
def rebuildWith (env : BloqEnv) (cb : CompositeBloq)
    (act : BloqBuilder → BloqInstance → List (String × SoquetT) →
      Except BloqError (BloqBuilder × List SoquetT)) :
    Except BloqError CompositeBloq :=
  match BloqBuilder.from_signature cb.sig with
  | .error e => .error e
  | .ok bb0 =>
    match rebuildLoop env cb act cb.binsts bb0 [] with
    | .error e => .error e
    | .ok (bb, m) =>
      match cb.final_soqs with
      | none => .error .danglingSoquetUnused
      | some fins => bb.finalize (mapIns m fins)

/-- Modelled from the spec: `copy` re-runs the builder over the topological
traversal, adding each instance's operation as-is (the loop reproduced in
the notebook). -/
def CompositeBloq.copy (env : BloqEnv) (cb : CompositeBloq) : Except BloqError CompositeBloq :=
  rebuildWith env cb (fun bb bi ins => bb.add_t env bi.bloq ins)

/-- Pairs the left-dangling unit soquets of a decomposition's boundary with
the caller-provided input bundles, checking names, kinds, and arities. -/
def bindDangles : List Register → List (String × SoquetT) →
    Except BloqError (List (Soquet × Soquet))
  | [], [] => .ok []
  | r :: rs, (n, st) :: ins =>
    if n == r.name && kindOk r st && (st.units.length == r.idxs.length) then
      match bindDangles rs ins with
      | .error e => .error e
      | .ok m => .ok (((regUnitsAt .leftDangle r).zip st.units) ++ m)
    else .error .registerMismatch
  | _, _ => .error .registerMismatch

/-- Modelled from the spec: splices the contents of a composite graph into
the builder under construction: each of its instances is added directly,
with the graph's boundary replaced by the provided inputs, and the mapped
final soquets returned as the outputs. -/
def BloqBuilder.add_from_cbloq (env : BloqEnv) (bb : BloqBuilder) (dcb : CompositeBloq)
    (ins : List (String × SoquetT)) : Except BloqError (BloqBuilder × List SoquetT) :=
  match bindDangles dcb.sig.lefts ins with
  | .error e => .error e
  | .ok m0 =>
    match rebuildLoop env dcb (fun b2 bi ins2 => b2.add_t env bi.bloq ins2) dcb.binsts bb m0 with
    | .error e => .error e
    | .ok (bb2, m) =>
      match dcb.final_soqs with
      | none => .error .danglingSoquetUnused
      | some fins => .ok (bb2, (mapIns m fins).map (fun p => p.2))

/-- Modelled from the spec: `add_from` on an operation decomposes it one
level and splices the decomposition; an operation without a decomposition
is `notDecomposable`. -/
def BloqBuilder.add_from (env : BloqEnv) (bb : BloqBuilder) (b : Bloq)
    (ins : List (String × SoquetT)) : Except BloqError (BloqBuilder × List SoquetT) :=
  match decompose env b with
  | some dcb => bb.add_from_cbloq env dcb ins
  | none => .error .notDecomposable

/-- Modelled from the spec: `flatten_once` rebuilds the graph, splicing the
decomposition of every predicate-selected instance via `add_from` and
copying every other instance through unchanged. -/
def CompositeBloq.flatten_once (env : BloqEnv) (pred : BloqInstance → Bool)
    (cb : CompositeBloq) : Except BloqError CompositeBloq :=
  rebuildWith env cb (fun bb bi ins =>
    if pred bi then bb.add_from env bi.bloq ins else bb.add_t env bi.bloq ins)

/-- Whether some predicate-selected instance remains decomposable. -/
def anyFlattenable (env : BloqEnv) (pred : BloqInstance → Bool) (cb : CompositeBloq) : Bool :=
  cb.binsts.any (fun bi => pred bi && (decompose env bi.bloq).isSome)

/-- The bounded flattening loop: while a selected instance remains
decomposable, flatten once (over the selected decomposable instances);
an exhausted bound is `flattenDepthExceeded`. -/
def flattenAux (env : BloqEnv) (pred : BloqInstance → Bool) :
    Nat → CompositeBloq → Except BloqError CompositeBloq
  | 0, cb =>
    if anyFlattenable env pred cb then .error .flattenDepthExceeded else .ok cb
  | fuel + 1, cb =>
    if anyFlattenable env pred cb then
      match cb.flatten_once env (fun bi => pred bi && (decompose env bi.bloq).isSome) with
      | .error e => .error e
      | .ok cb2 => flattenAux env pred fuel cb2
    else .ok cb

/-- Modelled from the spec: `flatten` repeats `flatten_once` until no
selected instance remains decomposable or the configurable iteration bound
is exceeded. -/
def CompositeBloq.flatten (env : BloqEnv) (pred : BloqInstance → Bool)
    (cb : CompositeBloq) (bound : Nat) : Except BloqError CompositeBloq :=
  flattenAux env pred bound cb

/-! ### Basic facts about shapes, units, and well-formed signatures -/

theorem shapeIdxs_nodup : ∀ ns : List Nat, (shapeIdxs ns).Nodup
  | [] => by simp [shapeIdxs]
  | n :: ns => by
    rw [shapeIdxs]
    refine List.nodup_flatMap.2 ⟨fun i _ => (shapeIdxs_nodup ns).map fun a b hab => ?_, ?_⟩
    · simpa using hab
    · refine ((List.nodup_range n).imp fun {i j} hij => ?_)
      simp only [Function.onFun]
      rw [List.disjoint_left]
      rintro x hx hy
      obtain ⟨t, _, rfl⟩ := List.mem_map.1 hx
      obtain ⟨u, _, hu⟩ := List.mem_map.1 hy
      injection hu with h1 h2
      exact hij h1.symm

@[simp]
theorem mem_regUnitsAt {s : Soquet} {h : InstOrDangle} {r : Register} :
    s ∈ regUnitsAt h r ↔ s.binst = h ∧ s.reg = r ∧ s.idx ∈ r.idxs := by
  constructor
  · intro hs
    obtain ⟨idx, hidx, rfl⟩ := List.mem_map.1 hs
    exact ⟨rfl, rfl, hidx⟩
  · rintro ⟨h1, h2, h3⟩
    refine List.mem_map.2 ⟨s.idx, h3, ?_⟩
    cases s
    simp_all

theorem regUnitsAt_nodup (h : InstOrDangle) (r : Register) : (regUnitsAt h r).Nodup :=
  (shapeIdxs_nodup r.shape).map fun a b hab => by injection hab

theorem regUnitsAt_length (h : InstOrDangle) (r : Register) :
    (regUnitsAt h r).length = r.idxs.length := List.length_map ..

theorem dupFree_iff {l : List String} : dupFree l = true ↔ l.Nodup := by
  induction l with
  | nil => simp [dupFree]
  | cons x xs ih => simp [dupFree, ih, List.elem_iff, List.contains]

/-- Units of registers with pairwise distinct names, on a fixed holder, are
pairwise distinct. -/
theorem unitsOver_nodup (h : InstOrDangle) (rs : List Register)
    (hn : (rs.map (fun r => r.name)).Nodup) : (rs.flatMap (regUnitsAt h)).Nodup := by
  refine List.nodup_flatMap.2 ⟨fun r _ => regUnitsAt_nodup h r, ?_⟩
  have hne : rs.Pairwise (fun a b => a.name ≠ b.name) := by
    have := List.pairwise_map.1 hn
    exact this
  refine hne.imp fun {a b} hab => ?_
  rw [Function.onFun, List.disjoint_left]
  intro x hx hy
  rw [mem_regUnitsAt] at hx hy
  exact hab (by rw [← hx.2.1, ← hy.2.1])

theorem sigOk_lefts_names {s : Signature} (hs : sigOk s = true) :
    (s.lefts.map (fun r => r.name)).Nodup := by
  rw [sigOk, Bool.and_eq_true] at hs
  exact dupFree_iff.1 hs.1

theorem sigOk_rights_names {s : Signature} (hs : sigOk s = true) :
    (s.rights.map (fun r => r.name)).Nodup := by
  rw [sigOk, Bool.and_eq_true] at hs
  exact dupFree_iff.1 hs.2

theorem inUnits_nodup {env : BloqEnv} {bi : BloqInstance}
    (hs : sigOk (bloqSig env bi.bloq) = true) : (inUnits env bi).Nodup :=
  unitsOver_nodup _ _ (sigOk_lefts_names hs)

theorem outUnits_nodup {env : BloqEnv} {bi : BloqInstance}
    (hs : sigOk (bloqSig env bi.bloq) = true) : (outUnits env bi).Nodup :=
  unitsOver_nodup _ _ (sigOk_rights_names hs)

theorem ldUnits_nodup {regs : List Register} (hs : sigOk ⟨regs⟩ = true) :
    (ldUnits regs).Nodup :=
  unitsOver_nodup _ _ (sigOk_lefts_names hs)

theorem rdUnits_nodup {regs : List Register} (hs : sigOk ⟨regs⟩ = true) :
    (rdUnits regs).Nodup :=
  unitsOver_nodup _ _ (sigOk_rights_names hs)

theorem binst_of_mem_inUnits {env : BloqEnv} {bi : BloqInstance} {s : Soquet}
    (hs : s ∈ inUnits env bi) : s.binst = .inst bi := by
  obtain ⟨r, _, hr⟩ := List.mem_flatMap.1 hs
  exact (mem_regUnitsAt.1 hr).1

theorem binst_of_mem_outUnits {env : BloqEnv} {bi : BloqInstance} {s : Soquet}
    (hs : s ∈ outUnits env bi) : s.binst = .inst bi := by
  obtain ⟨r, _, hr⟩ := List.mem_flatMap.1 hs
  exact (mem_regUnitsAt.1 hr).1

theorem binst_of_mem_ldUnits {regs : List Register} {s : Soquet}
    (hs : s ∈ ldUnits regs) : s.binst = .leftDangle := by
  obtain ⟨r, _, hr⟩ := List.mem_flatMap.1 hs
  exact (mem_regUnitsAt.1 hr).1

theorem binst_of_mem_rdUnits {regs : List Register} {s : Soquet}
    (hs : s ∈ rdUnits regs) : s.binst = .rightDangle := by
  obtain ⟨r, _, hr⟩ := List.mem_flatMap.1 hs
  exact (mem_regUnitsAt.1 hr).1

/-- Units of distinct instances are distinct soquets. -/
theorem instUnits_disjoint {env : BloqEnv} {bi bj : BloqInstance} (hne : bi ≠ bj)
    (s : Soquet) (hi : s ∈ outUnits env bi) : s ∉ outUnits env bj := by
  intro hj
  have h1 := binst_of_mem_outUnits hi
  have h2 := binst_of_mem_outUnits hj
  rw [h1] at h2
  exact hne (by injection h2)

/-- The full produced-soquet list of a builder state: the left-dangling
boundary units plus every instance's output units. -/
def produced (env : BloqEnv) (bb : BloqBuilder) : List Soquet :=
  ldUnits bb.regs ++ bb.binsts.flatMap (outUnits env)

/-- Output units over a duplicate-free instance list are pairwise
distinct. -/
theorem flatMap_outUnits_nodup {env : BloqEnv} {bis : List BloqInstance}
    (hd : bis.Nodup) (hs : ∀ bi ∈ bis, sigOk (bloqSig env bi.bloq) = true) :
    (bis.flatMap (outUnits env)).Nodup := by
  refine List.nodup_flatMap.2 ⟨fun bi hbi => outUnits_nodup (hs bi hbi), ?_⟩
  refine hd.imp fun {a b} hab => ?_
  simp only [Function.onFun]
  rw [List.disjoint_left]
  intro s hs
  exact instUnits_disjoint hab s hs

theorem flatMap_inUnits_nodup {env : BloqEnv} {bis : List BloqInstance}
    (hd : bis.Nodup) (hs : ∀ bi ∈ bis, sigOk (bloqSig env bi.bloq) = true) :
    (bis.flatMap (inUnits env)).Nodup := by
  refine List.nodup_flatMap.2 ⟨fun bi hbi => inUnits_nodup (hs bi hbi), ?_⟩
  refine hd.imp fun {a b} hab => ?_
  rw [Function.onFun, List.disjoint_left]
  intro s hi hj
  have h1 := binst_of_mem_inUnits hi
  have h2 := binst_of_mem_inUnits hj
  rw [h1] at h2
  exact hab (by injection h2)

/-! ### Characterizations of the wiring primitives -/

/-- Canonically shaped keyword bundles over a register list: names in
order, matching kinds, matching arities. -/
def insShaped : List Register → List (String × SoquetT) → Bool
  | [], [] => true
  | r :: rs, (n, st) :: ins =>
    n == r.name && kindOk r st && (st.units.length == r.idxs.length) && insShaped rs ins
  | _, _ => false

/-- Per-register width agreement of provided bundles. -/
def widthsMatch : List Register → List (String × SoquetT) → Bool
  | [], [] => true
  | r :: rs, (_, st) :: ins =>
    st.units.all (fun s => s.reg.bitsize == r.bitsize) && widthsMatch rs ins
  | _, _ => false

/-- The flattened unit soquets of a keyword bundle list. -/
def insUnits (ins : List (String × SoquetT)) : List Soquet :=
  ins.flatMap (fun p => p.2.units)

/-- The flattened destination ports built by `dest2` over a register
list. -/
def destUnits (dest2 : Register → List Nat → Soquet) (rs : List Register) : List Soquet :=
  rs.flatMap (fun r => r.idxs.map (dest2 r))

theorem destUnits_inst (env : BloqEnv) (bi : BloqInstance) :
    destUnits (fun r idx => ⟨.inst bi, r, idx⟩) (bloqSig env bi.bloq).lefts = inUnits env bi := rfl

theorem destUnits_rd (regs : List Register) :
    destUnits (fun r idx => ⟨.rightDangle, r, idx⟩) (Signature.mk regs).rights = rdUnits regs := rfl

theorem zipWith_mk_map_left : ∀ {us ds : List Soquet}, us.length = ds.length →
    (List.zipWith Connection.mk us ds).map (fun c => c.left) = us
  | [], [], _ => rfl
  | u :: us, d :: ds, h => by
    simp only [List.zipWith_cons_cons, List.map_cons]
    rw [zipWith_mk_map_left (by simpa using h)]
  | [], _ :: _, h => by simp at h
  | _ :: _, [], h => by simp at h

theorem zipWith_mk_map_right : ∀ {us ds : List Soquet}, us.length = ds.length →
    (List.zipWith Connection.mk us ds).map (fun c => c.right) = ds
  | [], [], _ => rfl
  | u :: us, d :: ds, h => by
    simp only [List.zipWith_cons_cons, List.map_cons]
    rw [zipWith_mk_map_right (by simpa using h)]
  | [], _ :: _, h => by simp at h
  | _ :: _, [], h => by simp at h

/-- Forward characterization of a successful `wireSeq`: registers,
instances, and the counter are untouched; the new connections pair the
provided sources with the destination ports positionally; the provided
sources were live and are consumed. -/
theorem wireSeq_ok {w : Nat} {dest : List Nat → Soquet} {aerr : BloqError} :
    ∀ {idxs : List (List Nat)} {ss : List Soquet} {bb bb2 : BloqBuilder},
    wireSeq w dest aerr idxs ss bb = .ok bb2 →
    bb2.regs = bb.regs ∧ bb2.binsts = bb.binsts ∧ bb2.i = bb.i ∧
    ss.length = idxs.length ∧
    bb2.cxns = bb.cxns ++ List.zipWith Connection.mk ss (idxs.map dest) ∧
    bb.available.Perm (ss ++ bb2.available) ∧
    (∀ s ∈ ss, s ∈ bb.available ∧ s.reg.bitsize = w)
  | [], [], bb, bb2, h => by
    simp only [wireSeq] at h
    cases h
    simp
  | idx :: idxs, s :: ss, bb, bb2, h => by
    simp only [wireSeq] at h
    by_cases hmem : s ∈ bb.available
    · rw [if_pos hmem] at h
      by_cases hw : s.reg.bitsize = w
      · rw [if_pos (by simpa using hw)] at h
        obtain ⟨h1, h2, h3, h4, h5, h6, h7⟩ := wireSeq_ok h
        refine ⟨h1, h2, h3, by simpa using h4, ?_, ?_, ?_⟩
        · simpa [List.append_assoc] using h5
        · exact (List.perm_cons_erase hmem).trans (h6.cons s)
        · intro t ht
          rcases List.mem_cons.1 ht with rfl | ht2
          · exact ⟨hmem, hw⟩
          · exact ⟨List.erase_subset _ _ (h7 t ht2).1, (h7 t ht2).2⟩
      · rw [if_neg (by simpa using hw)] at h
        cases h
    · rw [if_neg hmem] at h
      cases h
  | [], _ :: _, bb, bb2, h => by simp only [wireSeq] at h; cases h
  | _ :: _, [], bb, bb2, h => by simp only [wireSeq] at h; cases h

/-- A backward lemma: distinct live sources of the right width wire
successfully. -/
theorem wireSeq_ok_of {w : Nat} {dest : List Nat → Soquet} {aerr : BloqError} :
    ∀ {idxs : List (List Nat)} {ss : List Soquet} {bb : BloqBuilder},
    ss.length = idxs.length → ss.Nodup →
    (∀ s ∈ ss, s ∈ bb.available) → (∀ s ∈ ss, s.reg.bitsize = w) →
    ∃ bb2, wireSeq w dest aerr idxs ss bb = .ok bb2
  | [], [], bb, _, _, _, _ => ⟨bb, rfl⟩
  | idx :: idxs, s :: ss, bb, hlen, hnd, hmem, hw => by
    have hmem0 : s ∈ bb.available := hmem s (List.mem_cons_self ..)
    have hw0 : s.reg.bitsize = w := hw s (List.mem_cons_self ..)
    obtain ⟨bb2, hbb2⟩ := @wireSeq_ok_of w dest aerr idxs ss
      { bb with
        available := bb.available.erase s,
        cxns := bb.cxns ++ [⟨s, dest idx⟩] }
      (by simpa using hlen) (List.Nodup.of_cons hnd)
      (fun t ht => by
        have hne : t ≠ s := by
          rintro rfl
          exact (List.nodup_cons.1 hnd).1 ht
        exact (List.mem_erase_of_ne hne).2 (hmem t (List.mem_cons_of_mem _ ht)))
      (fun t ht => hw t (List.mem_cons_of_mem _ ht))
    exact ⟨bb2, by
      simp only [wireSeq, if_pos hmem0, hw0, beq_self_eq_true, if_true]
      exact hbb2⟩
  | [], _ :: _, bb, hlen, _, _, _ => by simp at hlen
  | _ :: _, [], bb, hlen, _, _, _ => by simp at hlen

/-- A source that is no longer live fails at once with
`soquetAlreadyUsed`. -/
theorem wireSeq_already_used {w : Nat} {dest : List Nat → Soquet} {aerr : BloqError}
    {idx : List Nat} {idxs : List (List Nat)} {s : Soquet} {ss : List Soquet}
    {bb : BloqBuilder} (h : s ∉ bb.available) :
    wireSeq w dest aerr (idx :: idxs) (s :: ss) bb = .error .soquetAlreadyUsed := by
  simp only [wireSeq, if_neg h]

theorem zipWith_mk_append : ∀ {us1 ds1 : List Soquet}, us1.length = ds1.length →
    ∀ (us2 ds2 : List Soquet),
    List.zipWith Connection.mk (us1 ++ us2) (ds1 ++ ds2) =
      List.zipWith Connection.mk us1 ds1 ++ List.zipWith Connection.mk us2 ds2
  | [], [], _, us2, ds2 => rfl
  | u :: us1, d :: ds1, h, us2, ds2 => by
    simp only [List.cons_append, List.zipWith_cons_cons]
    rw [zipWith_mk_append (by simpa using h)]

@[simp]
theorem insUnits_nil : insUnits [] = [] := rfl

@[simp]
theorem insUnits_cons (p : String × SoquetT) (ins : List (String × SoquetT)) :
    insUnits (p :: ins) = p.2.units ++ insUnits ins := rfl

@[simp]
theorem destUnits_nil (dest2 : Register → List Nat → Soquet) : destUnits dest2 [] = [] := rfl

@[simp]
theorem destUnits_cons (dest2 : Register → List Nat → Soquet) (r : Register)
    (rs : List Register) :
    destUnits dest2 (r :: rs) = r.idxs.map (dest2 r) ++ destUnits dest2 rs := rfl

/-- Forward characterization of a successful `wireMany`: the bundles are
canonically shaped and width-correct, and the new connections pair the
flattened provided units with the flattened destination ports
positionally. -/
theorem wireMany_ok {dest2 : Register → List Nat → Soquet} {uerr merr : BloqError} :
    ∀ {rs : List Register} {ins : List (String × SoquetT)} {bb bb2 : BloqBuilder},
    wireMany dest2 uerr merr rs ins bb = .ok bb2 →
    bb2.regs = bb.regs ∧ bb2.binsts = bb.binsts ∧ bb2.i = bb.i ∧
    insShaped rs ins = true ∧ widthsMatch rs ins = true ∧
    (insUnits ins).length = (destUnits dest2 rs).length ∧
    bb2.cxns = bb.cxns ++ List.zipWith Connection.mk (insUnits ins) (destUnits dest2 rs) ∧
    bb.available.Perm (insUnits ins ++ bb2.available) ∧
    (∀ s ∈ insUnits ins, s ∈ bb.available)
  | [], [], bb, bb2, h => by
    simp only [wireMany] at h
    cases h
    simp [insShaped, widthsMatch]
  | r :: rs, (n, st) :: ins, bb, bb2, h => by
    simp only [wireMany] at h
    by_cases hc : (n == r.name && kindOk r st) = true
    · rw [if_pos hc] at h
      rcases hseq : wireSeq r.bitsize (dest2 r) uerr r.idxs st.units bb with e | bbm
      · rw [hseq] at h; cases h
      · rw [hseq] at h
        obtain ⟨s1, s2, s3, s4, s5, s6, s7⟩ := wireSeq_ok hseq
        obtain ⟨t1, t2, t3, t4, t5, t6, t7, t8, t9⟩ := wireMany_ok h
        have hlen : st.units.length = (r.idxs.map (dest2 r)).length := by
          simpa using s4
        refine ⟨t1.trans s1, t2.trans s2, t3.trans s3, ?_, ?_, ?_, ?_, ?_, ?_⟩
        · simp only [insShaped, hc, t4, Bool.and_true, Bool.true_and]
          simpa using s4
        · simp only [widthsMatch, t5, Bool.and_true]
          exact List.all_eq_true.2 fun s hs => by simpa using (s7 s hs).2
        · simp only [insUnits_cons, destUnits_cons, List.length_append, t6]
          simpa using s4
        · rw [insUnits_cons, destUnits_cons, zipWith_mk_append hlen, t7, s5,
            List.append_assoc]
        · refine (s6.trans (List.Perm.append_left st.units t8)).trans ?_
          simp [List.append_assoc]
        · intro s hs
          rcases List.mem_append.1 (by simpa using hs) with h1 | h1
          · exact (s7 s h1).1
          · exact s6.mem_iff.2 (List.mem_append.2 (Or.inr (t9 s h1)))
    · rw [if_neg hc] at h
      cases h
  | [], (n, st) :: ins, bb, bb2, h => by simp only [wireMany] at h; cases h
  | r :: rs, [], bb, bb2, h => by simp only [wireMany] at h; cases h

/-- A backward lemma: canonically shaped, width-correct bundles whose
units are distinct and live wire successfully. -/
theorem wireMany_ok_of {dest2 : Register → List Nat → Soquet} {uerr merr : BloqError} :
    ∀ {rs : List Register} {ins : List (String × SoquetT)} {bb : BloqBuilder},
    insShaped rs ins = true → widthsMatch rs ins = true →
    (insUnits ins).Nodup → (∀ s ∈ insUnits ins, s ∈ bb.available) →
    ∃ bb2, wireMany dest2 uerr merr rs ins bb = .ok bb2
  | [], [], bb, _, _, _, _ => ⟨bb, rfl⟩
  | r :: rs, (n, st) :: ins, bb, hsh, hwm, hnd, hmem => by
    simp only [insShaped, Bool.and_eq_true] at hsh
    simp only [widthsMatch, Bool.and_eq_true] at hwm
    have hnd1 : st.units.Nodup := (List.nodup_append.1 (by simpa using hnd)).1
    have hnd2 : (insUnits ins).Nodup := (List.nodup_append.1 (by simpa using hnd)).2.1
    have hdisj : st.units.Disjoint (insUnits ins) :=
      (List.nodup_append.1 (by simpa using hnd)).2.2
    obtain ⟨bbm, hbbm⟩ := @wireSeq_ok_of r.bitsize (dest2 r) uerr r.idxs st.units bb
      (by simpa using hsh.1.2) hnd1
      (fun s hs => hmem s (by simp [hs]))
      (fun s hs => by simpa using List.all_eq_true.1 hwm.1 s hs)
    obtain ⟨s1, s2, s3, s4, s5, s6, s7⟩ := wireSeq_ok hbbm
    obtain ⟨bb2, hbb2⟩ := @wireMany_ok_of dest2 uerr merr rs ins bbm hsh.2 hwm.2 hnd2
      (fun s hs => by
        have hin : s ∈ st.units ++ bbm.available :=
          s6.mem_iff.1 (hmem s (by simp [hs]))
        rcases List.mem_append.1 hin with h1 | h1
        · exact absurd hs (hdisj h1)
        · exact h1)
    refine ⟨bb2, ?_⟩
    have hc : (n == r.name && kindOk r st) = true := by
      simp [hsh.1.1.1, hsh.1.1.2]
    simp only [wireMany, if_pos hc, hbbm]
    exact hbb2
  | [], (n, st) :: ins, bb, hsh, _, _, _ => by simp [insShaped] at hsh
  | r :: rs, [], bb, hsh, _, _, _ => by simp [insShaped] at hsh

/-! ### Characterizations of the builder operations -/

/-- Forward characterization of a successful `add_t`. -/
theorem add_t_ok {env : BloqEnv} {bb : BloqBuilder} {b : Bloq}
    {ins : List (String × SoquetT)} {bb2 : BloqBuilder} {outs : List SoquetT}
    (h : bb.add_t env b ins = .ok (bb2, outs)) :
    sigOk (bloqSig env b) = true ∧
    insShaped (bloqSig env b).lefts ins = true ∧
    widthsMatch (bloqSig env b).lefts ins = true ∧
    outs = (bloqSig env b).rights.map (packSoqT (.inst ⟨b, bb.i⟩)) ∧
    bb2.regs = bb.regs ∧ bb2.i = bb.i + 1 ∧
    bb2.binsts = bb.binsts ++ [⟨b, bb.i⟩] ∧
    (insUnits ins).length = (inUnits env ⟨b, bb.i⟩).length ∧
    bb2.cxns = bb.cxns ++ List.zipWith Connection.mk (insUnits ins) (inUnits env ⟨b, bb.i⟩) ∧
    (bb.available ++ outUnits env ⟨b, bb.i⟩).Perm (insUnits ins ++ bb2.available) ∧
    (∀ s ∈ insUnits ins, s ∈ bb.available) := by
  rw [BloqBuilder.add_t] at h
  by_cases hsig : sigOk (bloqSig env b) = true
  · rw [if_pos hsig] at h
    rcases hw : wireAll ⟨b, bb.i⟩ (bloqSig env b).lefts ins bb with e | bbm
    · rw [hw] at h; cases h
    · rw [hw] at h
      obtain ⟨hbb2, houts⟩ : bb2 = { bbm with
          i := bb.i + 1,
          binsts := bbm.binsts ++ [⟨b, bb.i⟩],
          available := bbm.available ++ outUnits env ⟨b, bb.i⟩ } ∧
          outs = (bloqSig env b).rights.map (packSoqT (.inst ⟨b, bb.i⟩)) := by
        cases h; exact ⟨rfl, rfl⟩
      obtain ⟨t1, t2, t3, t4, t5, t6, t7, t8, t9⟩ := wireMany_ok hw
      subst hbb2
      refine ⟨hsig, t4, t5, houts, t1, rfl, by rw [t2], by simpa using t6,
        by rw [t7]; rfl, ?_, t9⟩
      have hp := t8.append_right (outUnits env ⟨b, bb.i⟩)
      rw [List.append_assoc] at hp
      exact hp
  · rw [if_neg hsig] at h
    cases h

/-- A backward lemma: a well-formed operation with canonically shaped,
width-correct, distinct, live inputs adds successfully. -/
theorem add_t_ok_of {env : BloqEnv} {bb : BloqBuilder} {b : Bloq}
    {ins : List (String × SoquetT)}
    (h1 : sigOk (bloqSig env b) = true)
    (h2 : insShaped (bloqSig env b).lefts ins = true)
    (h3 : widthsMatch (bloqSig env b).lefts ins = true)
    (h4 : (insUnits ins).Nodup)
    (h5 : ∀ s ∈ insUnits ins, s ∈ bb.available) :
    ∃ bb2, bb.add_t env b ins =
      .ok (bb2, (bloqSig env b).rights.map (packSoqT (.inst ⟨b, bb.i⟩))) := by
  obtain ⟨bbm, hbbm⟩ :=
    @wireMany_ok_of (fun r idx => ⟨.inst ⟨b, bb.i⟩, r, idx⟩) .registerMismatch .registerMismatch
      (bloqSig env b).lefts ins bb h2 h3 h4 h5
  refine ⟨{ bbm with
      i := bb.i + 1,
      binsts := bbm.binsts ++ [⟨b, bb.i⟩],
      available := bbm.available ++ outUnits env ⟨b, bb.i⟩ }, ?_⟩
  rw [BloqBuilder.add_t, if_pos h1]
  have : wireAll ⟨b, bb.i⟩ (bloqSig env b).lefts ins bb = .ok bbm := hbbm
  rw [this]

/-- Forward characterization of a successful `add_register`. -/
theorem add_register_ok {bb : BloqBuilder} {r : Register} {bb2 : BloqBuilder}
    {os : Option SoquetT} (h : bb.add_register r = .ok (bb2, os)) :
    bb2.regs = bb.regs ++ [r] ∧ bb2.binsts = bb.binsts ∧ bb2.cxns = bb.cxns ∧
    bb2.i = bb.i ∧
    bb2.available = bb.available ++ (if r.side.onLeft then regUnitsAt .leftDangle r else []) ∧
    r.bitsize ≠ 0 ∧ regNameFree bb.regs r = true := by
  rw [BloqBuilder.add_register] at h
  by_cases hz : (r.bitsize == 0) = true
  · rw [if_pos hz] at h; cases h
  · rw [if_neg hz] at h
    by_cases hf : regNameFree bb.regs r = true
    · rw [if_pos hf] at h
      cases h
      exact ⟨rfl, rfl, rfl, rfl, rfl, by simpa using hz, hf⟩
    · rw [if_neg hf] at h; cases h

theorem dupFree_append_singleton {l : List String} {x : String} :
    dupFree (l ++ [x]) = true ↔ dupFree l = true ∧ x ∉ l := by
  rw [dupFree_iff, dupFree_iff, List.nodup_append]
  simp [List.disjoint_left]

/-- `add_register` preserves well-formedness of the declared boundary. -/
theorem add_register_regsOk {bb : BloqBuilder} {r : Register} {bb2 : BloqBuilder}
    {os : Option SoquetT} (h : bb.add_register r = .ok (bb2, os))
    (hok : sigOk ⟨bb.regs⟩ = true) : sigOk ⟨bb2.regs⟩ = true := by
  obtain ⟨h1, _, _, _, _, _, hf⟩ := add_register_ok h
  rw [h1]
  rw [regNameFree, Bool.and_eq_true] at hf
  rw [sigOk, Bool.and_eq_true] at hok ⊢
  constructor
  · show dupFree ((Signature.mk (bb.regs ++ [r])).lefts.map (fun q => q.name)) = true
    rw [show (Signature.mk (bb.regs ++ [r])).lefts =
        (Signature.mk bb.regs).lefts ++ (Signature.mk [r]).lefts from List.filter_append ..]
    by_cases hl : r.side.onLeft = true
    · have : (Signature.mk [r]).lefts = [r] := by
        simp [Signature.lefts, List.filter, hl]
      rw [this, List.map_append]
      refine dupFree_append_singleton.2 ⟨hok.1, ?_⟩
      have := hf.1
      rw [Bool.or_eq_true] at this
      rcases this with h2 | h2
      · simp [hl] at h2
      · intro hmem
        rw [Bool.not_eq_true'] at h2
        have hc2 : ((Signature.mk bb.regs).lefts.map (fun q => q.name)).contains r.name = true := by
          simp only [List.contains, List.elem_iff]
          exact hmem
        rw [hc2] at h2
        cases h2
    · have : (Signature.mk [r]).lefts = [] := by
        simp [Signature.lefts, List.filter, hl]
      rw [this, List.append_nil]
      exact hok.1
  · show dupFree ((Signature.mk (bb.regs ++ [r])).rights.map (fun q => q.name)) = true
    rw [show (Signature.mk (bb.regs ++ [r])).rights =
        (Signature.mk bb.regs).rights ++ (Signature.mk [r]).rights from List.filter_append ..]
    by_cases hl : r.side.onRight = true
    · have : (Signature.mk [r]).rights = [r] := by
        simp [Signature.rights, List.filter, hl]
      rw [this, List.map_append]
      refine dupFree_append_singleton.2 ⟨hok.2, ?_⟩
      have := hf.2
      rw [Bool.or_eq_true] at this
      rcases this with h2 | h2
      · simp [hl] at h2
      · intro hmem
        rw [Bool.not_eq_true'] at h2
        have hc2 : ((Signature.mk bb.regs).rights.map (fun q => q.name)).contains r.name = true := by
          simp only [List.contains, List.elem_iff]
          exact hmem
        rw [hc2] at h2
        cases h2
    · have : (Signature.mk [r]).rights = [] := by
        simp [Signature.rights, List.filter, hl]
      rw [this, List.append_nil]
      exact hok.2

theorem ldUnits_append (rs1 rs2 : List Register) :
    ldUnits (rs1 ++ rs2) = ldUnits rs1 ++ ldUnits rs2 := by
  rw [ldUnits, List.filter_append, List.flatMap_append]
  rfl

theorem rdUnits_append (rs1 rs2 : List Register) :
    rdUnits (rs1 ++ rs2) = rdUnits rs1 ++ rdUnits rs2 := by
  rw [rdUnits, List.filter_append, List.flatMap_append]
  rfl

theorem ldUnits_singleton (r : Register) :
    ldUnits [r] = if r.side.onLeft then regUnitsAt .leftDangle r else [] := by
  by_cases hl : r.side.onLeft = true
  · simp [ldUnits, List.filter, hl]
  · simp [ldUnits, List.filter, hl]

/-- Forward characterization of a successful register-prefix run. -/
theorem fromRegs_ok : ∀ {rs : List Register} {bb bb2 : BloqBuilder},
    fromRegs rs bb = .ok bb2 →
    bb2.regs = bb.regs ++ rs ∧ bb2.binsts = bb.binsts ∧ bb2.cxns = bb.cxns ∧
    bb2.i = bb.i ∧ bb2.available = bb.available ++ ldUnits rs ∧
    (sigOk ⟨bb.regs⟩ = true → sigOk ⟨bb2.regs⟩ = true)
  | [], bb, bb2, h => by
    cases h
    simp [ldUnits]
  | r :: rs, bb, bb2, h => by
    rw [fromRegs] at h
    rcases hr : bb.add_register r with e | p
    · rw [hr] at h; cases h
    · rw [hr] at h
      obtain ⟨h1, h2, h3, h4, h5, _, _⟩ := add_register_ok hr
      obtain ⟨t1, t2, t3, t4, t5, t6⟩ := fromRegs_ok h
      refine ⟨by rw [t1, h1, List.append_assoc]; rfl, t2.trans h2, t3.trans h3,
        t4.trans h4, ?_, ?_⟩
      · rw [t5, h5, show ldUnits (r :: rs) = ldUnits [r] ++ ldUnits rs from ldUnits_append [r] rs,
          ldUnits_singleton, List.append_assoc]
      · intro hok
        exact t6 (add_register_regsOk hr hok)

/-- Forward characterization of a successful `from_signature`. -/
theorem from_signature_ok {s : Signature} {bb0 : BloqBuilder}
    (h : BloqBuilder.from_signature s = .ok bb0) :
    bb0.regs = s.regs ∧ bb0.binsts = [] ∧ bb0.cxns = [] ∧ bb0.i = 0 ∧
    bb0.available = ldUnits s.regs := by
  obtain ⟨h1, h2, h3, h4, h5, _⟩ := fromRegs_ok h
  exact ⟨by simpa using h1, h2, h3, h4, by simpa using h5⟩

/-! ### The builder invariant -/

theorem perm_shuffle {α : Type} {av2 L I avb O P : List α}
    (h1 : (avb ++ O).Perm (I ++ av2)) (h2 : (avb ++ L).Perm P) :
    (av2 ++ (L ++ I)).Perm (P ++ O) := by
  refine Multiset.coe_eq_coe.1 ?_
  have m1 : (avb : Multiset α) + ↑O = ↑I + ↑av2 := Multiset.coe_eq_coe.2 h1
  have m2 : (avb : Multiset α) + ↑L = ↑P := Multiset.coe_eq_coe.2 h2
  show (av2 : Multiset α) + (↑L + ↑I) = ↑P + ↑O
  calc (av2 : Multiset α) + (↑L + ↑I) = (↑I + ↑av2) + ↑L := by abel
    _ = (↑avb + ↑O) + ↑L := by rw [m1]
    _ = (↑avb + ↑L) + ↑O := by abel
    _ = ↑P + ↑O := by rw [m2]

/-- Width agreement of the positionally zipped new connections. -/
theorem zip_widths {dest2 : Register → List Nat → Soquet}
    (hdest : ∀ r idx, (dest2 r idx).reg = r) :
    ∀ {rs : List Register} {ins : List (String × SoquetT)},
    insShaped rs ins = true → widthsMatch rs ins = true →
    ∀ c ∈ List.zipWith Connection.mk (insUnits ins) (destUnits dest2 rs),
      c.left.reg.bitsize = c.right.reg.bitsize
  | [], [], _, _ => by simp
  | r :: rs, (n, st) :: ins, hsh, hwm => by
    simp only [insShaped, Bool.and_eq_true] at hsh
    simp only [widthsMatch, Bool.and_eq_true] at hwm
    intro c hc
    rw [insUnits_cons, destUnits_cons,
      zipWith_mk_append (by simpa using hsh.1.2)] at hc
    rcases List.mem_append.1 hc with h1 | h1
    · have hl : c.left ∈ st.units := by
        have hmm : c.left ∈ (List.zipWith Connection.mk st.units
            (r.idxs.map (dest2 r))).map (fun c => c.left) := List.mem_map.2 ⟨c, h1, rfl⟩
        rwa [zipWith_mk_map_left (by simpa using hsh.1.2)] at hmm
      have hr : c.right ∈ r.idxs.map (dest2 r) := by
        have hmm : c.right ∈ (List.zipWith Connection.mk st.units
            (r.idxs.map (dest2 r))).map (fun c => c.right) := List.mem_map.2 ⟨c, h1, rfl⟩
        rwa [zipWith_mk_map_right (by simpa using hsh.1.2)] at hmm
      obtain ⟨idx, _, hidx⟩ := List.mem_map.1 hr
      have h2 : c.left.reg.bitsize = r.bitsize := by
        simpa using List.all_eq_true.1 hwm.1 c.left hl
      rw [h2, ← hidx, hdest]
    · exact zip_widths hdest hsh.2 hwm.2 c h1
  | [], (n, st) :: ins, hsh, _ => by simp [insShaped] at hsh
  | r :: rs, [], hsh, _ => by simp [insShaped] at hsh

/-- The invariant every open builder reachable through the public
operations maintains. -/
structure BInv (env : BloqEnv) (bb : BloqBuilder) : Prop where
  ids : bb.binsts.map (fun bi => bi.i) = List.range bb.i
  sigsOk : ∀ bi ∈ bb.binsts, sigOk (bloqSig env bi.bloq) = true
  regsOk : sigOk ⟨bb.regs⟩ = true
  rightsExact : bb.cxns.map (fun c => c.right) = bb.binsts.flatMap (inUnits env)
  leftsPerm : (bb.available ++ bb.cxns.map (fun c => c.left)).Perm (produced env bb)
  widthsOk : ∀ c ∈ bb.cxns, c.left.reg.bitsize = c.right.reg.bitsize
  orderOk : ∀ c ∈ bb.cxns, ∀ bi ∈ bb.binsts, c.right.binst = .inst bi →
    c.left ∈ ldUnits bb.regs ∨ ∃ bj ∈ bb.binsts, bj.i < bi.i ∧ c.left ∈ outUnits env bj
  widthsPos : ∀ r ∈ bb.regs, r.bitsize ≠ 0

theorem BInv.binsts_nodup {env : BloqEnv} {bb : BloqBuilder} (h : BInv env bb) :
    bb.binsts.Nodup :=
  List.Nodup.of_map _ (h.ids ▸ List.nodup_range bb.i)

theorem BInv.bi_lt {env : BloqEnv} {bb : BloqBuilder} (h : BInv env bb)
    {bi : BloqInstance} (hbi : bi ∈ bb.binsts) : bi.i < bb.i := by
  have : bi.i ∈ bb.binsts.map (fun bi => bi.i) := List.mem_map.2 ⟨bi, hbi, rfl⟩
  rw [h.ids] at this
  exact List.mem_range.1 this

theorem BInv.produced_nodup {env : BloqEnv} {bb : BloqBuilder} (h : BInv env bb) :
    (produced env bb).Nodup := by
  refine List.Nodup.append (ldUnits_nodup h.regsOk)
    (flatMap_outUnits_nodup h.binsts_nodup h.sigsOk) ?_
  intro s hs1 hs2
  obtain ⟨bj, _, hbj⟩ := List.mem_flatMap.1 hs2
  have h1 := binst_of_mem_ldUnits hs1
  have h2 := binst_of_mem_outUnits hbj
  rw [h1] at h2
  cases h2

theorem BInv.available_sub {env : BloqEnv} {bb : BloqBuilder} (h : BInv env bb)
    {s : Soquet} (hs : s ∈ bb.available) : s ∈ produced env bb :=
  h.leftsPerm.mem_iff.1 (List.mem_append.2 (Or.inl hs))

theorem BInv.available_nodup {env : BloqEnv} {bb : BloqBuilder} (h : BInv env bb) :
    bb.available.Nodup :=
  ((h.leftsPerm.nodup_iff.2 h.produced_nodup).sublist (List.sublist_append_left ..))

theorem mem_produced_cases {env : BloqEnv} {bb : BloqBuilder} {s : Soquet}
    (hs : s ∈ produced env bb) :
    s ∈ ldUnits bb.regs ∨ ∃ bj ∈ bb.binsts, s ∈ outUnits env bj := by
  rcases List.mem_append.1 hs with h1 | h1
  · exact Or.inl h1
  · obtain ⟨bj, hbj, hmem⟩ := List.mem_flatMap.1 h1
    exact Or.inr ⟨bj, hbj, hmem⟩

/-- The fresh builder satisfies the invariant. -/
theorem BInv.empty (env : BloqEnv) : BInv env .empty := by
  refine ⟨rfl, ?_, by decide, rfl, ?_, ?_, ?_, ?_⟩ <;>
    simp [BloqBuilder.empty, produced, ldUnits]

/-- `add_register` preserves the invariant. -/
theorem BInv.add_register {env : BloqEnv} {bb : BloqBuilder} {r : Register}
    {bb2 : BloqBuilder} {os : Option SoquetT} (hin : BInv env bb)
    (h : bb.add_register r = .ok (bb2, os)) : BInv env bb2 := by
  obtain ⟨h1, h2, h3, h4, h5, h6, h7⟩ := add_register_ok h
  refine ⟨by rw [h2, h4]; exact hin.ids, by rw [h2]; exact hin.sigsOk,
    add_register_regsOk h hin.regsOk, by rw [h3, h2]; exact hin.rightsExact, ?_, ?_, ?_, ?_⟩
  · rw [h3, h5]
    have hprod : produced env bb2 =
        (ldUnits bb.regs ++ (if r.side.onLeft then regUnitsAt .leftDangle r else [])) ++
          bb.binsts.flatMap (outUnits env) := by
      rw [produced, h1, h2, ldUnits_append, ldUnits_singleton]
    rw [hprod]
    refine Multiset.coe_eq_coe.1 ?_
    have m1 := Multiset.coe_eq_coe.2 hin.leftsPerm
    show ((bb.available ++ (if r.side.onLeft then regUnitsAt .leftDangle r else [])
        : List Soquet) : Multiset Soquet) + ↑(bb.cxns.map (fun c => c.left)) = _
    have m1' : ((bb.available : List Soquet) : Multiset Soquet) +
        ↑(bb.cxns.map (fun c => c.left)) = ↑(produced env bb) := m1
    show (↑bb.available + ↑(if r.side.onLeft then regUnitsAt .leftDangle r else [])
        : Multiset Soquet) + ↑(bb.cxns.map (fun c => c.left)) =
      (↑(ldUnits bb.regs) + ↑(if r.side.onLeft then regUnitsAt .leftDangle r else []))
        + ↑(bb.binsts.flatMap (outUnits env))
    have hp : ((produced env bb : List Soquet) : Multiset Soquet) =
        ↑(ldUnits bb.regs) + ↑(bb.binsts.flatMap (outUnits env)) := rfl
    rw [hp] at m1'
    calc (↑bb.available + ↑(if r.side.onLeft then regUnitsAt .leftDangle r else [])
        : Multiset Soquet) + ↑(bb.cxns.map (fun c => c.left))
        = (↑bb.available + ↑(bb.cxns.map (fun c => c.left))) +
          ↑(if r.side.onLeft then regUnitsAt .leftDangle r else []) := by abel
      _ = (↑(ldUnits bb.regs) + ↑(bb.binsts.flatMap (outUnits env))) +
          ↑(if r.side.onLeft then regUnitsAt .leftDangle r else []) := by rw [m1']
      _ = _ := by abel
  · rw [h3]
    exact hin.widthsOk
  · rw [h3, h2, h1]
    intro c hc bi hbi hr
    rcases hin.orderOk c hc bi hbi hr with hld | hout
    · exact Or.inl (by rw [ldUnits_append]; exact List.mem_append.2 (Or.inl hld))
    · exact Or.inr hout
  · rw [h1]
    intro q hq
    rcases List.mem_append.1 hq with h8 | h8
    · exact hin.widthsPos q h8
    · rw [List.mem_singleton.1 h8]
      exact h6

/-- `add_t` preserves the invariant. -/
theorem BInv.add_t {env : BloqEnv} {bb : BloqBuilder} {b : Bloq}
    {ins : List (String × SoquetT)} {bb2 : BloqBuilder} {outs : List SoquetT}
    (hin : BInv env bb) (h : bb.add_t env b ins = .ok (bb2, outs)) : BInv env bb2 := by
  obtain ⟨hsig, hsh, hwm, houts, hregs, hi, hbinsts, hlen, hcxns, hperm, hmem⟩ := add_t_ok h
  have hlefts2 : bb2.cxns.map (fun c => c.left) =
      bb.cxns.map (fun c => c.left) ++ insUnits ins := by
    rw [hcxns, List.map_append, zipWith_mk_map_left hlen]
  have hrights2 : bb2.cxns.map (fun c => c.right) =
      bb.cxns.map (fun c => c.right) ++ inUnits env ⟨b, bb.i⟩ := by
    rw [hcxns, List.map_append, zipWith_mk_map_right hlen]
  have hprod2 : produced env bb2 = produced env bb ++ outUnits env ⟨b, bb.i⟩ := by
    rw [produced, produced, hregs, hbinsts, List.flatMap_append, ← List.append_assoc]
    simp
  refine ⟨?_, ?_, ?_, ?_, ?_, ?_, ?_, ?_⟩
  · rw [hbinsts, List.map_append, hin.ids, hi]
    simp [List.range_succ]
  · intro bi hbi
    rw [hbinsts] at hbi
    rcases List.mem_append.1 hbi with h1 | h1
    · exact hin.sigsOk bi h1
    · rw [List.mem_singleton.1 h1]
      exact hsig
  · rw [hregs]
    exact hin.regsOk
  · rw [hrights2, hin.rightsExact, hbinsts, List.flatMap_append]
    simp
  · rw [hlefts2, hprod2]
    exact perm_shuffle hperm hin.leftsPerm
  · intro c hc
    rw [hcxns] at hc
    rcases List.mem_append.1 hc with h1 | h1
    · exact hin.widthsOk c h1
    · exact zip_widths (fun r idx => rfl) hsh hwm c h1
  · intro c hc bi hbi hr
    rw [hcxns] at hc
    rw [hbinsts] at hbi
    rw [hregs, hbinsts]
    rcases List.mem_append.1 hc with h1 | h1
    · -- an old connection: its destination is an old instance
      have hro : c.right ∈ bb.cxns.map (fun c => c.right) := List.mem_map.2 ⟨c, h1, rfl⟩
      rw [hin.rightsExact] at hro
      obtain ⟨bj, hbj, hmemj⟩ := List.mem_flatMap.1 hro
      have hbj2 := binst_of_mem_inUnits hmemj
      rw [hr] at hbj2
      have hbieq : bi = bj := by injection hbj2
      subst hbieq
      rcases hin.orderOk c h1 bi hbj hr with hcase | ⟨bk, hbk, hlt, hout⟩
      · exact Or.inl hcase
      · exact Or.inr ⟨bk, List.mem_append.2 (Or.inl hbk), hlt, hout⟩
    · -- a new connection: its source was live, hence produced earlier
      have hro : c.right ∈ inUnits env ⟨b, bb.i⟩ := by
        have hmm : c.right ∈ (List.zipWith Connection.mk (insUnits ins)
            (inUnits env ⟨b, bb.i⟩)).map (fun c => c.right) := List.mem_map.2 ⟨c, h1, rfl⟩
        rwa [zipWith_mk_map_right hlen] at hmm
      have hbnb := binst_of_mem_inUnits hro
      rw [hr] at hbnb
      have hbieq : bi = ⟨b, bb.i⟩ := by injection hbnb
      have hlmem : c.left ∈ insUnits ins := by
        have hmm : c.left ∈ (List.zipWith Connection.mk (insUnits ins)
            (inUnits env ⟨b, bb.i⟩)).map (fun c => c.left) := List.mem_map.2 ⟨c, h1, rfl⟩
        rwa [zipWith_mk_map_left hlen] at hmm
      rcases mem_produced_cases (hin.available_sub (hmem c.left hlmem)) with hcase | ⟨bk, hbk, hout⟩
      · exact Or.inl hcase
      · refine Or.inr ⟨bk, List.mem_append.2 (Or.inl hbk), ?_, hout⟩
        rw [hbieq]
        exact hin.bi_lt hbk
  · rw [hregs]
    exact hin.widthsPos

/-! ### Finalize and the graph invariant -/

/-- The structural invariant of every builder-finalized composite graph. -/
structure GraphOK (env : BloqEnv) (cb : CompositeBloq) : Prop where
  ids : cb.binsts.map (fun bi => bi.i) = List.range cb.binsts.length
  sigsOk : ∀ bi ∈ cb.binsts, sigOk (bloqSig env bi.bloq) = true
  regsOk : sigOk cb.sig = true
  rightsExact : cb.cxns.map (fun c => c.right) =
    cb.binsts.flatMap (inUnits env) ++ rdUnits cb.sig.regs
  leftsPerm : (cb.cxns.map (fun c => c.left)).Perm
    (ldUnits cb.sig.regs ++ cb.binsts.flatMap (outUnits env))
  widthsOk : ∀ c ∈ cb.cxns, c.left.reg.bitsize = c.right.reg.bitsize
  orderOk : ∀ c ∈ cb.cxns, ∀ bi ∈ cb.binsts, c.right.binst = .inst bi →
    c.left ∈ ldUnits cb.sig.regs ∨ ∃ bj ∈ cb.binsts, bj.i < bi.i ∧ c.left ∈ outUnits env bj
  widthsPos : ∀ r ∈ cb.sig.regs, r.bitsize ≠ 0

theorem GraphOK.instsNodup {env : BloqEnv} {cb : CompositeBloq} (h : GraphOK env cb) :
    cb.binsts.Nodup :=
  List.Nodup.of_map _ (h.ids ▸ List.nodup_range cb.binsts.length)

theorem GraphOK.rights_nodup {env : BloqEnv} {cb : CompositeBloq} (h : GraphOK env cb) :
    (cb.cxns.map (fun c => c.right)).Nodup := by
  rw [h.rightsExact]
  refine List.Nodup.append (flatMap_inUnits_nodup h.instsNodup h.sigsOk)
    (rdUnits_nodup h.regsOk) ?_
  intro s hs1 hs2
  obtain ⟨bj, _, hbj⟩ := List.mem_flatMap.1 hs1
  have h1 := binst_of_mem_inUnits hbj
  have h2 := binst_of_mem_rdUnits hs2
  rw [h1] at h2
  cases h2

theorem GraphOK.lefts_nodup {env : BloqEnv} {cb : CompositeBloq} (h : GraphOK env cb) :
    (cb.cxns.map (fun c => c.left)).Nodup := by
  refine h.leftsPerm.nodup_iff.2 ?_
  refine List.Nodup.append (ldUnits_nodup h.regsOk)
    (flatMap_outUnits_nodup h.instsNodup h.sigsOk) ?_
  intro s hs1 hs2
  obtain ⟨bj, _, hbj⟩ := List.mem_flatMap.1 hs2
  have h1 := binst_of_mem_ldUnits hs1
  have h2 := binst_of_mem_outUnits hbj
  rw [h1] at h2
  cases h2

/-- A successful `finalize` from an invariant-satisfying builder produces
an invariant-satisfying graph, appending exactly the boundary output
connections and consuming exactly the remaining live soquets. -/
theorem finalize_ok {env : BloqEnv} {bb : BloqBuilder} {fins : List (String × SoquetT)}
    {cb : CompositeBloq} (hin : BInv env bb) (h : bb.finalize fins = .ok cb) :
    GraphOK env cb ∧ cb.sig = ⟨bb.regs⟩ ∧ cb.binsts = bb.binsts ∧
    insShaped (Signature.mk bb.regs).rights fins = true ∧
    cb.cxns = bb.cxns ++ List.zipWith Connection.mk (insUnits fins) (rdUnits bb.regs) ∧
    bb.available.Perm (insUnits fins) := by
  rw [BloqBuilder.finalize] at h
  rcases hfin : finAll (Signature.mk bb.regs).rights fins bb with e | bbf
  · rw [hfin] at h; cases h
  · rw [hfin] at h
    obtain ⟨t1, t2, t3, t4, t5, t6, t7, t8, t9⟩ := wireMany_ok hfin
    have h2 : (if bbf.available.isEmpty = true then
        Except.ok (⟨⟨bbf.regs⟩, bbf.binsts, bbf.cxns⟩ : CompositeBloq)
      else Except.error BloqError.unconsumedSoquet) = Except.ok cb := h
    by_cases hemp : bbf.available.isEmpty = true
    · rw [if_pos hemp] at h2
      have hav : bbf.available = [] := by
        cases hbav : bbf.available
        · rfl
        · rw [hbav] at hemp; cases hemp
      have hcb : cb = ⟨⟨bbf.regs⟩, bbf.binsts, bbf.cxns⟩ := by cases h2; rfl
      have hpav : bb.available.Perm (insUnits fins) := by
        have := t8
        rw [hav, List.append_nil] at this
        exact this
      have hrd : destUnits (fun r idx => ⟨.rightDangle, r, idx⟩) (Signature.mk bb.regs).rights
          = rdUnits bb.regs := rfl
      have hcxnsf : cb.cxns = bb.cxns ++
          List.zipWith Connection.mk (insUnits fins) (rdUnits bb.regs) := by
        rw [hcb]
        show bbf.cxns = _
        rw [t7, hrd]
      have hsigf : cb.sig = ⟨bb.regs⟩ := by rw [hcb]; show Signature.mk bbf.regs = _; rw [t1]
      have hbinstsf : cb.binsts = bb.binsts := by rw [hcb]; exact t2
      have hlen6 : (insUnits fins).length = (rdUnits bb.regs).length := by rw [← hrd]; exact t6
      refine ⟨?_, hsigf, hbinstsf, t4, hcxnsf, hpav⟩
      have hregs : cb.sig.regs = bb.regs := by rw [hsigf]
      have hlept : cb.cxns.map (fun c => c.left) =
          bb.cxns.map (fun c => c.left) ++ insUnits fins := by
        rw [hcxnsf, List.map_append, zipWith_mk_map_left hlen6]
      have hript : cb.cxns.map (fun c => c.right) =
          bb.cxns.map (fun c => c.right) ++ rdUnits bb.regs := by
        rw [hcxnsf, List.map_append, zipWith_mk_map_right hlen6]
      have hblen : bb.binsts.length = bb.i := by
        have := congrArg List.length hin.ids
        simpa using this
      refine ⟨?_, ?_, ?_, ?_, ?_, ?_, ?_, ?_⟩
      · rw [hbinstsf, hblen]
        exact hin.ids
      · rw [hbinstsf]
        exact hin.sigsOk
      · rw [hsigf]
        exact hin.regsOk
      · rw [hript, hin.rightsExact, hbinstsf, hregs]
      · rw [hlept, hregs, hbinstsf]
        refine Multiset.coe_eq_coe.1 ?_
        have m1 := Multiset.coe_eq_coe.2 hin.leftsPerm
        have m2 := Multiset.coe_eq_coe.2 hpav
        show (↑(bb.cxns.map (fun c => c.left)) + ↑(insUnits fins) : Multiset Soquet) =
          ↑(ldUnits bb.regs) + ↑(bb.binsts.flatMap (outUnits env))
        have m1' : (↑bb.available + ↑(bb.cxns.map (fun c => c.left)) : Multiset Soquet) =
            ↑(ldUnits bb.regs) + ↑(bb.binsts.flatMap (outUnits env)) := m1
        rw [← m1', ← m2]
        abel
      · intro c hc
        rw [hcxnsf] at hc
        rcases List.mem_append.1 hc with h1 | h1
        · exact hin.widthsOk c h1
        · exact zip_widths (fun r idx => rfl) t4 t5 c (by rw [← hrd] at h1; exact h1)
      · intro c hc bi hbi hr
        rw [hcxnsf] at hc
        rw [hbinstsf] at hbi
        rcases List.mem_append.1 hc with h1 | h1
        · rw [hregs]
          rcases hin.orderOk c h1 bi hbi hr with hcase | ⟨bk, hbk, hlt, hout⟩
          · exact Or.inl hcase
          · exact Or.inr ⟨bk, hbinstsf ▸ hbk, hlt, hout⟩
        · exfalso
          have hro : c.right ∈ rdUnits bb.regs := by
            have hmm : c.right ∈ (List.zipWith Connection.mk (insUnits fins)
                (rdUnits bb.regs)).map (fun c => c.right) := List.mem_map.2 ⟨c, h1, rfl⟩
            rwa [zipWith_mk_map_right hlen6] at hmm
          have := binst_of_mem_rdUnits hro
          rw [hr] at this
          cases this
      · rw [hregs]
        exact hin.widthsPos
    · rw [if_neg hemp] at h2
      cases h2

/-- Running any recorded call sequence preserves the invariant. -/
theorem runActs_BInv {env : BloqEnv} : ∀ {acts : List BAct} {bb bb2 : BloqBuilder},
    BInv env bb → runActs env acts bb = .ok bb2 → BInv env bb2
  | [], bb, bb2, hin, h => by cases h; exact hin
  | a :: acts, bb, bb2, hin, h => by
    rw [runActs] at h
    rcases ha : runAct env bb a with e | bbm
    · rw [ha] at h; cases h
    · rw [ha] at h
      refine runActs_BInv ?_ h
      cases a with
      | areg r =>
        rw [runAct] at ha
        rcases har : bb.add_register r with e | p
        · rw [har] at ha; cases ha
        · rw [har] at ha
          cases ha
          exact hin.add_register har
      | aadd b ins =>
        rw [runAct] at ha
        rcases hat : bb.add_t env b ins with e | p
        · rw [hat] at ha; cases ha
        · rw [hat] at ha
          cases ha
          exact hin.add_t hat

/-- Every finalized composite graph satisfies the graph invariant. -/
theorem buildScript_GraphOK {env : BloqEnv} {acts : List BAct}
    {fins : List (String × SoquetT)} {cb : CompositeBloq}
    (h : buildScript env acts fins = .ok cb) : GraphOK env cb := by
  rw [buildScript] at h
  rcases hacts : runActs env acts .empty with e | bb
  · rw [hacts] at h; cases h
  · rw [hacts] at h
    exact (finalize_ok (runActs_BInv (BInv.empty env) hacts) h).1

/-! ### Connection counts per port -/

/-- How many connections use `s` as their destination. -/
def countAsDest (cb : CompositeBloq) (s : Soquet) : Nat :=
  (cb.cxns.filter (fun c => c.right == s)).length

/-- How many connections use `s` as their source. -/
def countAsSource (cb : CompositeBloq) (s : Soquet) : Nat :=
  (cb.cxns.filter (fun c => c.left == s)).length

theorem countAsDest_eq (cb : CompositeBloq) (s : Soquet) :
    countAsDest cb s = (cb.cxns.map (fun c => c.right)).count s := by
  rw [countAsDest, List.count, List.countP_map, ← List.countP_eq_length_filter]
  rfl

theorem countAsSource_eq (cb : CompositeBloq) (s : Soquet) :
    countAsSource cb s = (cb.cxns.map (fun c => c.left)).count s := by
  rw [countAsSource, List.count, List.countP_map, ← List.countP_eq_length_filter]
  rfl

theorem GraphOK.countDest_one {env : BloqEnv} {cb : CompositeBloq} (h : GraphOK env cb)
    {s : Soquet} (hs : s ∈ cb.cxns.map (fun c => c.right)) : countAsDest cb s = 1 := by
  rw [countAsDest_eq]
  exact List.count_eq_one_of_mem h.rights_nodup hs

theorem GraphOK.countSource_one {env : BloqEnv} {cb : CompositeBloq} (h : GraphOK env cb)
    {s : Soquet} (hs : s ∈ cb.cxns.map (fun c => c.left)) : countAsSource cb s = 1 := by
  rw [countAsSource_eq]
  exact List.count_eq_one_of_mem h.lefts_nodup hs

/-! ### Shared concrete fixtures -/

/-- A one-bit THRU register named `q`. -/
def regQ : Register := ⟨"q", 1, [], .thru⟩

/-- The signature with the single register `q`. -/
def sigQ : Signature := ⟨[regQ]⟩

/-- The left-dangling boundary soquet of `q`. -/
def ldQ : Soquet := ⟨.leftDangle, regQ, []⟩

/-- The output soquet of register `q` on instance number `k` of base
operation `j`. -/
def outQ (j k : Nat) : Soquet := ⟨.inst ⟨⟨j, 0⟩, k⟩, regQ, []⟩

/-- An environment where every operation has the single-register signature
`q` and no operation decomposes. -/
def envAtomic : BloqEnv := ⟨fun _ => sigQ, fun _ => none⟩

/-- A three-instance linear chain A(0) to B(1) to C(2) on the wire `q`. -/
def actsChain : List BAct :=
  [.areg regQ,
   .aadd ⟨0, 0⟩ [("q", .one ldQ)],
   .aadd ⟨1, 0⟩ [("q", .one (outQ 0 0))],
   .aadd ⟨2, 0⟩ [("q", .one (outQ 1 1))]]

/-- The boundary outputs closing the chain. -/
def finsChain : List (String × SoquetT) := [("q", .one (outQ 2 2))]

/-- The finalized chain graph. -/
def cbChain : CompositeBloq :=
  ⟨sigQ,
   [⟨⟨0, 0⟩, 0⟩, ⟨⟨1, 0⟩, 1⟩, ⟨⟨2, 0⟩, 2⟩],
   [⟨ldQ, ⟨.inst ⟨⟨0, 0⟩, 0⟩, regQ, []⟩⟩,
    ⟨outQ 0 0, ⟨.inst ⟨⟨1, 0⟩, 1⟩, regQ, []⟩⟩,
    ⟨outQ 1 1, ⟨.inst ⟨⟨2, 0⟩, 2⟩, regQ, []⟩⟩,
    ⟨outQ 2 2, ⟨.rightDangle, regQ, []⟩⟩]⟩

theorem buildScript_chain : buildScript envAtomic actsChain finsChain = .ok cbChain := by
  decide

/-! ### Claim C1 -/

/-- C1: for every finalized composite graph, each unit-width port is an
endpoint of exactly one connection in its required direction: each
instance input port is the destination of exactly one connection, each
instance output port the source of exactly one, each left-dangling
boundary unit the source of exactly one, and each right-dangling boundary
unit the destination of exactly one — no unused and no double-used
ports. -/
theorem c1_soquets_used_exactly_once {env : BloqEnv} {acts : List BAct}
    {fins : List (String × SoquetT)} {cb : CompositeBloq}
    (h : buildScript env acts fins = .ok cb) :
    (∀ bi ∈ cb.binsts, ∀ s ∈ inUnits env bi, countAsDest cb s = 1) ∧
    (∀ bi ∈ cb.binsts, ∀ s ∈ outUnits env bi, countAsSource cb s = 1) ∧
    (∀ s ∈ ldUnits cb.sig.regs, countAsSource cb s = 1) ∧
    (∀ s ∈ rdUnits cb.sig.regs, countAsDest cb s = 1) := by
  have hok := buildScript_GraphOK h
  refine ⟨?_, ?_, ?_, ?_⟩
  · intro bi hbi s hs
    refine hok.countDest_one ?_
    rw [hok.rightsExact]
    exact List.mem_append.2 (Or.inl (List.mem_flatMap.2 ⟨bi, hbi, hs⟩))
  · intro bi hbi s hs
    refine hok.countSource_one ?_
    refine hok.leftsPerm.mem_iff.2 ?_
    exact List.mem_append.2 (Or.inr (List.mem_flatMap.2 ⟨bi, hbi, hs⟩))
  · intro s hs
    refine hok.countSource_one ?_
    exact hok.leftsPerm.mem_iff.2 (List.mem_append.2 (Or.inl hs))
  · intro s hs
    refine hok.countDest_one ?_
    rw [hok.rightsExact]
    exact List.mem_append.2 (Or.inr hs)

/-- Witness for C1: the invariant evaluated on the concrete chain graph. -/
theorem c1_witness :
    (∀ bi ∈ cbChain.binsts, ∀ s ∈ inUnits envAtomic bi, countAsDest cbChain s = 1) ∧
    (∀ bi ∈ cbChain.binsts, ∀ s ∈ outUnits envAtomic bi, countAsSource cbChain s = 1) ∧
    (∀ s ∈ ldUnits cbChain.sig.regs, countAsSource cbChain s = 1) ∧
    (∀ s ∈ rdUnits cbChain.sig.regs, countAsDest cbChain s = 1) :=
  c1_soquets_used_exactly_once buildScript_chain

/-! ### Claim C8 -/

/-- C8: two runs of the identical sequence of builder calls produce
identical graphs: the same graph value, the same
`iter_bloqnections` traversal, the same `debug_text`, and the same
instance-identifier assignment — which is moreover the deterministic
sequence 0, 1, 2, … in creation order. -/
theorem c8_determinism {env : BloqEnv} (acts : List BAct) (fins : List (String × SoquetT))
    (cb1 cb2 : CompositeBloq)
    (h1 : buildScript env acts fins = .ok cb1) (h2 : buildScript env acts fins = .ok cb2) :
    cb1 = cb2 ∧ cb1.iter_bloqnections = cb2.iter_bloqnections ∧
    cb1.debug_text = cb2.debug_text ∧
    cb1.binsts.map (fun bi => bi.i) = cb2.binsts.map (fun bi => bi.i) ∧
    cb1.binsts.map (fun bi => bi.i) = List.range cb1.binsts.length := by
  have heq : cb1 = cb2 := by
    have := h1.symm.trans h2
    cases this
    rfl
  subst heq
  exact ⟨rfl, rfl, rfl, rfl, (buildScript_GraphOK h1).ids⟩

/-- Witness for C8: two (definitionally equal) runs of the chain script
and the resulting deterministic identifier assignment. -/
theorem c8_witness :
    cbChain = cbChain ∧ cbChain.iter_bloqnections = cbChain.iter_bloqnections ∧
    cbChain.debug_text = cbChain.debug_text ∧
    cbChain.binsts.map (fun bi => bi.i) = cbChain.binsts.map (fun bi => bi.i) ∧
    cbChain.binsts.map (fun bi => bi.i) = List.range cbChain.binsts.length :=
  c8_determinism actsChain finsChain cbChain cbChain buildScript_chain buildScript_chain

/-! ### Claim C4 -/

/-- C4: in any reachable open builder state, `add` on an input soquet that
was already consumed as a connection endpoint fails with
`soquetAlreadyUsed` at the offending call itself (not deferred to
`finalize`). -/
theorem c4_soquet_already_used {env : BloqEnv} {bb : BloqBuilder} {b : Bloq} {r : Register}
    {s : Soquet} (hb : BInv env bb)
    (hsig : sigOk (bloqSig env b) = true)
    (hlefts : (bloqSig env b).lefts = [r])
    (hshape : r.shape = [])
    (hcons : ∃ c ∈ bb.cxns, c.left = s) :
    bb.add env b [(r.name, .one s)] = .error .soquetAlreadyUsed := by
  have hs : s ∉ bb.available := by
    intro hmem
    obtain ⟨c, hc, hcl⟩ := hcons
    have h1 : s ∈ bb.cxns.map (fun c => c.left) := List.mem_map.2 ⟨c, hc, hcl⟩
    have hnd : (bb.available ++ bb.cxns.map (fun c => c.left)).Nodup :=
      hb.leftsPerm.nodup_iff.2 hb.produced_nodup
    exact (List.nodup_append.1 hnd).2.2 hmem h1
  rw [BloqBuilder.add, BloqBuilder.add_t, if_pos hsig, hlefts]
  have hkind : kindOk r (.one s) = true := by
    rw [kindOk, hshape]
    rfl
  have hw : wireAll ⟨b, bb.i⟩ [r] [(r.name, SoquetT.one s)] bb =
      .error .soquetAlreadyUsed := by
    rw [wireAll, wireMany, if_pos (by simp [hkind])]
    have hidx : r.idxs = [[]] := by rw [Register.idxs, hshape]; rfl
    rw [hidx]
    rw [show (r.name, SoquetT.one s).2.units = [s] from rfl]
    rw [wireSeq_already_used hs]
  rw [hw]
  rfl

/-- Witness for C4: the builder that already consumed the boundary soquet
of `q` through instance X rejects a second instance Y consuming the same
soquet. -/
def bbAfterX : BloqBuilder :=
  ⟨[regQ], [⟨⟨0, 0⟩, 0⟩], [⟨ldQ, ⟨.inst ⟨⟨0, 0⟩, 0⟩, regQ, []⟩⟩], 1, [outQ 0 0]⟩

theorem c4_witness :
    bbAfterX.add envAtomic ⟨1, 0⟩ [("q", .one ldQ)] = .error .soquetAlreadyUsed :=
  c4_soquet_already_used
    (runActs_BInv (BInv.empty envAtomic)
      (show runActs envAtomic [.areg regQ, .aadd ⟨0, 0⟩ [("q", .one ldQ)]] .empty =
        .ok bbAfterX by decide))
    (by decide)
    (show (bloqSig envAtomic ⟨1, 0⟩).lefts = [regQ] by decide)
    (by decide)
    ⟨⟨ldQ, ⟨.inst ⟨⟨0, 0⟩, 0⟩, regQ, []⟩⟩, by decide, rfl⟩

/-! ### Claim C10 -/

/-- C10: `add_t` always returns one bundle per right register (a tuple
even for a single output); `add` unpacks that: no value for an operation
with no right registers (an effect), a bare bundle for exactly one, a
tuple for several; and an operation with no left registers (a state) is
added with no input-soquet arguments at all. -/
theorem c10_add_result_shapes {env : BloqEnv} :
    (∀ (bb : BloqBuilder) (b : Bloq) ins bb2 outs,
      bb.add_t env b ins = .ok (bb2, outs) →
      outs.length = (bloqSig env b).rights.length) ∧
    (∀ (bb : BloqBuilder) (b : Bloq) ins bb2 outs,
      bb.add_t env b ins = .ok (bb2, outs) →
      ((bloqSig env b).rights = [] → bb.add env b ins = .ok (bb2, .nothing)) ∧
      (∀ r, (bloqSig env b).rights = [r] →
        bb.add env b ins = .ok (bb2, .single (packSoqT (.inst ⟨b, bb.i⟩) r))) ∧
      (2 ≤ (bloqSig env b).rights.length →
        ∃ sts, bb.add env b ins = .ok (bb2, .tuple sts) ∧
          sts.length = (bloqSig env b).rights.length)) ∧
    (∀ (bb : BloqBuilder) (b : Bloq), (bloqSig env b).lefts = [] →
      sigOk (bloqSig env b) = true →
      ∃ bb2 outs, bb.add_t env b [] = .ok (bb2, outs)) := by
  refine ⟨?_, ?_, ?_⟩
  · intro bb b ins bb2 outs h
    obtain ⟨_, _, _, houts, _⟩ := add_t_ok h
    rw [houts, List.length_map]
  · intro bb b ins bb2 outs h
    obtain ⟨_, _, _, houts, _⟩ := add_t_ok h
    refine ⟨?_, ?_, ?_⟩
    · intro hr
      rw [hr] at houts
      have houts2 : outs = [] := by simpa using houts
      subst houts2
      rw [BloqBuilder.add, h]
      rfl
    · intro r hr
      rw [hr] at houts
      have houts2 : outs = [packSoqT (.inst ⟨b, bb.i⟩) r] := by simpa using houts
      subst houts2
      rw [BloqBuilder.add, h]
      rfl
    · intro hr
      rcases hrr : (bloqSig env b).rights with _ | ⟨r1, _ | ⟨r2, rs⟩⟩
      · rw [hrr] at hr; cases hr
      · rw [hrr] at hr; simp at hr
      · rw [hrr] at houts
        subst houts
        refine ⟨List.map (packSoqT (.inst ⟨b, bb.i⟩)) (r1 :: r2 :: rs), ?_, by simp⟩
        rw [BloqBuilder.add, h]
        rfl
  · intro bb b hl hsig
    obtain ⟨bb2, hbb2⟩ := @add_t_ok_of env bb b [] hsig
      (by rw [hl]; rfl) (by rw [hl]; rfl) List.nodup_nil (by intro s hs; cases hs)
    exact ⟨bb2, _, hbb2⟩

/-- Fixtures for C10: a state (right-only register), an effect (left-only
register), and a two-output operation. -/
def envShapes : BloqEnv :=
  ⟨fun j =>
    if j == 10 then ⟨[⟨"q", 1, [], .right⟩]⟩
    else if j == 11 then ⟨[⟨"q", 1, [], .left⟩]⟩
    else if j == 12 then ⟨[⟨"a", 1, [], .right⟩, ⟨"b", 1, [], .right⟩]⟩
    else sigQ,
   fun _ => none⟩

/-- The soquet produced by the state instance. -/
def outState : Soquet := ⟨.inst ⟨⟨10, 0⟩, 0⟩, ⟨"q", 1, [], .right⟩, []⟩

theorem c10_witness :
    ([SoquetT.one outState].length = (bloqSig envShapes ⟨10, 0⟩).rights.length) ∧
    (BloqBuilder.empty.add envShapes ⟨10, 0⟩ [] =
      .ok (⟨[], [⟨⟨10, 0⟩, 0⟩], [], 1, [outState]⟩, .single (.one outState))) ∧
    ((⟨[], [⟨⟨10, 0⟩, 0⟩], [], 1, [outState]⟩ : BloqBuilder).add envShapes ⟨11, 0⟩
        [("q", .one outState)] =
      .ok (⟨[], [⟨⟨10, 0⟩, 0⟩, ⟨⟨11, 0⟩, 1⟩],
        [⟨outState, ⟨.inst ⟨⟨11, 0⟩, 1⟩, ⟨"q", 1, [], .left⟩, []⟩⟩], 2, []⟩, .nothing)) ∧
    (∃ sts, BloqBuilder.empty.add envShapes ⟨12, 0⟩ [] = .ok
      (⟨[], [⟨⟨12, 0⟩, 0⟩], [], 1,
        [⟨.inst ⟨⟨12, 0⟩, 0⟩, ⟨"a", 1, [], .right⟩, []⟩,
         ⟨.inst ⟨⟨12, 0⟩, 0⟩, ⟨"b", 1, [], .right⟩, []⟩]⟩, .tuple sts) ∧
      sts.length = (bloqSig envShapes ⟨12, 0⟩).rights.length) := by
  have hst : BloqBuilder.empty.add_t envShapes ⟨10, 0⟩ [] =
      .ok (⟨[], [⟨⟨10, 0⟩, 0⟩], [], 1, [outState]⟩, [.one outState]) := by decide
  have hef : (⟨[], [⟨⟨10, 0⟩, 0⟩], [], 1, [outState]⟩ : BloqBuilder).add_t envShapes ⟨11, 0⟩
      [("q", .one outState)] =
      .ok (⟨[], [⟨⟨10, 0⟩, 0⟩, ⟨⟨11, 0⟩, 1⟩],
        [⟨outState, ⟨.inst ⟨⟨11, 0⟩, 1⟩, ⟨"q", 1, [], .left⟩, []⟩⟩], 2, []⟩, ([] : List SoquetT)) := by
    decide
  have htp : BloqBuilder.empty.add_t envShapes ⟨12, 0⟩ [] =
      .ok (⟨[], [⟨⟨12, 0⟩, 0⟩], [], 1,
        [⟨.inst ⟨⟨12, 0⟩, 0⟩, ⟨"a", 1, [], .right⟩, []⟩,
         ⟨.inst ⟨⟨12, 0⟩, 0⟩, ⟨"b", 1, [], .right⟩, []⟩]⟩,
        [.one ⟨.inst ⟨⟨12, 0⟩, 0⟩, ⟨"a", 1, [], .right⟩, []⟩,
         .one ⟨.inst ⟨⟨12, 0⟩, 0⟩, ⟨"b", 1, [], .right⟩, []⟩]) := by decide
  refine ⟨?_, ?_, ?_, ?_⟩
  · exact c10_add_result_shapes.1 BloqBuilder.empty ⟨10, 0⟩ [] _ _ hst
  · exact (c10_add_result_shapes.2.1 BloqBuilder.empty ⟨10, 0⟩ [] _ _ hst).2.1
      ⟨"q", 1, [], .right⟩ (by decide)
  · exact (c10_add_result_shapes.2.1 _ ⟨11, 0⟩ [("q", .one outState)] _ _ hef).1
      (by decide)
  · obtain ⟨sts, hs1, hs2⟩ := (c10_add_result_shapes.2.1 BloqBuilder.empty ⟨12, 0⟩ [] _ _
      htp).2.2 (by decide)
    exact ⟨sts, hs1, hs2⟩

/-! ### Claim C9 -/

/-- The defining equation of `decompose` on a controlled operation. -/
theorem decompose_controlled (env : BloqEnv) (b : Bloq) :
    decompose env b.controlled = (decompose env b).map ctrlWrapGraph := rfl

theorem ctrlChainFrom_length : ∀ (prev : Soquet) (bis : List BloqInstance),
    (ctrlChainFrom prev bis).length = bis.length + 1
  | prev, [] => rfl
  | prev, bi :: rest => by
    rw [ctrlChainFrom, List.length_cons, ctrlChainFrom_length]
    rfl

/-- C9: the controlled wrapper adds exactly one control register in front
of the wrapped operation's signature, and its decomposition is the wrapped
operation's decomposition with every sub-instance's operation itself
wrapped (so the control propagates recursively through every nested
level), the boundary gaining the control register and one control wire
per instance plus one being threaded through. -/
theorem c9_controlled {env : BloqEnv} (b : Bloq) :
    (bloqSig env b.controlled).regs = ctrlRegister :: (bloqSig env b).regs ∧
    decompose env b.controlled = (decompose env b).map ctrlWrapGraph ∧
    (∀ D, decompose env b = some D →
      ∃ D2, decompose env b.controlled = some D2 ∧
        D2.sig.regs = ctrlRegister :: D.sig.regs ∧
        D2.binsts = D.binsts.map wrapInst ∧
        D2.binsts.map (fun bi => bi.bloq) = D.binsts.map (fun bi => bi.bloq.controlled) ∧
        D2.cxns.length = D.cxns.length + (D.binsts.length + 1) ∧
        (D.sig = bloqSig env b → D2.sig = bloqSig env b.controlled) ∧
        (∀ bi ∈ D.binsts, decompose env (wrapInst bi).bloq =
          (decompose env bi.bloq).map ctrlWrapGraph)) := by
  refine ⟨rfl, decompose_controlled env b, ?_⟩
  intro D hD
  refine ⟨ctrlWrapGraph D, ?_, rfl, rfl, ?_, ?_, ?_, ?_⟩
  · rw [decompose_controlled env b, hD]
    rfl
  · show (D.binsts.map wrapInst).map (fun bi => bi.bloq) = _
    rw [List.map_map]
    rfl
  · rw [ctrlWrapGraph]
    show (ctrlChainFrom (ctrlSoqOf .leftDangle) (D.binsts.map wrapInst) ++
      D.cxns.map wrapCxn).length = _
    rw [List.length_append, ctrlChainFrom_length, List.length_map, List.length_map]
    omega
  · intro hsig
    show ctrlSig D.sig = ctrlSig (bloqSig env b)
    rw [hsig]
  · intro bi _
    exact decompose_controlled env bi.bloq

/-- Witness for C9: the controlled wrapper applied to the operation whose
decomposition is the chain graph. -/
def envChainDec : BloqEnv :=
  ⟨fun _ => sigQ, fun j => if j == 5 then some cbChain else none⟩

theorem c9_witness :
    (bloqSig envChainDec (Bloq.controlled ⟨5, 0⟩)).regs =
      ctrlRegister :: (bloqSig envChainDec ⟨5, 0⟩).regs ∧
    ∃ D2, decompose envChainDec (Bloq.controlled ⟨5, 0⟩) = some D2 ∧
      D2.sig.regs = ctrlRegister :: cbChain.sig.regs ∧
      D2.binsts = cbChain.binsts.map wrapInst ∧
      D2.binsts.map (fun bi => bi.bloq) =
        cbChain.binsts.map (fun bi => bi.bloq.controlled) ∧
      D2.cxns.length = cbChain.cxns.length + (cbChain.binsts.length + 1) := by
  obtain ⟨h1, _, h3⟩ := @c9_controlled envChainDec ⟨5, 0⟩
  obtain ⟨D2, g1, g2, g3, g4, g5, _, _⟩ := h3 cbChain (by decide)
  exact ⟨h1, D2, g1, g2, g3, g4, g5⟩

/-! ### The unique source of each destination, and the canonical
connection split of an invariant-satisfying graph -/

/-- The source feeding destination `u`, with `u` itself as a fallback. -/
def theSrc (T : CompositeBloq) (u : Soquet) : Soquet :=
  ((T.cxns.find? (fun c => c.right == u)).map (fun c => c.left)).getD u

theorem find?_right_eq {cxns : List Connection}
    (hnd : (cxns.map (fun c => c.right)).Nodup) {c : Connection} (hc : c ∈ cxns) :
    cxns.find? (fun x => x.right == c.right) = some c := by
  induction cxns with
  | nil => cases hc
  | cons h0 rest ih =>
    by_cases heq : h0.right = c.right
    · have hceq : c = h0 := by
        rcases List.mem_cons.1 hc with rfl | hcr
        · rfl
        · exfalso
          have : c.right ∈ rest.map (fun c => c.right) := List.mem_map.2 ⟨c, hcr, rfl⟩
          rw [← heq] at this
          exact (List.nodup_cons.1 (by simpa using hnd)).1 this
      rw [List.find?_cons_of_pos _ (by simp [heq])]
      rw [hceq]
    · have hcr : c ∈ rest := by
        rcases List.mem_cons.1 hc with rfl | hcr
        · exact absurd rfl heq
        · exact hcr
      rw [List.find?_cons_of_neg _ (by simp [heq])]
      exact ih (List.Nodup.of_cons (by simpa using hnd)) hcr

theorem theSrc_eq {env : BloqEnv} {T : CompositeBloq} (hT : GraphOK env T)
    {c : Connection} (hc : c ∈ T.cxns) : theSrc T c.right = c.left := by
  rw [theSrc, find?_right_eq hT.rights_nodup hc]
  rfl

theorem soqInto_eq {env : BloqEnv} {T : CompositeBloq} (hT : GraphOK env T)
    {c : Connection} (hc : c ∈ T.cxns) : T.soqInto c.right = some c.left := by
  rw [CompositeBloq.soqInto, find?_right_eq hT.rights_nodup hc]
  rfl

theorem srcPair_mem {env : BloqEnv} {T : CompositeBloq} (hT : GraphOK env T)
    {u : Soquet} (hu : u ∈ T.cxns.map (fun c => c.right)) :
    Connection.mk (theSrc T u) u ∈ T.cxns := by
  obtain ⟨c, hc, rfl⟩ := List.mem_map.1 hu
  rw [theSrc_eq hT hc]
  exact hc

theorem soqInto_of_dest {env : BloqEnv} {T : CompositeBloq} (hT : GraphOK env T)
    {u : Soquet} (hu : u ∈ T.cxns.map (fun c => c.right)) :
    T.soqInto u = some (theSrc T u) := by
  have := soqInto_eq hT (srcPair_mem hT hu)
  exact this

/-- The canonical decomposition of all connections by their destination. -/
def bodyOf (env : BloqEnv) (T : CompositeBloq) (bi : BloqInstance) : List Connection :=
  (inUnits env bi).map (fun u => Connection.mk (theSrc T u) u)

/-- The final (boundary-output) connections. -/
def finPart (T : CompositeBloq) : List Connection :=
  (rdUnits T.sig.regs).map (fun u => Connection.mk (theSrc T u) u)

theorem cxns_split {env : BloqEnv} {T : CompositeBloq} (hT : GraphOK env T) :
    T.cxns = T.binsts.flatMap (bodyOf env T) ++ finPart T := by
  have h1 : T.cxns = (T.cxns.map (fun c => c.right)).map
      (fun u => Connection.mk (theSrc T u) u) := by
    rw [List.map_map]
    have h2 : ∀ c ∈ T.cxns,
        ((fun u => Connection.mk (theSrc T u) u) ∘ fun c => c.right) c = id c := by
      intro c hc
      show Connection.mk (theSrc T c.right) c.right = c
      rw [theSrc_eq hT hc]
    rw [List.map_congr_left h2, List.map_id]
  conv_lhs => rw [h1, hT.rightsExact]
  rw [List.map_append, List.map_flatMap]
  rfl

theorem bodyOf_map_right (env : BloqEnv) (T : CompositeBloq) (bi : BloqInstance) :
    (bodyOf env T bi).map (fun c => c.right) = inUnits env bi := by
  rw [bodyOf, List.map_map]
  exact List.map_id ..

theorem bodyOf_map_left (env : BloqEnv) (T : CompositeBloq) (bi : BloqInstance) :
    (bodyOf env T bi).map (fun c => c.left) = (inUnits env bi).map (theSrc T) := by
  rw [bodyOf, List.map_map]
  rfl

theorem finPart_map_right (T : CompositeBloq) :
    (finPart T).map (fun c => c.right) = rdUnits T.sig.regs := by
  rw [finPart, List.map_map]
  exact List.map_id ..

theorem finPart_map_left (T : CompositeBloq) :
    (finPart T).map (fun c => c.left) = (rdUnits T.sig.regs).map (theSrc T) := by
  rw [finPart, List.map_map]
  rfl

/-! ### The renaming a rebuild applies -/

/-- The instance with its identifier shifted by `n0`. -/
def renInst (n0 : Nat) (bi : BloqInstance) : BloqInstance := ⟨bi.bloq, bi.i + n0⟩

/-- The soquet renaming a rebuild applies: instance ports shift their
identifier, left-dangling units map through the boundary binding `fd`. -/
def renSoq (n0 : Nat) (fd : Soquet → Soquet) (s : Soquet) : Soquet :=
  match s.binst with
  | .inst bi => ⟨.inst (renInst n0 bi), s.reg, s.idx⟩
  | .leftDangle => fd s
  | .rightDangle => s

def renCxn (n0 : Nat) (fd : Soquet → Soquet) (c : Connection) : Connection :=
  ⟨renSoq n0 fd c.left, renSoq n0 fd c.right⟩

theorem renSoq_zero_id : ∀ s : Soquet, renSoq 0 (fun x => x) s = s := by
  intro s
  cases hs : s.binst with
  | inst bi =>
    rw [renSoq]
    cases s
    simp_all [renSoq, renInst]
  | leftDangle => rw [renSoq, hs]
  | rightDangle => rw [renSoq, hs]

theorem renSoq_ld {n0 : Nat} {fd : Soquet → Soquet} {s : Soquet}
    (h : s.binst = .leftDangle) : renSoq n0 fd s = fd s := by
  rw [renSoq, h]

theorem renSoq_inst {n0 : Nat} {fd : Soquet → Soquet} {bi : BloqInstance}
    (r : Register) (idx : List Nat) :
    renSoq n0 fd ⟨.inst bi, r, idx⟩ = ⟨.inst (renInst n0 bi), r, idx⟩ := rfl

theorem regUnitsAt_ren (n0 : Nat) (fd : Soquet → Soquet) (bi : BloqInstance) (r : Register) :
    regUnitsAt (.inst (renInst n0 bi)) r = (regUnitsAt (.inst bi) r).map (renSoq n0 fd) := by
  rw [regUnitsAt, regUnitsAt, List.map_map]
  rfl

theorem outUnits_ren (env : BloqEnv) (n0 : Nat) (fd : Soquet → Soquet) (bi : BloqInstance) :
    outUnits env (renInst n0 bi) = (outUnits env bi).map (renSoq n0 fd) := by
  rw [outUnits, outUnits, List.map_flatMap]
  show (bloqSig env bi.bloq).rights.flatMap _ = _
  refine List.flatMap_congr ?_
  intro r _
  exact regUnitsAt_ren n0 fd bi r

theorem inUnits_ren (env : BloqEnv) (n0 : Nat) (fd : Soquet → Soquet) (bi : BloqInstance) :
    inUnits env (renInst n0 bi) = (inUnits env bi).map (renSoq n0 fd) := by
  rw [inUnits, inUnits, List.map_flatMap]
  show (bloqSig env bi.bloq).lefts.flatMap _ = _
  refine List.flatMap_congr ?_
  intro r _
  exact regUnitsAt_ren n0 fd bi r

theorem renSoq_reg_of_inst {n0 : Nat} {fd : Soquet → Soquet} {s : Soquet} {bi : BloqInstance}
    (h : s.binst = .inst bi) : (renSoq n0 fd s).reg = s.reg := by
  rw [renSoq, h]

/-! ### Lookup facts about soquet mappings -/

theorem mapSoq_nil (s : Soquet) : mapSoq [] s = s := rfl

theorem mapSoq_append_right {m1 m2 : List (Soquet × Soquet)} {s : Soquet}
    (h : ∀ p ∈ m1, p.1 ≠ s) : mapSoq (m1 ++ m2) s = mapSoq m2 s := by
  induction m1 with
  | nil => rfl
  | cons p m1 ih =>
    rw [List.cons_append, mapSoq, List.find?_cons_of_neg _
      (by simp [h p (List.mem_cons_self ..)])]
    exact ih fun q hq => h q (List.mem_cons_of_mem _ hq)

theorem mapSoq_append_left {m1 m2 : List (Soquet × Soquet)} {s : Soquet}
    (h : ∃ p ∈ m1, p.1 = s) : mapSoq (m1 ++ m2) s = mapSoq m1 s := by
  obtain ⟨p, hp, hps⟩ := h
  induction m1 with
  | nil => cases hp
  | cons q m1 ih =>
    by_cases hq : q.1 = s
    · rw [List.cons_append, mapSoq, mapSoq,
        List.find?_cons_of_pos _ (by simp [hq]), List.find?_cons_of_pos _ (by simp [hq])]
    · rcases List.mem_cons.1 hp with rfl | hp2
      · exact absurd hps hq
      · rw [List.cons_append, mapSoq, mapSoq,
          List.find?_cons_of_neg _ (by simp [hq]), List.find?_cons_of_neg _ (by simp [hq])]
        exact ih hp2

theorem mapSoq_zip_map {f : Soquet → Soquet} :
    ∀ {ks : List Soquet}, ks.Nodup → ∀ {s : Soquet}, s ∈ ks →
    mapSoq (ks.zip (ks.map f)) s = f s
  | [], _, s, hs => by cases hs
  | k :: ks, hnd, s, hs => by
    rw [List.map_cons, List.zip_cons_cons]
    by_cases hk : k = s
    · rw [mapSoq, List.find?_cons_of_pos _ (by simp [hk])]
      rw [hk]
      rfl
    · rcases List.mem_cons.1 hs with rfl | hs2
      · exact absurd rfl hk
      · rw [mapSoq, List.find?_cons_of_neg _ (by simp [hk])]
        exact mapSoq_zip_map (List.Nodup.of_cons hnd) hs2

/-! ### Bundle packaging facts -/

theorem packUnits_units {r : Register} {us : List Soquet}
    (h : us.length = r.idxs.length) : (packUnits r us).units = us := by
  delta packUnits
  by_cases hsh : r.shape.isEmpty = true
  · rw [if_pos hsh]
    have hs2 : r.shape = [] := List.isEmpty_iff.1 hsh
    have hlen : us.length = 1 := by
      rw [h, Register.idxs, hs2]
      rfl
    cases us with
    | nil => cases hlen
    | cons u us2 =>
      cases us2 with
      | nil => rfl
      | cons v us3 => simp at hlen
  · rw [if_neg hsh]
    rfl

theorem packSoqT_units (h : InstOrDangle) (r : Register) :
    (packSoqT h r).units = regUnitsAt h r :=
  packUnits_units (regUnitsAt_length h r)

theorem mapSoqT_packUnits {m : List (Soquet × Soquet)} {r : Register} {us : List Soquet}
    (h : us.length = r.idxs.length) :
    mapSoqT m (packUnits r us) = packUnits r (us.map (mapSoq m)) := by
  delta packUnits
  by_cases hsh : r.shape.isEmpty = true
  · rw [if_pos hsh, if_pos hsh]
    have hs2 : r.shape = [] := List.isEmpty_iff.1 hsh
    have hlen : us.length = 1 := by
      rw [h, Register.idxs, hs2]
      rfl
    cases us with
    | nil => cases hlen
    | cons u us2 =>
      cases us2 with
      | nil => rfl
      | cons v us3 => simp at hlen
  · rw [if_neg hsh, if_neg hsh]
    rfl

theorem kindOk_packUnits {r : Register} {us : List Soquet}
    (h : us.length = r.idxs.length) : kindOk r (packUnits r us) = true := by
  delta packUnits
  by_cases hsh : r.shape.isEmpty = true
  · rw [if_pos hsh]
    have hs2 : r.shape = [] := List.isEmpty_iff.1 hsh
    have hlen : us.length = 1 := by
      rw [h, Register.idxs, hs2]
      rfl
    cases us with
    | nil => cases hlen
    | cons u us2 =>
      cases us2 with
      | nil => simp [kindOk, hsh]
      | cons v us3 => simp at hlen
  · rw [if_neg hsh]
    simp [kindOk]
    simpa using hsh

theorem zipWith_mk_map_self (f : Soquet → Soquet) :
    ∀ l : List Soquet, List.zipWith Connection.mk (l.map f) l =
      l.map (fun u => Connection.mk (f u) u)
  | [] => rfl
  | u :: l => by
    rw [List.map_cons, List.map_cons, List.zipWith_cons_cons, zipWith_mk_map_self f l]

/-! ### Positional facts about canonical instance identifiers -/

theorem range'_map_ge : ∀ {l : List BloqInstance} {k n : Nat},
    l.map (fun x => x.i) = List.range' k n → ∀ bj ∈ l, k ≤ bj.i
  | [], k, n, _, bj, hbj => by cases hbj
  | b :: l, k, n, h, bj, hbj => by
    cases n with
    | zero => cases h
    | succ n =>
      rw [List.range'_succ] at h
      have h1 : b.i = k := by injection h
      have h2 : l.map (fun x => x.i) = List.range' (k + 1) n := by
        injection h
      rcases List.mem_cons.1 hbj with rfl | hbj2
      · omega
      · have := range'_map_ge h2 bj hbj2
        omega

theorem ids_prefix_aux : ∀ (done : List BloqInstance) {k : Nat} {bi : BloqInstance}
    {rest : List BloqInstance},
    (done ++ bi :: rest).map (fun x => x.i) = List.range' k (done.length + (rest.length + 1)) →
    bi.i = k + done.length
  | [], k, bi, rest, h => by
    rw [List.nil_append, List.map_cons] at h
    simp only [List.length_nil, Nat.zero_add] at h
    rw [List.range'_succ] at h
    have h1 : bi.i = k := by injection h
    simpa using h1
  | d :: done, k, bi, rest, h => by
    rw [List.cons_append, List.map_cons] at h
    rw [show ((d :: done).length + (rest.length + 1)) = (done.length + (rest.length + 1)) + 1
      from by simp; omega, List.range'_succ] at h
    have h2 : (done ++ bi :: rest).map (fun x => x.i) =
        List.range' (k + 1) (done.length + (rest.length + 1)) := by injection h
    have := ids_prefix_aux done h2
    simp only [List.length_cons]
    omega

/-- In a canonically numbered graph, the instance after a prefix `done`
carries identifier `done.length`. -/
theorem ids_prefix_len {env : BloqEnv} {T : CompositeBloq} (hT : GraphOK env T)
    {done : List BloqInstance} {bi : BloqInstance} {rest : List BloqInstance}
    (hsplit : T.binsts = done ++ bi :: rest) : bi.i = done.length := by
  have h := hT.ids
  rw [hsplit, List.range_eq_range'] at h
  have hlen : (done ++ bi :: rest).length = done.length + (rest.length + 1) := by
    simp
  rw [hlen] at h
  have := ids_prefix_aux done h
  omega

/-- In a canonically numbered graph, an instance with identifier below the
length of a prefix belongs to that prefix. -/
theorem mem_prefix_of_lt {env : BloqEnv} {T : CompositeBloq} (hT : GraphOK env T)
    {done rest : List BloqInstance} (hsplit : T.binsts = done ++ rest)
    {bj : BloqInstance} (hbj : bj ∈ T.binsts) (hlt : bj.i < done.length) : bj ∈ done := by
  rw [hsplit] at hbj
  rcases List.mem_append.1 hbj with h1 | h1
  · exact h1
  · exfalso
    have h := hT.ids
    rw [hsplit, List.range_eq_range', List.map_append] at h
    have hlen : (done ++ rest).length = rest.length + done.length := by
      rw [List.length_append]; omega
    rw [hlen, ← List.range'_append_1 0 done.length rest.length] at h
    have h2 : rest.map (fun x => x.i) = List.range' (0 + done.length) rest.length :=
      List.append_inj_right h (by simp)
    have := range'_map_ge h2 bj h1
    omega

/-! ### Backward lemmas for building from a signature -/

theorem dupFree_split {l1 l2 : List String} (h : dupFree (l1 ++ l2) = true) {x : String}
    (hx : x ∈ l2) : x ∉ l1 := by
  have := dupFree_iff.1 h
  exact fun hx1 => (List.disjoint_of_nodup_append this) hx1 hx

theorem fromRegs_ok_of : ∀ {rs : List Register} {bb : BloqBuilder},
    sigOk ⟨bb.regs ++ rs⟩ = true → (∀ r ∈ rs, r.bitsize ≠ 0) →
    ∃ bb2, fromRegs rs bb = .ok bb2
  | [], bb, _, _ => ⟨bb, rfl⟩
  | r :: rs, bb, hok, hw => by
    have hreg : bb.add_register r =
        .ok ({ bb with
          regs := bb.regs ++ [r],
          available := bb.available ++
            (if r.side.onLeft then regUnitsAt .leftDangle r else []) },
          if r.side.onLeft then some (packSoqT .leftDangle r) else none) := by
      rw [BloqBuilder.add_register,
        if_neg (by simpa using hw r (List.mem_cons_self ..)), if_pos ?_]
      rw [sigOk, Bool.and_eq_true] at hok
      rw [regNameFree, Bool.and_eq_true]
      constructor
      · by_cases hl : r.side.onLeft = true
        · rw [Bool.or_eq_true]
          refine Or.inr ?_
          rw [Bool.not_eq_true']
          rw [Bool.eq_false_iff]
          intro hcont
          have hx : r.name ∈ (Signature.mk bb.regs).lefts.map (fun q => q.name) := by
            simpa [List.contains, List.elem_iff] using hcont
          have hsplit2 : (Signature.mk (bb.regs ++ r :: rs)).lefts.map (fun q => q.name) =
              ((Signature.mk bb.regs).lefts.map (fun q => q.name)) ++
              ((Signature.mk (r :: rs)).lefts.map (fun q => q.name)) := by
            show ((bb.regs ++ r :: rs).filter _).map _ = _
            rw [List.filter_append, List.map_append]
            rfl
          rw [hsplit2] at hok
          refine dupFree_split hok.1 ?_ hx
          refine List.mem_map.2 ⟨r, ?_, rfl⟩
          show r ∈ (r :: rs).filter _
          rw [List.filter_cons, if_pos (by simpa using hl)]
          exact List.mem_cons_self ..
        · rw [Bool.or_eq_true]
          exact Or.inl (by simpa using hl)
      · by_cases hl : r.side.onRight = true
        · rw [Bool.or_eq_true]
          refine Or.inr ?_
          rw [Bool.not_eq_true']
          rw [Bool.eq_false_iff]
          intro hcont
          have hx : r.name ∈ (Signature.mk bb.regs).rights.map (fun q => q.name) := by
            simpa [List.contains, List.elem_iff] using hcont
          have hsplit2 : (Signature.mk (bb.regs ++ r :: rs)).rights.map (fun q => q.name) =
              ((Signature.mk bb.regs).rights.map (fun q => q.name)) ++
              ((Signature.mk (r :: rs)).rights.map (fun q => q.name)) := by
            show ((bb.regs ++ r :: rs).filter _).map _ = _
            rw [List.filter_append, List.map_append]
            rfl
          rw [hsplit2] at hok
          refine dupFree_split hok.2 ?_ hx
          refine List.mem_map.2 ⟨r, ?_, rfl⟩
          show r ∈ (r :: rs).filter _
          rw [List.filter_cons, if_pos (by simpa using hl)]
          exact List.mem_cons_self ..
        · rw [Bool.or_eq_true]
          exact Or.inl (by simpa using hl)
    obtain ⟨bb2, hbb2⟩ := @fromRegs_ok_of rs
      { bb with
        regs := bb.regs ++ [r],
        available := bb.available ++
          (if r.side.onLeft then regUnitsAt .leftDangle r else []) }
      (by
        show sigOk ⟨(bb.regs ++ [r]) ++ rs⟩ = true
        rw [List.append_assoc]
        exact hok)
      (fun q hq => hw q (List.mem_cons_of_mem _ hq))
    refine ⟨bb2, ?_⟩
    rw [fromRegs, hreg]
    exact hbb2

/-- A well-formed signature with positive widths primes a fresh builder. -/
theorem from_signature_ok_of {s : Signature} (h1 : sigOk s = true)
    (h2 : ∀ r ∈ s.regs, r.bitsize ≠ 0) :
    ∃ bb0, BloqBuilder.from_signature s = .ok bb0 :=
  fromRegs_ok_of (by simpa [BloqBuilder.empty] using h1) h2

theorem fromRegs_BInv {env : BloqEnv} : ∀ {rs : List Register} {bb bb2 : BloqBuilder},
    BInv env bb → fromRegs rs bb = .ok bb2 → BInv env bb2
  | [], bb, bb2, hin, h => by cases h; exact hin
  | r :: rs, bb, bb2, hin, h => by
    rw [fromRegs] at h
    rcases hr : bb.add_register r with e | p
    · rw [hr] at h; cases h
    · rw [hr] at h
      exact fromRegs_BInv (hin.add_register hr) h

/-! ### Reconstruction of the inputs feeding each instance -/

theorem optList_map_some {α β : Type} (f : α → Option β) (g : α → β) :
    ∀ {l : List α}, (∀ a ∈ l, f a = some (g a)) → optList (l.map f) = some (l.map g)
  | [], _ => rfl
  | a :: l, h => by
    rw [List.map_cons, List.map_cons, h a (List.mem_cons_self ..), optList,
      optList_map_some f g (fun x hx => h x (List.mem_cons_of_mem _ hx))]
    rfl

theorem unitsInto_eq {env : BloqEnv} {T : CompositeBloq} (hT : GraphOK env T)
    {h0 : InstOrDangle} {r : Register}
    (hmem : ∀ idx ∈ r.idxs, (⟨h0, r, idx⟩ : Soquet) ∈ T.cxns.map (fun c => c.right)) :
    unitsInto T h0 r = some ((regUnitsAt h0 r).map (theSrc T)) := by
  rw [unitsInto,
    optList_map_some (fun idx => T.soqInto ⟨h0, r, idx⟩)
      (fun idx => theSrc T ⟨h0, r, idx⟩)
      (fun idx hidx => soqInto_of_dest hT (hmem idx hidx))]
  rw [regUnitsAt, List.map_map]
  rfl

theorem soqTInto_eq {env : BloqEnv} {T : CompositeBloq} (hT : GraphOK env T)
    {h0 : InstOrDangle} {r : Register}
    (hmem : ∀ idx ∈ r.idxs, (⟨h0, r, idx⟩ : Soquet) ∈ T.cxns.map (fun c => c.right)) :
    soqTInto T h0 r = some (packUnits r ((regUnitsAt h0 r).map (theSrc T))) := by
  rw [soqTInto, unitsInto_eq hT hmem]
  rfl

/-- The canonical reconstructed input bundles of register list `rs` with
per-register unit lists `g`. -/
def reconIns (g : Register → List Soquet) (rs : List Register) : List (String × SoquetT) :=
  rs.map (fun r => (r.name, packUnits r (g r)))

theorem reconIns_cons {g : Register → List Soquet} {r : Register} {rs : List Register} :
    reconIns g (r :: rs) = (r.name, packUnits r (g r)) :: reconIns g rs := rfl

theorem cbloqIns_eq {env : BloqEnv} {T : CompositeBloq} (hT : GraphOK env T)
    {bi : BloqInstance} (hbi : bi ∈ T.binsts) :
    cbloqIns env T bi =
      some (reconIns (fun r => (regUnitsAt (.inst bi) r).map (theSrc T))
        (bloqSig env bi.bloq).lefts) := by
  rw [cbloqIns]
  refine optList_map_some _ _ ?_
  intro r hr
  have hmem : ∀ idx ∈ r.idxs, (⟨.inst bi, r, idx⟩ : Soquet) ∈
      T.cxns.map (fun c => c.right) := by
    intro idx hidx
    rw [hT.rightsExact]
    refine List.mem_append.2 (Or.inl (List.mem_flatMap.2 ⟨bi, hbi, ?_⟩))
    exact List.mem_flatMap.2 ⟨r, hr, List.mem_map.2 ⟨idx, hidx, rfl⟩⟩
  rw [soqTInto_eq hT hmem]
  rfl

theorem final_soqs_eq {env : BloqEnv} {T : CompositeBloq} (hT : GraphOK env T) :
    T.final_soqs =
      some (reconIns (fun r => (regUnitsAt .rightDangle r).map (theSrc T))
        T.sig.rights) := by
  rw [CompositeBloq.final_soqs]
  refine optList_map_some _ _ ?_
  intro r hr
  have hmem : ∀ idx ∈ r.idxs, (⟨.rightDangle, r, idx⟩ : Soquet) ∈
      T.cxns.map (fun c => c.right) := by
    intro idx hidx
    rw [hT.rightsExact]
    refine List.mem_append.2 (Or.inr ?_)
    exact List.mem_flatMap.2 ⟨r, hr, List.mem_map.2 ⟨idx, hidx, rfl⟩⟩
  rw [soqTInto_eq hT hmem]
  rfl

theorem insShaped_recon {g : Register → List Soquet} :
    ∀ {rs : List Register}, (∀ r ∈ rs, (g r).length = r.idxs.length) →
    insShaped rs (reconIns g rs) = true
  | [], _ => rfl
  | r :: rs, h => by
    rw [reconIns_cons, insShaped]
    have h0 := h r (List.mem_cons_self ..)
    rw [insShaped_recon (fun q hq => h q (List.mem_cons_of_mem _ hq))]
    simp [kindOk_packUnits h0, packUnits_units h0, h0]

theorem widthsMatch_recon {g : Register → List Soquet} :
    ∀ {rs : List Register}, (∀ r ∈ rs, (g r).length = r.idxs.length) →
    (∀ r ∈ rs, ∀ s ∈ g r, s.reg.bitsize = r.bitsize) →
    widthsMatch rs (reconIns g rs) = true
  | [], _, _ => rfl
  | r :: rs, h, hw => by
    rw [reconIns_cons, widthsMatch]
    rw [widthsMatch_recon (fun q hq => h q (List.mem_cons_of_mem _ hq))
      (fun q hq => hw q (List.mem_cons_of_mem _ hq))]
    rw [packUnits_units (h r (List.mem_cons_self ..))]
    simp only [Bool.and_true]
    exact List.all_eq_true.2 fun s hs => by
      simpa using hw r (List.mem_cons_self ..) s hs

theorem insUnits_recon {g : Register → List Soquet} :
    ∀ {rs : List Register}, (∀ r ∈ rs, (g r).length = r.idxs.length) →
    insUnits (reconIns g rs) = rs.flatMap g
  | [], _ => rfl
  | r :: rs, h => by
    rw [reconIns_cons, insUnits_cons,
      show (r.name, packUnits r (g r)).2 = packUnits r (g r) from rfl,
      packUnits_units (h r (List.mem_cons_self ..))]
    rw [insUnits_recon (fun q hq => h q (List.mem_cons_of_mem _ hq))]
    rfl

theorem mapIns_recon {m : List (Soquet × Soquet)} {g : Register → List Soquet} :
    ∀ {rs : List Register}, (∀ r ∈ rs, (g r).length = r.idxs.length) →
    mapIns m (reconIns g rs) = reconIns (fun r => (g r).map (mapSoq m)) rs
  | [], _ => rfl
  | r :: rs, h => by
    rw [reconIns_cons, mapIns, List.map_cons]
    have h0 := h r (List.mem_cons_self ..)
    rw [show mapSoqT m (r.name, packUnits r (g r)).2 = mapSoqT m (packUnits r (g r)) from rfl]
    rw [mapSoqT_packUnits h0]
    have := @mapIns_recon m g rs (fun q hq => h q (List.mem_cons_of_mem _ hq))
    rw [mapIns] at this
    rw [this]
    rfl

/-! ### Further lookup facts about soquet mappings -/

theorem mapSoq_cons_pos {p : Soquet × Soquet} {m : List (Soquet × Soquet)} {s : Soquet}
    (h : p.1 = s) : mapSoq (p :: m) s = p.2 := by
  rw [mapSoq, List.find?_cons_of_pos _ (by simp [h])]
  rfl

theorem mapSoq_cons_neg {p : Soquet × Soquet} {m : List (Soquet × Soquet)} {s : Soquet}
    (h : ¬p.1 = s) : mapSoq (p :: m) s = mapSoq m s := by
  rw [mapSoq, List.find?_cons_of_neg _ (by simp [h])]
  rfl

theorem mapSoq_not_found {m : List (Soquet × Soquet)} {s : Soquet}
    (h : ∀ p ∈ m, p.1 ≠ s) : mapSoq m s = s := by
  induction m with
  | nil => rfl
  | cons p m ih =>
    rw [mapSoq, List.find?_cons_of_neg _ (by simp [h p (List.mem_cons_self ..)])]
    exact ih fun q hq => h q (List.mem_cons_of_mem _ hq)

theorem mapSoq_append_keyfree {m1 m2 : List (Soquet × Soquet)} {s : Soquet}
    (h : ∀ p ∈ m2, p.1 ≠ s) : mapSoq (m1 ++ m2) s = mapSoq m1 s := by
  by_cases hex : ∃ p ∈ m1, p.1 = s
  · exact mapSoq_append_left hex
  · push_neg at hex
    rw [mapSoq_append_right hex, mapSoq_not_found h, mapSoq_not_found hex]

theorem mapSoq_zip_mem : ∀ {ks vs : List Soquet}, ks.length = vs.length →
    ∀ {s : Soquet}, s ∈ ks → mapSoq (ks.zip vs) s ∈ vs
  | [], [], _, s, hs => by cases hs
  | k :: ks, v :: vs, hlen, s, hs => by
    rw [List.zip_cons_cons]
    by_cases hk : k = s
    · rw [mapSoq, List.find?_cons_of_pos _ (by simp [hk])]
      exact List.mem_cons_self ..
    · rcases List.mem_cons.1 hs with rfl | hs2
      · exact absurd rfl hk
      · rw [mapSoq, List.find?_cons_of_neg _ (by simp [hk])]
        exact List.mem_cons_of_mem _ (mapSoq_zip_mem (by simpa using hlen) hs2)

theorem mapSoq_zip_inj : ∀ {ks vs : List Soquet}, ks.length = vs.length →
    ks.Nodup → vs.Nodup → ∀ {s1 s2 : Soquet}, s1 ∈ ks → s2 ∈ ks →
    mapSoq (ks.zip vs) s1 = mapSoq (ks.zip vs) s2 → s1 = s2
  | [], [], _, _, _, s1, s2, h1, _, _ => by cases h1
  | k :: ks, v :: vs, hlen, hndk, hndv, s1, s2, h1, h2, he => by
    rw [List.zip_cons_cons] at he
    by_cases hk1 : k = s1 <;> by_cases hk2 : k = s2
    · rw [← hk1, ← hk2]
    · exfalso
      rcases List.mem_cons.1 h2 with rfl | h2b
      · exact hk2 rfl
      · rw [mapSoq_cons_pos hk1, mapSoq_cons_neg hk2] at he
        have hv2 : mapSoq (ks.zip vs) s2 ∈ vs :=
          mapSoq_zip_mem (by simpa using hlen) h2b
        rw [← he] at hv2
        exact (List.nodup_cons.1 hndv).1 hv2
    · exfalso
      rcases List.mem_cons.1 h1 with rfl | h1b
      · exact hk1 rfl
      · rw [mapSoq_cons_neg hk1, mapSoq_cons_pos hk2] at he
        have hv1 : mapSoq (ks.zip vs) s1 ∈ vs :=
          mapSoq_zip_mem (by simpa using hlen) h1b
        rw [he] at hv1
        exact (List.nodup_cons.1 hndv).1 hv1
    · rcases List.mem_cons.1 h1 with rfl | h1b
      · exact absurd rfl hk1
      rcases List.mem_cons.1 h2 with rfl | h2b
      · exact absurd rfl hk2
      rw [mapSoq_cons_neg hk1, mapSoq_cons_neg hk2] at he
      exact mapSoq_zip_inj (by simpa using hlen) (List.Nodup.of_cons hndk)
        (List.Nodup.of_cons hndv) h1b h2b he

theorem zipWith_mk_map_two (f g : Soquet → Soquet) :
    ∀ l : List Soquet, List.zipWith Connection.mk (l.map f) (l.map g) =
      l.map (fun u => Connection.mk (f u) (g u))
  | [] => rfl
  | u :: l => by
    rw [List.map_cons, List.map_cons, List.zipWith_cons_cons, zipWith_mk_map_two f g l]
    rfl

theorem flatMap_units_packSoqT (h : InstOrDangle) :
    ∀ rs : List Register,
    (rs.map (packSoqT h)).flatMap SoquetT.units = rs.flatMap (regUnitsAt h)
  | [] => rfl
  | r :: rs => by
    rw [List.map_cons, List.flatMap_cons, packSoqT_units, List.flatMap_cons,
      flatMap_units_packSoqT h rs]

theorem reconIns_congr {g1 g2 : Register → List Soquet} {rs : List Register}
    (h : ∀ r ∈ rs, g1 r = g2 r) : reconIns g1 rs = reconIns g2 rs :=
  List.map_congr_left fun r hr => by rw [h r hr]

/-! ### The template-side bookkeeping of a replay -/

/-- The template soquets produced once the prefix `done` of the template's
instances has been replayed: the left-dangling boundary plus every
replayed instance's outputs. -/
def tplDom (env : BloqEnv) (T : CompositeBloq) (done : List BloqInstance) : List Soquet :=
  ldUnits T.sig.regs ++ done.flatMap (outUnits env)

/-- The template source soquets consumed while replaying `done`. -/
def tplConsumed (env : BloqEnv) (T : CompositeBloq) (done : List BloqInstance) : List Soquet :=
  (done.flatMap (inUnits env)).map (theSrc T)

/-- Template soquet `k` is unconsumed after replaying `done`: no template
connection from `k` targets an instance of `done`. -/
def freeAfter (T : CompositeBloq) (done : List BloqInstance) (k : Soquet) : Prop :=
  ∀ c ∈ T.cxns, c.left = k → ∀ bj ∈ done, c.right.binst ≠ .inst bj

theorem tplDom_snoc (env : BloqEnv) (T : CompositeBloq) (done : List BloqInstance)
    (bi : BloqInstance) :
    tplDom env T (done ++ [bi]) = tplDom env T done ++ outUnits env bi := by
  simp [tplDom, List.flatMap_append]

theorem tplConsumed_snoc (env : BloqEnv) (T : CompositeBloq) (done : List BloqInstance)
    (bi : BloqInstance) :
    tplConsumed env T (done ++ [bi]) =
      tplConsumed env T done ++ (inUnits env bi).map (theSrc T) := by
  simp [tplConsumed, List.flatMap_append]

theorem tplDom_mono {env : BloqEnv} {T : CompositeBloq} {done done2 : List BloqInstance}
    (hsub : ∀ bj ∈ done, bj ∈ done2) {s : Soquet} (hs : s ∈ tplDom env T done) :
    s ∈ tplDom env T done2 := by
  rcases List.mem_append.1 hs with h1 | h1
  · exact List.mem_append.2 (Or.inl h1)
  · obtain ⟨bj, hbj, hj⟩ := List.mem_flatMap.1 h1
    exact List.mem_append.2 (Or.inr (List.mem_flatMap.2 ⟨bj, hsub bj hbj, hj⟩))

theorem tplDom_disjoint_out {env : BloqEnv} {T : CompositeBloq} {done : List BloqInstance}
    {bi : BloqInstance} (hni : bi ∉ done) {s : Soquet} (hs : s ∈ tplDom env T done) :
    s ∉ outUnits env bi := by
  intro hmem
  have hb := binst_of_mem_outUnits hmem
  rcases List.mem_append.1 hs with h1 | h1
  · rw [binst_of_mem_ldUnits h1] at hb
    cases hb
  · obtain ⟨bj, hbj, hj⟩ := List.mem_flatMap.1 h1
    have hb2 := binst_of_mem_outUnits hj
    rw [hb2] at hb
    have hbji : bj = bi := by injection hb
    exact hni (hbji ▸ hbj)

theorem freeAfter_mono {T : CompositeBloq} {done done2 : List BloqInstance} {k : Soquet}
    (hsub : ∀ bj ∈ done, bj ∈ done2) (h : freeAfter T done2 k) : freeAfter T done k :=
  fun c hc hl bj hbj => h c hc hl bj (hsub bj hbj)

/-! ### Facts about the unique sources of a template -/

theorem T_lefts_inj {env : BloqEnv} {T : CompositeBloq} (hT : GraphOK env T)
    {c1 c2 : Connection} (h1 : c1 ∈ T.cxns) (h2 : c2 ∈ T.cxns)
    (he : c1.left = c2.left) : c1 = c2 :=
  List.inj_on_of_nodup_map hT.lefts_nodup h1 h2 he

theorem dest_mem_of_inUnits {env : BloqEnv} {T : CompositeBloq} (hT : GraphOK env T)
    {bi : BloqInstance} (hbi : bi ∈ T.binsts) {u : Soquet} (hu : u ∈ inUnits env bi) :
    u ∈ T.cxns.map (fun c => c.right) := by
  rw [hT.rightsExact]
  exact List.mem_append.2 (Or.inl (List.mem_flatMap.2 ⟨bi, hbi, hu⟩))

theorem dest_mem_of_rdUnits {env : BloqEnv} {T : CompositeBloq} (hT : GraphOK env T)
    {u : Soquet} (hu : u ∈ rdUnits T.sig.regs) : u ∈ T.cxns.map (fun c => c.right) := by
  rw [hT.rightsExact]
  exact List.mem_append.2 (Or.inr hu)

theorem theSrc_width {env : BloqEnv} {T : CompositeBloq} (hT : GraphOK env T) {u : Soquet}
    (hu : u ∈ T.cxns.map (fun c => c.right)) :
    (theSrc T u).reg.bitsize = u.reg.bitsize :=
  hT.widthsOk _ (srcPair_mem hT hu)

theorem theSrc_mem_tplDom {env : BloqEnv} {T : CompositeBloq} (hT : GraphOK env T)
    {done tl : List BloqInstance} {bi : BloqInstance}
    (hsplit : T.binsts = done ++ bi :: tl) {u : Soquet} (hu : u ∈ inUnits env bi) :
    theSrc T u ∈ tplDom env T done := by
  have hbiT : bi ∈ T.binsts := by
    rw [hsplit]
    exact List.mem_append.2 (Or.inr (List.mem_cons_self ..))
  have hc := srcPair_mem hT (dest_mem_of_inUnits hT hbiT hu)
  have hrb : (Connection.mk (theSrc T u) u).right.binst = .inst bi := binst_of_mem_inUnits hu
  rcases hT.orderOk _ hc bi hbiT hrb with h1 | ⟨bj, hbj, hlt, hout⟩
  · exact List.mem_append.2 (Or.inl h1)
  · have hbj2 : bj ∈ done := by
      refine mem_prefix_of_lt hT hsplit hbj ?_
      rw [← ids_prefix_len hT hsplit]
      exact hlt
    exact List.mem_append.2 (Or.inr (List.mem_flatMap.2 ⟨bj, hbj2, hout⟩))

theorem theSrc_free {env : BloqEnv} {T : CompositeBloq} (hT : GraphOK env T)
    {done tl : List BloqInstance} {bi : BloqInstance}
    (hsplit : T.binsts = done ++ bi :: tl) {u : Soquet} (hu : u ∈ inUnits env bi) :
    freeAfter T done (theSrc T u) := by
  intro c hc hl bj hbj hr
  have hbiT : bi ∈ T.binsts := by
    rw [hsplit]
    exact List.mem_append.2 (Or.inr (List.mem_cons_self ..))
  have hc0 := srcPair_mem hT (dest_mem_of_inUnits hT hbiT hu)
  have hce : c = Connection.mk (theSrc T u) u := T_lefts_inj hT hc hc0 hl
  have hrb : c.right.binst = .inst bi := by
    rw [hce]
    exact binst_of_mem_inUnits hu
  rw [hr] at hrb
  have hbji : bj = bi := by injection hrb
  have hnd := hT.instsNodup
  rw [hsplit] at hnd
  exact (List.disjoint_of_nodup_append hnd) (hbji ▸ hbj) (List.mem_cons_self ..)

theorem theSrc_rd_mem_tplDom {env : BloqEnv} {T : CompositeBloq} (hT : GraphOK env T)
    {u : Soquet} (hu : u ∈ rdUnits T.sig.regs) : theSrc T u ∈ tplDom env T T.binsts := by
  have hc := srcPair_mem hT (dest_mem_of_rdUnits hT hu)
  have hl : theSrc T u ∈ T.cxns.map (fun c => c.left) := List.mem_map.2 ⟨_, hc, rfl⟩
  exact hT.leftsPerm.mem_iff.1 hl

theorem theSrc_rd_free {env : BloqEnv} {T : CompositeBloq} (hT : GraphOK env T)
    {u : Soquet} (hu : u ∈ rdUnits T.sig.regs) {done : List BloqInstance} :
    freeAfter T done (theSrc T u) := by
  intro c hc hl bj hbj hr
  have hc0 := srcPair_mem hT (dest_mem_of_rdUnits hT hu)
  have hce : c = Connection.mk (theSrc T u) u := T_lefts_inj hT hc hc0 hl
  have hrb : c.right.binst = .rightDangle := by
    rw [hce]
    exact binst_of_mem_rdUnits hu
  rw [hr] at hrb
  cases hrb

theorem srcs_inUnits_nodup {env : BloqEnv} {T : CompositeBloq} (hT : GraphOK env T)
    {bi : BloqInstance} (hbi : bi ∈ T.binsts) :
    ((inUnits env bi).map (theSrc T)).Nodup := by
  refine List.Nodup.map_on ?_ (inUnits_nodup (hT.sigsOk bi hbi))
  intro u hu v hv huv
  have hcu := srcPair_mem hT (dest_mem_of_inUnits hT hbi hu)
  have hcv := srcPair_mem hT (dest_mem_of_inUnits hT hbi hv)
  have hcc := T_lefts_inj hT hcu hcv huv
  exact congrArg (fun c => c.right) hcc

theorem srcs_rdUnits_nodup {env : BloqEnv} {T : CompositeBloq} (hT : GraphOK env T) :
    ((rdUnits T.sig.regs).map (theSrc T)).Nodup := by
  refine List.Nodup.map_on ?_ (rdUnits_nodup hT.regsOk)
  intro u hu v hv huv
  have hcu := srcPair_mem hT (dest_mem_of_rdUnits hT hu)
  have hcv := srcPair_mem hT (dest_mem_of_rdUnits hT hv)
  have hcc := T_lefts_inj hT hcu hcv huv
  exact congrArg (fun c => c.right) hcc

/-! ### Admissible boundary bindings for a replay -/

/-- What the replay requires of the boundary binding `fd` together with the
identifier shift `n0`: injective on the template's left-dangling units,
its values' instance identifiers stay below the shift, and it preserves
widths. -/
structure RenOK (env : BloqEnv) (T : CompositeBloq) (n0 : Nat) (fd : Soquet → Soquet) :
    Prop where
  inj : ∀ s1 ∈ ldUnits T.sig.regs, ∀ s2 ∈ ldUnits T.sig.regs, fd s1 = fd s2 → s1 = s2
  below : ∀ s ∈ ldUnits T.sig.regs, ∀ bi', (fd s).binst = .inst bi' → bi'.i < n0
  width : ∀ s ∈ ldUnits T.sig.regs, (fd s).reg.bitsize = s.reg.bitsize

theorem renSoq_inj_on {env : BloqEnv} {T : CompositeBloq} {n0 : Nat} {fd : Soquet → Soquet}
    (hR : RenOK env T n0 fd) {s1 s2 : Soquet}
    (h1 : s1 ∈ tplDom env T T.binsts) (h2 : s2 ∈ tplDom env T T.binsts)
    (he : renSoq n0 fd s1 = renSoq n0 fd s2) : s1 = s2 := by
  rcases List.mem_append.1 h1 with hl1 | hr1 <;> rcases List.mem_append.1 h2 with hl2 | hr2
  · rw [renSoq_ld (binst_of_mem_ldUnits hl1), renSoq_ld (binst_of_mem_ldUnits hl2)] at he
    exact hR.inj s1 hl1 s2 hl2 he
  · exfalso
    obtain ⟨bj, hbj, hmem⟩ := List.mem_flatMap.1 hr2
    obtain ⟨b2, r2, i2⟩ := s2
    have hb2 : b2 = .inst bj := binst_of_mem_outUnits hmem
    subst hb2
    rw [renSoq_ld (binst_of_mem_ldUnits hl1), renSoq_inst r2 i2] at he
    have := hR.below s1 hl1 (renInst n0 bj) (by rw [he])
    have h9 : bj.i + n0 < n0 := this
    omega
  · exfalso
    obtain ⟨bj, hbj, hmem⟩ := List.mem_flatMap.1 hr1
    obtain ⟨b1, r1, i1⟩ := s1
    have hb1 : b1 = .inst bj := binst_of_mem_outUnits hmem
    subst hb1
    rw [renSoq_ld (binst_of_mem_ldUnits hl2), renSoq_inst r1 i1] at he
    have := hR.below s2 hl2 (renInst n0 bj) (by rw [← he])
    have h9 : bj.i + n0 < n0 := this
    omega
  · obtain ⟨bj1, hbj1, hm1⟩ := List.mem_flatMap.1 hr1
    obtain ⟨bj2, hbj2, hm2⟩ := List.mem_flatMap.1 hr2
    obtain ⟨b1, r1, i1⟩ := s1
    obtain ⟨b2, r2, i2⟩ := s2
    have hb1 : b1 = .inst bj1 := binst_of_mem_outUnits hm1
    have hb2 : b2 = .inst bj2 := binst_of_mem_outUnits hm2
    subst hb1
    subst hb2
    rw [renSoq_inst r1 i1, renSoq_inst r2 i2] at he
    injection he with hbinst hreg hidx
    injection hbinst with hri
    rw [renInst, renInst] at hri
    injection hri with hbloq hid
    have hjj : bj1 = bj2 := by
      obtain ⟨q1, n1⟩ := bj1
      obtain ⟨q2, n2⟩ := bj2
      simp only at hbloq hid
      simp [hbloq]
      omega
    rw [hjj, hreg, hidx]

theorem renSoq_width {env : BloqEnv} {T : CompositeBloq} {n0 : Nat} {fd : Soquet → Soquet}
    (hR : RenOK env T n0 fd) {s : Soquet} (h : s ∈ tplDom env T T.binsts) :
    (renSoq n0 fd s).reg.bitsize = s.reg.bitsize := by
  rcases List.mem_append.1 h with h1 | h1
  · rw [renSoq_ld (binst_of_mem_ldUnits h1)]
    exact hR.width s h1
  · obtain ⟨bj, hbj, hmem⟩ := List.mem_flatMap.1 h1
    rw [renSoq_reg_of_inst (binst_of_mem_outUnits hmem)]

theorem theSrc_mem_tplDom_full {env : BloqEnv} {T : CompositeBloq} (hT : GraphOK env T)
    {u : Soquet} (hu : u ∈ T.cxns.map (fun c => c.right)) :
    theSrc T u ∈ tplDom env T T.binsts := by
  have hc := srcPair_mem hT hu
  have hl : theSrc T u ∈ T.cxns.map (fun c => c.left) := List.mem_map.2 ⟨_, hc, rfl⟩
  exact hT.leftsPerm.mem_iff.1 hl

/-! ### The renamed reconstructed inputs of one replayed instance -/

/-- The input bundles handed to the replay of instance `bi`: its template
sources, renamed. -/
def renIns (env : BloqEnv) (T : CompositeBloq) (n0 : Nat) (fd : Soquet → Soquet)
    (bi : BloqInstance) : List (String × SoquetT) :=
  reconIns (fun r => ((regUnitsAt (.inst bi) r).map (theSrc T)).map (renSoq n0 fd))
    (bloqSig env bi.bloq).lefts

theorem renIns_lens (T : CompositeBloq) (n0 : Nat) (fd : Soquet → Soquet)
    (bi : BloqInstance) (rs : List Register) :
    ∀ r ∈ rs, (((regUnitsAt (.inst bi) r).map (theSrc T)).map (renSoq n0 fd)).length
      = r.idxs.length := by
  intro r _
  rw [List.length_map, List.length_map, regUnitsAt_length]

theorem renIns_shaped (env : BloqEnv) (T : CompositeBloq) (n0 : Nat) (fd : Soquet → Soquet)
    (bi : BloqInstance) :
    insShaped (bloqSig env bi.bloq).lefts (renIns env T n0 fd bi) = true :=
  insShaped_recon (renIns_lens T n0 fd bi _)

theorem renIns_units (env : BloqEnv) (T : CompositeBloq) (n0 : Nat) (fd : Soquet → Soquet)
    (bi : BloqInstance) :
    insUnits (renIns env T n0 fd bi)
      = (inUnits env bi).map (fun u => renSoq n0 fd (theSrc T u)) := by
  rw [renIns, insUnits_recon (renIns_lens T n0 fd bi _), inUnits, List.map_flatMap]
  refine List.flatMap_congr ?_
  intro r _
  rw [List.map_map]
  rfl

theorem renIns_widths {env : BloqEnv} {T : CompositeBloq} (hT : GraphOK env T)
    {n0 : Nat} {fd : Soquet → Soquet} (hR : RenOK env T n0 fd)
    {bi : BloqInstance} (hbi : bi ∈ T.binsts) :
    widthsMatch (bloqSig env bi.bloq).lefts (renIns env T n0 fd bi) = true := by
  refine widthsMatch_recon (renIns_lens T n0 fd bi _) ?_
  intro r hr s hs
  obtain ⟨k, hk, rfl⟩ := List.mem_map.1 hs
  obtain ⟨u, hu, rfl⟩ := List.mem_map.1 hk
  have huIn : u ∈ inUnits env bi := List.mem_flatMap.2 ⟨r, hr, hu⟩
  have hud := dest_mem_of_inUnits hT hbi huIn
  rw [renSoq_width hR (theSrc_mem_tplDom_full hT hud), theSrc_width hT hud,
    (mem_regUnitsAt.1 hu).2.1]

theorem renIns_nodup {env : BloqEnv} {T : CompositeBloq} (hT : GraphOK env T)
    {n0 : Nat} {fd : Soquet → Soquet} (hR : RenOK env T n0 fd)
    {bi : BloqInstance} (hbi : bi ∈ T.binsts) :
    (insUnits (renIns env T n0 fd bi)).Nodup := by
  rw [renIns_units]
  have hrw : (inUnits env bi).map (fun u => renSoq n0 fd (theSrc T u))
      = ((inUnits env bi).map (theSrc T)).map (renSoq n0 fd) := by
    rw [List.map_map]
    rfl
  rw [hrw]
  refine List.Nodup.map_on ?_ (srcs_inUnits_nodup hT hbi)
  intro x hx y hy hxy
  obtain ⟨u, hu, rfl⟩ := List.mem_map.1 hx
  obtain ⟨v, hv, rfl⟩ := List.mem_map.1 hy
  exact renSoq_inj_on hR
    (theSrc_mem_tplDom_full hT (dest_mem_of_inUnits hT hbi hu))
    (theSrc_mem_tplDom_full hT (dest_mem_of_inUnits hT hbi hv)) hxy

/-! ### A backward lemma for `finalize` -/

theorem finalize_ok_of {env : BloqEnv} {bb : BloqBuilder} {fins : List (String × SoquetT)}
    (_hin : BInv env bb)
    (h2 : insShaped (Signature.mk bb.regs).rights fins = true)
    (h3 : widthsMatch (Signature.mk bb.regs).rights fins = true)
    (h4 : (insUnits fins).Nodup)
    (h5 : bb.available.Perm (insUnits fins)) :
    bb.finalize fins = .ok ⟨⟨bb.regs⟩, bb.binsts,
      bb.cxns ++ List.zipWith Connection.mk (insUnits fins) (rdUnits bb.regs)⟩ := by
  obtain ⟨bbf, hbbf⟩ := @wireMany_ok_of (fun r idx => ⟨.rightDangle, r, idx⟩)
    .boundaryMismatch .boundaryMismatch (Signature.mk bb.regs).rights fins bb h2 h3 h4
    (fun s hs => h5.mem_iff.2 hs)
  obtain ⟨t1, t2, t3, t4, t5, t6, t7, t8, t9⟩ := wireMany_ok hbbf
  have hav : bbf.available = [] := by
    have m1 := Multiset.coe_eq_coe.2 t8
    have m2 := Multiset.coe_eq_coe.2 h5
    have hx : ((insUnits fins : List Soquet) : Multiset Soquet) =
        ↑(insUnits fins) + ↑bbf.available := by
      calc ((insUnits fins : List Soquet) : Multiset Soquet)
          = ↑bb.available := m2.symm
        _ = ↑(insUnits fins ++ bbf.available) := m1
        _ = ↑(insUnits fins) + ↑bbf.available := rfl
    have h0 : (↑bbf.available : Multiset Soquet) = 0 := self_eq_add_right.1 hx
    exact (Multiset.coe_eq_zero _).1 h0
  have hfin : finAll (Signature.mk bb.regs).rights fins bb = .ok bbf := hbbf
  have hrd : destUnits (fun r idx => ⟨.rightDangle, r, idx⟩) (Signature.mk bb.regs).rights
      = rdUnits bb.regs := rfl
  have hgoal : (if bbf.available.isEmpty then
      Except.ok (⟨⟨bbf.regs⟩, bbf.binsts, bbf.cxns⟩ : CompositeBloq)
    else Except.error BloqError.unconsumedSoquet) =
      Except.ok (⟨⟨bb.regs⟩, bb.binsts,
        bb.cxns ++ List.zipWith Connection.mk (insUnits fins) (rdUnits bb.regs)⟩
        : CompositeBloq) := by
    rw [hav]
    rw [if_pos (show ([] : List Soquet).isEmpty = true from rfl), t1, t2, t7, hrd]
  show (match finAll (Signature.mk bb.regs).rights fins bb with
    | .error e => Except.error e
    | .ok bb2 =>
      if bb2.available.isEmpty then Except.ok (⟨⟨bb2.regs⟩, bb2.binsts, bb2.cxns⟩ : CompositeBloq)
      else Except.error BloqError.unconsumedSoquet) = _
  rw [hfin]
  exact hgoal

/-! ### Stepping and splitting the rebuild loop -/

theorem rebuildLoop_cons {env : BloqEnv} {cb : CompositeBloq}
    {act : BloqBuilder → BloqInstance → List (String × SoquetT) →
      Except BloqError (BloqBuilder × List SoquetT)}
    {bi : BloqInstance} {rest : List BloqInstance} {bb : BloqBuilder}
    {m : List (Soquet × Soquet)} {ins : List (String × SoquetT)} {bbN : BloqBuilder}
    {outs : List SoquetT}
    (hins : cbloqIns env cb bi = some ins)
    (hact : act bb bi (mapIns m ins) = .ok (bbN, outs)) :
    rebuildLoop env cb act (bi :: rest) bb m =
      rebuildLoop env cb act rest bbN
        (m ++ (outUnits env bi).zip (outs.flatMap SoquetT.units)) := by
  rw [rebuildLoop, hins]
  show (match act bb bi (mapIns m ins) with
    | .error e => Except.error e
    | .ok (bb2, outs) =>
      rebuildLoop env cb act rest bb2
        (m ++ (outUnits env bi).zip (outs.flatMap SoquetT.units))) = _
  rw [hact]

theorem rebuildLoop_cons_err {env : BloqEnv} {cb : CompositeBloq}
    {act : BloqBuilder → BloqInstance → List (String × SoquetT) →
      Except BloqError (BloqBuilder × List SoquetT)}
    {bi : BloqInstance} {rest : List BloqInstance} {bb : BloqBuilder}
    {m : List (Soquet × Soquet)} {ins : List (String × SoquetT)} {e : BloqError}
    (hins : cbloqIns env cb bi = some ins)
    (hact : act bb bi (mapIns m ins) = .error e) :
    rebuildLoop env cb act (bi :: rest) bb m = .error e := by
  rw [rebuildLoop, hins]
  show (match act bb bi (mapIns m ins) with
    | .error e => Except.error e
    | .ok (bb2, outs) =>
      rebuildLoop env cb act rest bb2
        (m ++ (outUnits env bi).zip (outs.flatMap SoquetT.units))) = _
  rw [hact]

theorem rebuildLoop_append {env : BloqEnv} {cb : CompositeBloq}
    {act : BloqBuilder → BloqInstance → List (String × SoquetT) →
      Except BloqError (BloqBuilder × List SoquetT)} :
    ∀ (l1 l2 : List BloqInstance) (bb : BloqBuilder) (m : List (Soquet × Soquet)),
    rebuildLoop env cb act (l1 ++ l2) bb m =
      match rebuildLoop env cb act l1 bb m with
      | .error e => .error e
      | .ok (bb1, m1) => rebuildLoop env cb act l2 bb1 m1
  | [], l2, bb, m => rfl
  | bi :: l1, l2, bb, m => by
    rw [List.cons_append, rebuildLoop, rebuildLoop]
    rcases hins : cbloqIns env cb bi with _ | ins
    · rfl
    · show (match act bb bi (mapIns m ins) with
        | .error e => Except.error e
        | .ok (bb2, outs) =>
          rebuildLoop env cb act (l1 ++ l2) bb2
            (m ++ (outUnits env bi).zip (outs.flatMap SoquetT.units))) =
        (match (match act bb bi (mapIns m ins) with
          | .error e => Except.error e
          | .ok (bb2, outs) =>
            rebuildLoop env cb act l1 bb2
              (m ++ (outUnits env bi).zip (outs.flatMap SoquetT.units))) with
        | .error e => Except.error e
        | .ok (bb1, m1) => rebuildLoop env cb act l2 bb1 m1)
      rcases hact : act bb bi (mapIns m ins) with e | ⟨bbN, outs⟩
      · rfl
      · exact rebuildLoop_append l1 l2 bbN
          (m ++ (outUnits env bi).zip (outs.flatMap SoquetT.units))

theorem rebuildLoop_congr {env : BloqEnv} {cb : CompositeBloq}
    {act1 act2 : BloqBuilder → BloqInstance → List (String × SoquetT) →
      Except BloqError (BloqBuilder × List SoquetT)} :
    ∀ (pending : List BloqInstance) (bb : BloqBuilder) (m : List (Soquet × Soquet)),
    (∀ b2 bj ins2, bj ∈ pending → act1 b2 bj ins2 = act2 b2 bj ins2) →
    rebuildLoop env cb act1 pending bb m = rebuildLoop env cb act2 pending bb m
  | [], bb, m, _ => rfl
  | bi :: rest, bb, m, h => by
    rw [rebuildLoop, rebuildLoop]
    rcases hins : cbloqIns env cb bi with _ | ins
    · rfl
    · show (match act1 bb bi (mapIns m ins) with
        | .error e => Except.error e
        | .ok (bb2, outs) =>
          rebuildLoop env cb act1 rest bb2
            (m ++ (outUnits env bi).zip (outs.flatMap SoquetT.units))) =
        (match act2 bb bi (mapIns m ins) with
        | .error e => Except.error e
        | .ok (bb2, outs) =>
          rebuildLoop env cb act2 rest bb2
            (m ++ (outUnits env bi).zip (outs.flatMap SoquetT.units)))
      rw [h bb bi (mapIns m ins) (List.mem_cons_self ..)]
      rcases hact : act2 bb bi (mapIns m ins) with e | p
      · rfl
      · obtain ⟨bbN, outs⟩ := p
        exact rebuildLoop_congr rest bbN
          (m ++ (outUnits env bi).zip (outs.flatMap SoquetT.units))
          (fun b2 bj ins2 hbj => h b2 bj ins2 (List.mem_cons_of_mem _ hbj))

theorem rebuildWith_congr {env : BloqEnv} {cb : CompositeBloq}
    {act1 act2 : BloqBuilder → BloqInstance → List (String × SoquetT) →
      Except BloqError (BloqBuilder × List SoquetT)}
    (h : ∀ b2 bj ins2, bj ∈ cb.binsts → act1 b2 bj ins2 = act2 b2 bj ins2) :
    rebuildWith env cb act1 = rebuildWith env cb act2 := by
  rw [rebuildWith, rebuildWith]
  rcases hfs : BloqBuilder.from_signature cb.sig with e | bb0
  · rfl
  · show (match rebuildLoop env cb act1 cb.binsts bb0 [] with
      | .error e => Except.error e
      | .ok (bb, m) =>
        match cb.final_soqs with
        | none => Except.error BloqError.danglingSoquetUnused
        | some fins => bb.finalize (mapIns m fins)) =
      (match rebuildLoop env cb act2 cb.binsts bb0 [] with
      | .error e => Except.error e
      | .ok (bb, m) =>
        match cb.final_soqs with
        | none => Except.error BloqError.danglingSoquetUnused
        | some fins => bb.finalize (mapIns m fins))
    rw [rebuildLoop_congr cb.binsts bb0 [] h]

/-! ### The replay invariant and the master replay lemma -/

/-- The invariant maintained while replaying template `T` into a builder:
the builder invariant holds, the counter sits at the shift plus the number
of replayed instances, the accumulated mapping realizes the renaming on
every produced template soquet, its keys stay in that domain, every
unconsumed renamed soquet is live, and the live multiset balances the
initial one. -/
structure LoopSt (env : BloqEnv) (T : CompositeBloq) (n0 : Nat) (fd : Soquet → Soquet)
    (av0 : List Soquet) (done : List BloqInstance) (bb : BloqBuilder)
    (m : List (Soquet × Soquet)) : Prop where
  hbi : BInv env bb
  hiEq : bb.i = n0 + done.length
  hmap : ∀ s ∈ tplDom env T done, mapSoq m s = renSoq n0 fd s
  hkeys : ∀ p ∈ m, p.1 ∈ tplDom env T done
  havail : ∀ k ∈ tplDom env T done, freeAfter T done k → renSoq n0 fd k ∈ bb.available
  hperm : (↑bb.available + ↑((tplConsumed env T done).map (renSoq n0 fd)) : Multiset Soquet)
    = ↑av0 + ↑((done.flatMap (outUnits env)).map (renSoq n0 fd))

/-- The master replay lemma: replaying a contiguous block of template
instances with an action that behaves like `add_t` on that block appends
exactly the renamed instances and their renamed input connections, and
maintains the replay invariant. -/
theorem rebuildLoop_spec {env : BloqEnv} {T : CompositeBloq} (hT : GraphOK env T)
    {n0 : Nat} {fd : Soquet → Soquet} (hR : RenOK env T n0 fd) {av0 : List Soquet}
    {act : BloqBuilder → BloqInstance → List (String × SoquetT) →
      Except BloqError (BloqBuilder × List SoquetT)} :
    ∀ (pending : List BloqInstance) {done tl : List BloqInstance} {bb : BloqBuilder}
      {m : List (Soquet × Soquet)},
    T.binsts = done ++ pending ++ tl →
    (∀ b2 bj ins2, bj ∈ pending → act b2 bj ins2 = b2.add_t env bj.bloq ins2) →
    LoopSt env T n0 fd av0 done bb m →
    ∃ bb2 m2,
      rebuildLoop env T act pending bb m = .ok (bb2, m2) ∧
      bb2.regs = bb.regs ∧
      bb2.binsts = bb.binsts ++ pending.map (renInst n0) ∧
      bb2.cxns = bb.cxns ++ (pending.flatMap (bodyOf env T)).map (renCxn n0 fd) ∧
      LoopSt env T n0 fd av0 (done ++ pending) bb2 m2
  | [], done, tl, bb, m, hsplit, hagree, hst =>
    ⟨bb, m, rfl, rfl, by simp, by simp, by simpa using hst⟩
  | bi :: rest, done, tl, bb, m, hsplit, hagree, hst => by
    have hsplit1 : T.binsts = done ++ bi :: (rest ++ tl) := by
      rw [hsplit]
      simp
    have hbiT : bi ∈ T.binsts := by
      rw [hsplit1]
      exact List.mem_append.2 (Or.inr (List.mem_cons_self ..))
    have hbiI : bi.i = done.length := ids_prefix_len hT hsplit1
    have hbiND : bi ∉ done := by
      have hnd := hT.instsNodup
      rw [hsplit1] at hnd
      intro hmem
      exact (List.disjoint_of_nodup_append hnd) hmem (List.mem_cons_self ..)
    have hsig : sigOk (bloqSig env bi.bloq) = true := hT.sigsOk bi hbiT
    have hins := cbloqIns_eq hT hbiT
    have hsrcDom : ∀ u ∈ inUnits env bi, theSrc T u ∈ tplDom env T done :=
      fun u hu => theSrc_mem_tplDom hT hsplit1 hu
    have hsrcFree : ∀ u ∈ inUnits env bi, freeAfter T done (theSrc T u) :=
      fun u hu => theSrc_free hT hsplit1 hu
    have hlen1 : ∀ r ∈ (bloqSig env bi.bloq).lefts,
        ((regUnitsAt (.inst bi) r).map (theSrc T)).length = r.idxs.length := by
      intro r _
      rw [List.length_map, regUnitsAt_length]
    -- the mapped reconstructed inputs are exactly the renamed sources
    have hmapins : mapIns m (reconIns (fun r => (regUnitsAt (.inst bi) r).map (theSrc T))
          (bloqSig env bi.bloq).lefts) = renIns env T n0 fd bi := by
      rw [mapIns_recon hlen1, renIns]
      refine reconIns_congr ?_
      intro r hr
      refine List.map_congr_left ?_
      intro k hk
      obtain ⟨u, hu, rfl⟩ := List.mem_map.1 hk
      refine hst.hmap _ (hsrcDom u ?_)
      exact List.mem_flatMap.2 ⟨r, hr, hu⟩
    have hlive : ∀ s ∈ insUnits (renIns env T n0 fd bi), s ∈ bb.available := by
      rw [renIns_units]
      intro s hs
      obtain ⟨u, hu, rfl⟩ := List.mem_map.1 hs
      exact hst.havail _ (hsrcDom u hu) (hsrcFree u hu)
    obtain ⟨bbN, haddN⟩ := add_t_ok_of hsig (renIns_shaped env T n0 fd bi)
      (renIns_widths hT hR hbiT) (renIns_nodup hT hR hbiT) hlive
    have hiN : bb.i = bi.i + n0 := by
      rw [hst.hiEq, hbiI]
      omega
    have hbiR : (⟨bi.bloq, bb.i⟩ : BloqInstance) = renInst n0 bi := by
      rw [renInst, hiN]
    obtain ⟨hsig2, hsh2, hwm2, houts2, hregsN, hiEqN, hbinstsN, hlenN, hcxnsN, hpermN, hmemN⟩ :=
      add_t_ok haddN
    have hBInvN := hst.hbi.add_t haddN
    have houtsU : ((bloqSig env bi.bloq).rights.map
        (packSoqT (.inst (⟨bi.bloq, bb.i⟩ : BloqInstance)))).flatMap SoquetT.units
        = (outUnits env bi).map (renSoq n0 fd) := by
      rw [flatMap_units_packSoqT]
      rw [show (bloqSig env bi.bloq).rights.flatMap
          (regUnitsAt (.inst (⟨bi.bloq, bb.i⟩ : BloqInstance)))
          = outUnits env (⟨bi.bloq, bb.i⟩ : BloqInstance) from rfl]
      rw [hbiR, outUnits_ren env n0 fd bi]
    have hstep : rebuildLoop env T act (bi :: rest) bb m
        = rebuildLoop env T act rest bbN
          (m ++ (outUnits env bi).zip ((outUnits env bi).map (renSoq n0 fd))) := by
      have hact : act bb bi (mapIns m (reconIns
            (fun r => (regUnitsAt (.inst bi) r).map (theSrc T)) (bloqSig env bi.bloq).lefts))
          = .ok (bbN, (bloqSig env bi.bloq).rights.map
            (packSoqT (.inst (⟨bi.bloq, bb.i⟩ : BloqInstance)))) := by
        rw [hagree bb bi _ (List.mem_cons_self ..), hmapins]
        exact haddN
      rw [rebuildLoop_cons hins hact, houtsU]
    have hpermN2 : (bb.available ++ (outUnits env bi).map (renSoq n0 fd)).Perm
        (insUnits (renIns env T n0 fd bi) ++ bbN.available) := by
      have hx := hpermN
      rw [hbiR, outUnits_ren env n0 fd bi] at hx
      exact hx
    have hunits2 : insUnits (renIns env T n0 fd bi)
        = ((inUnits env bi).map (theSrc T)).map (renSoq n0 fd) := by
      rw [renIns_units, List.map_map]
      rfl
    -- the new invariant after replaying `bi`
    have hstN : LoopSt env T n0 fd av0 (done ++ [bi]) bbN
        (m ++ (outUnits env bi).zip ((outUnits env bi).map (renSoq n0 fd))) := by
      refine ⟨hBInvN, ?_, ?_, ?_, ?_, ?_⟩
      · rw [hiEqN, hst.hiEq]
        simp only [List.length_append, List.length_cons, List.length_nil]
        omega
      · intro s hs
        rw [tplDom_snoc] at hs
        rcases List.mem_append.1 hs with h1 | h1
        · have hkf : ∀ p ∈ (outUnits env bi).zip ((outUnits env bi).map (renSoq n0 fd)),
              p.1 ≠ s := by
            intro p hp hcontra
            obtain ⟨a, b⟩ := p
            have ha := (List.of_mem_zip hp).1
            exact tplDom_disjoint_out hbiND h1 (hcontra ▸ ha)
          rw [mapSoq_append_keyfree hkf]
          exact hst.hmap s h1
        · have hkf : ∀ p ∈ m, p.1 ≠ s := by
            intro p hp hcontra
            have hkey := hst.hkeys p hp
            rw [hcontra] at hkey
            exact tplDom_disjoint_out hbiND hkey h1
          rw [mapSoq_append_right hkf]
          exact mapSoq_zip_map (outUnits_nodup hsig) h1
      · intro p hp
        rcases List.mem_append.1 hp with h1 | h1
        · exact tplDom_mono (fun bj hbj => List.mem_append.2 (Or.inl hbj)) (hst.hkeys p h1)
        · obtain ⟨a, b⟩ := p
          have ha := (List.of_mem_zip h1).1
          rw [tplDom_snoc]
          exact List.mem_append.2 (Or.inr ha)
      · intro k hk hfree
        rw [tplDom_snoc] at hk
        have hkT : k ∈ tplDom env T T.binsts := by
          rcases List.mem_append.1 hk with h1 | h1
          · refine tplDom_mono (fun bj hbj => ?_) h1
            rw [hsplit1]
            exact List.mem_append.2 (Or.inl hbj)
          · exact List.mem_append.2 (Or.inr (List.mem_flatMap.2 ⟨bi, hbiT, h1⟩))
        have hnotc : renSoq n0 fd k ∉ insUnits (renIns env T n0 fd bi) := by
          rw [renIns_units]
          intro hmm
          obtain ⟨u, hu, he⟩ := List.mem_map.1 hmm
          have hke : theSrc T u = k :=
            renSoq_inj_on hR
              (theSrc_mem_tplDom_full hT (dest_mem_of_inUnits hT hbiT hu)) hkT he
          have hc0 := srcPair_mem hT (dest_mem_of_inUnits hT hbiT hu)
          refine hfree _ hc0 hke bi ?_ ?_
          · exact List.mem_append.2 (Or.inr (List.mem_cons_self ..))
          · exact binst_of_mem_inUnits hu
        have hvleft : renSoq n0 fd k ∈
            bb.available ++ (outUnits env bi).map (renSoq n0 fd) := by
          rcases List.mem_append.1 hk with h1 | h1
          · refine List.mem_append.2 (Or.inl ?_)
            refine hst.havail k h1 ?_
            exact freeAfter_mono (fun bj hbj => List.mem_append.2 (Or.inl hbj)) hfree
          · exact List.mem_append.2 (Or.inr (List.mem_map.2 ⟨k, h1, rfl⟩))
        have hv2 := hpermN2.mem_iff.1 hvleft
        rcases List.mem_append.1 hv2 with h2 | h2
        · exact absurd h2 hnotc
        · exact h2
      · simp only [tplConsumed_snoc, List.flatMap_append, List.flatMap_cons,
          List.flatMap_nil, List.append_nil, List.map_append]
        have m_step : (↑bb.available + ↑((outUnits env bi).map (renSoq n0 fd))
            : Multiset Soquet)
            = ↑(insUnits (renIns env T n0 fd bi)) + ↑bbN.available :=
          Multiset.coe_eq_coe.2 hpermN2
        have m_step2 : (↑bb.available + ↑((outUnits env bi).map (renSoq n0 fd))
            : Multiset Soquet)
            = ↑(((inUnits env bi).map (theSrc T)).map (renSoq n0 fd)) + ↑bbN.available := by
          rw [← hunits2]
          exact m_step
        calc (↑bbN.available : Multiset Soquet)
            + (↑((tplConsumed env T done).map (renSoq n0 fd))
              + ↑(((inUnits env bi).map (theSrc T)).map (renSoq n0 fd)))
            = (↑(((inUnits env bi).map (theSrc T)).map (renSoq n0 fd)) + ↑bbN.available)
              + ↑((tplConsumed env T done).map (renSoq n0 fd)) := by abel
          _ = (↑bb.available + ↑((outUnits env bi).map (renSoq n0 fd)))
              + ↑((tplConsumed env T done).map (renSoq n0 fd)) := by rw [← m_step2]
          _ = (↑bb.available + ↑((tplConsumed env T done).map (renSoq n0 fd)))
              + ↑((outUnits env bi).map (renSoq n0 fd)) := by abel
          _ = (↑av0 + ↑((done.flatMap (outUnits env)).map (renSoq n0 fd)))
              + ↑((outUnits env bi).map (renSoq n0 fd)) := by rw [hst.hperm]
          _ = ↑av0 + (↑((done.flatMap (outUnits env)).map (renSoq n0 fd))
              + ↑((outUnits env bi).map (renSoq n0 fd))) := by abel
    -- the renamed input connections of `bi`
    have hseg : List.zipWith Connection.mk (insUnits (renIns env T n0 fd bi))
        (inUnits env (⟨bi.bloq, bb.i⟩ : BloqInstance))
        = (bodyOf env T bi).map (renCxn n0 fd) := by
      rw [hbiR, inUnits_ren env n0 fd bi, renIns_units, zipWith_mk_map_two, bodyOf,
        List.map_map]
      rfl
    have hsplit2 : T.binsts = (done ++ [bi]) ++ rest ++ tl := by
      rw [hsplit]
      simp
    obtain ⟨bb2, m2, hloop2, hregs2, hbinsts2, hcxns2, hst2⟩ :=
      rebuildLoop_spec hT hR rest hsplit2
        (fun b2 bj ins2 hbj => hagree b2 bj ins2 (List.mem_cons_of_mem _ hbj)) hstN
    refine ⟨bb2, m2, ?_, ?_, ?_, ?_, ?_⟩
    · rw [hstep]
      exact hloop2
    · rw [hregs2, hregsN]
    · rw [hbinsts2, hbinstsN, hbiR, List.append_assoc]
      rfl
    · rw [hcxns2, hcxnsN, hseg, List.append_assoc, ← List.map_append, ← List.flatMap_cons]
    · have hx := hst2
      rw [List.append_assoc] at hx
      exact hx

/-! ### The copy round trip -/

theorem renInst_zero (bi : BloqInstance) : renInst 0 bi = bi := by
  cases bi
  simp [renInst]

theorem map_renSoq_zero (l : List Soquet) : l.map (renSoq 0 (fun x => x)) = l := by
  rw [List.map_congr_left (fun s _ => renSoq_zero_id s)]
  exact List.map_id' l

theorem renCxn_zero (c : Connection) : renCxn 0 (fun x => x) c = c := by
  cases c
  rw [renCxn, renSoq_zero_id, renSoq_zero_id]

theorem rdUnits_eq_rights (s : Signature) :
    rdUnits s.regs = s.rights.flatMap (regUnitsAt .rightDangle) := rfl

/-- The splitting of a template's sources by the destination they feed. -/
theorem lefts_split {env : BloqEnv} {T : CompositeBloq} (hT : GraphOK env T) :
    T.cxns.map (fun c => c.left)
      = tplConsumed env T T.binsts ++ (rdUnits T.sig.regs).map (theSrc T) := by
  conv_lhs => rw [cxns_split hT]
  rw [List.map_append, finPart_map_left, List.map_flatMap]
  congr 1
  rw [tplConsumed, List.map_flatMap]
  refine List.flatMap_congr ?_
  intro bi _
  exact bodyOf_map_left env T bi

/-- The reconstructed final bundles of a template: its right-dangling
sources. -/
def finSrcs (T : CompositeBloq) : List (String × SoquetT) :=
  reconIns (fun r => (regUnitsAt .rightDangle r).map (theSrc T)) T.sig.rights

theorem finSrcs_lens (T : CompositeBloq) :
    ∀ r ∈ T.sig.rights,
      ((regUnitsAt .rightDangle r).map (theSrc T)).length = r.idxs.length :=
  fun r _ => by rw [List.length_map, regUnitsAt_length]

theorem finSrcs_units (T : CompositeBloq) :
    insUnits (finSrcs T) = (rdUnits T.sig.regs).map (theSrc T) := by
  rw [finSrcs, insUnits_recon (finSrcs_lens T), rdUnits_eq_rights, List.map_flatMap]

theorem finSrcs_nodup {env : BloqEnv} {T : CompositeBloq} (hT : GraphOK env T) :
    (insUnits (finSrcs T)).Nodup := by
  rw [finSrcs_units]
  exact srcs_rdUnits_nodup hT

/-- Rebuilding a well-formed graph instance by instance, as `copy` does,
reproduces it exactly. -/
theorem copy_eq {env : BloqEnv} {T : CompositeBloq} (hT : GraphOK env T) :
    T.copy env = .ok T := by
  obtain ⟨bb0, hfs⟩ := from_signature_ok_of hT.regsOk hT.widthsPos
  obtain ⟨hb0regs, hb0binsts, hb0cxns, hb0i, hb0avail⟩ := from_signature_ok hfs
  have hBInv0 : BInv env bb0 := fromRegs_BInv (BInv.empty env) hfs
  have hR : RenOK env T 0 (fun x => x) := by
    refine ⟨fun s1 _ s2 _ h => h, ?_, fun s _ => rfl⟩
    intro s hs bi' hb
    rw [binst_of_mem_ldUnits hs] at hb
    cases hb
  have hst0 : LoopSt env T 0 (fun x => x) (ldUnits T.sig.regs) [] bb0 [] := by
    refine ⟨hBInv0, by rw [hb0i]; rfl, ?_, ?_, ?_, ?_⟩
    · intro s hs
      rw [mapSoq_nil, renSoq_zero_id]
    · intro p hp
      cases hp
    · intro k hk _
      rw [renSoq_zero_id, hb0avail]
      rcases List.mem_append.1 hk with h1 | h1
      · exact h1
      · cases h1
    · rw [hb0avail]
      rfl
  obtain ⟨bb2, m2, hloop, hregs2, hbinsts2, hcxns2, hstF⟩ :=
    @rebuildLoop_spec env T hT 0 (fun x => x) hR (ldUnits T.sig.regs)
      (fun b2 bj ins2 => b2.add_t env bj.bloq ins2) T.binsts [] [] bb0 []
      (by simp) (fun b2 bj ins2 _ => rfl) hst0
  have hregsAll : bb2.regs = T.sig.regs := by
    rw [hregs2, hb0regs]
  have hregsSig : Signature.mk bb2.regs = T.sig := by
    rw [hregsAll]
  have hbinstsF : bb2.binsts = T.binsts := by
    rw [hbinsts2, hb0binsts, List.nil_append,
      List.map_congr_left (fun bi _ => renInst_zero bi)]
    exact List.map_id' T.binsts
  have hcxnsF : bb2.cxns = T.binsts.flatMap (bodyOf env T) := by
    rw [hcxns2, hb0cxns, List.nil_append,
      List.map_congr_left (fun c _ => renCxn_zero c)]
    exact List.map_id' (T.binsts.flatMap (bodyOf env T))
  have hmapfins : mapIns m2 (finSrcs T) = finSrcs T := by
    rw [finSrcs, mapIns_recon (finSrcs_lens T)]
    refine reconIns_congr ?_
    intro r hr
    have hpt : ∀ k ∈ (regUnitsAt .rightDangle r).map (theSrc T), mapSoq m2 k = k := by
      intro k hk
      obtain ⟨u, hu, rfl⟩ := List.mem_map.1 hk
      have hurd : u ∈ rdUnits T.sig.regs := List.mem_flatMap.2 ⟨r, hr, hu⟩
      have h1 := hstF.hmap (theSrc T u) (theSrc_rd_mem_tplDom hT hurd)
      rw [renSoq_zero_id] at h1
      exact h1
    rw [List.map_congr_left hpt]
    exact List.map_id' ((regUnitsAt .rightDangle r).map (theSrc T))
  have hsh : insShaped (Signature.mk bb2.regs).rights (finSrcs T) = true := by
    rw [hregsSig]
    exact insShaped_recon (finSrcs_lens T)
  have hwm : widthsMatch (Signature.mk bb2.regs).rights (finSrcs T) = true := by
    rw [hregsSig]
    refine widthsMatch_recon (finSrcs_lens T) ?_
    intro r hr s hs
    obtain ⟨u, hu, rfl⟩ := List.mem_map.1 hs
    have hurd : u ∈ rdUnits T.sig.regs := List.mem_flatMap.2 ⟨r, hr, hu⟩
    rw [theSrc_width hT (dest_mem_of_rdUnits hT hurd), (mem_regUnitsAt.1 hu).2.1]
  have hpermF : bb2.available.Perm (insUnits (finSrcs T)) := by
    rw [finSrcs_units]
    have hp1 : (↑bb2.available + ↑(tplConsumed env T T.binsts) : Multiset Soquet)
        = ↑(ldUnits T.sig.regs) + ↑(T.binsts.flatMap (outUnits env)) := by
      have hx := hstF.hperm
      rw [List.nil_append, map_renSoq_zero, map_renSoq_zero] at hx
      exact hx
    have hp2 : (↑(T.cxns.map (fun c => c.left)) : Multiset Soquet)
        = ↑(ldUnits T.sig.regs) + ↑(T.binsts.flatMap (outUnits env)) :=
      Multiset.coe_eq_coe.2 hT.leftsPerm
    have hp3 : (↑(tplConsumed env T T.binsts) + ↑((rdUnits T.sig.regs).map (theSrc T))
        : Multiset Soquet) = ↑(T.cxns.map (fun c => c.left)) := by
      rw [lefts_split hT]
      exact rfl
    have hp4 : (↑bb2.available + ↑(tplConsumed env T T.binsts) : Multiset Soquet)
        = ↑((rdUnits T.sig.regs).map (theSrc T)) + ↑(tplConsumed env T T.binsts) := by
      rw [hp1, ← hp2, ← hp3]
      abel
    exact Multiset.coe_eq_coe.1 (add_right_cancel hp4)
  have hfin := finalize_ok_of hstF.hbi hsh hwm (finSrcs_nodup hT) hpermF
  have hzip : List.zipWith Connection.mk (insUnits (finSrcs T)) (rdUnits bb2.regs)
      = finPart T := by
    rw [finSrcs_units, hregsAll, zipWith_mk_map_self, finPart]
  have hgraph : (⟨⟨bb2.regs⟩, bb2.binsts,
      bb2.cxns ++ List.zipWith Connection.mk (insUnits (finSrcs T)) (rdUnits bb2.regs)⟩
      : CompositeBloq) = T := by
    rw [hzip, hcxnsF, hbinstsF, hregsSig, ← cxns_split hT]
  rw [CompositeBloq.copy, rebuildWith, hfs]
  show (match rebuildLoop env T (fun bb bi ins => bb.add_t env bi.bloq ins) T.binsts bb0 [] with
    | .error e => Except.error e
    | .ok (bb, m) =>
      match T.final_soqs with
      | none => Except.error BloqError.danglingSoquetUnused
      | some fins => bb.finalize (mapIns m fins)) = _
  rw [hloop]
  show (match T.final_soqs with
    | none => Except.error BloqError.danglingSoquetUnused
    | some fins => bb2.finalize (mapIns m2 fins)) = _
  have hfs2 : T.final_soqs = some (finSrcs T) := final_soqs_eq hT
  rw [hfs2]
  show bb2.finalize (mapIns m2 (finSrcs T)) = _
  rw [hmapfins, hfin, hgraph]

/-! ### Shared replay initialization -/

theorem RenOK_id (env : BloqEnv) (T : CompositeBloq) : RenOK env T 0 (fun x => x) := by
  refine ⟨fun s1 _ s2 _ h => h, ?_, fun s _ => rfl⟩
  intro s hs bi' hb
  rw [binst_of_mem_ldUnits hs] at hb
  cases hb

theorem LoopSt_init {env : BloqEnv} {T : CompositeBloq} {bb0 : BloqBuilder}
    (hfs : BloqBuilder.from_signature T.sig = .ok bb0) :
    LoopSt env T 0 (fun x => x) (ldUnits T.sig.regs) [] bb0 [] := by
  obtain ⟨hb0regs, hb0binsts, hb0cxns, hb0i, hb0avail⟩ := from_signature_ok hfs
  refine ⟨fromRegs_BInv (BInv.empty env) hfs, by rw [hb0i]; rfl, ?_, ?_, ?_, ?_⟩
  · intro s hs
    rw [mapSoq_nil, renSoq_zero_id]
  · intro p hp
    cases hp
  · intro k hk _
    rw [renSoq_zero_id, hb0avail]
    rcases List.mem_append.1 hk with h1 | h1
    · exact h1
    · cases h1
  · rw [hb0avail]
    rfl

/-! ### C2: the copy round trip of finalized graphs -/

/-- C2 (amended): `copy` of any finalized composite graph reproduces the
graph exactly — identical signature and identical connection topology under
the identity correspondence of instances.  The identifier counter of the
replaying builder restarts at zero, so the copy's instance identifiers
coincide with the original's rather than being distinct from them. -/
theorem c2_copy_identity {env : BloqEnv} {acts : List BAct}
    {fins : List (String × SoquetT)} {G : CompositeBloq}
    (h : buildScript env acts fins = .ok G) : G.copy env = .ok G :=
  copy_eq (buildScript_GraphOK h)

/-- C2 (counterexample to the frozen claim): on the three-instance chain,
`copy` returns the very same graph, whose instance identifiers `0, 1, 2`
are exactly the original's — not distinct from them as the claim
requires. -/
theorem c2_counterexample :
    cbChain.copy envAtomic = .ok cbChain ∧
    cbChain.binsts.map (fun bi => bi.i) = [0, 1, 2] :=
  ⟨by decide, by decide⟩

/-- C2 witness: the amended theorem at the recorded three-instance chain. -/
theorem c2_witness : cbChain.copy envAtomic = .ok cbChain :=
  @c2_copy_identity envAtomic actsChain finsChain cbChain (by decide)

/-! ### C6: `flatten_once` with nothing selected -/

/-- C6 (amended): `flatten_once` on a finalized graph with a predicate that
selects no instance is a no-op returning the graph itself.  (The claim's
second prong — that an always-true predicate on a graph with no decomposable
instances is likewise a no-op — fails: that call raises `notDecomposable`,
as the error contract prescribes; see the counterexample.) -/
theorem c6_flatten_once_noop {env : BloqEnv} {acts : List BAct}
    {fins : List (String × SoquetT)} {G : CompositeBloq} {pred : BloqInstance → Bool}
    (h : buildScript env acts fins = .ok G)
    (hnone : ∀ bi ∈ G.binsts, pred bi = false) :
    G.flatten_once env pred = .ok G := by
  rw [CompositeBloq.flatten_once]
  have hc : rebuildWith env G (fun bb bi ins =>
      if pred bi then bb.add_from env bi.bloq ins else bb.add_t env bi.bloq ins)
      = rebuildWith env G (fun bb bi ins => bb.add_t env bi.bloq ins) := by
    refine rebuildWith_congr ?_
    intro b2 bj ins2 hbj
    simp [hnone bj hbj]
  rw [hc]
  exact copy_eq (buildScript_GraphOK h)

/-- C6 (counterexample to the frozen claim's second prong): the three-instance
chain has no decomposable instance, yet `flatten_once` with the always-true
predicate is not a no-op — it fails with `notDecomposable`. -/
theorem c6_counterexample :
    cbChain.binsts.all (fun bi => (decompose envAtomic bi.bloq).isNone) = true ∧
    cbChain.flatten_once envAtomic (fun _ => true) = .error .notDecomposable :=
  ⟨by decide, by decide⟩

/-- C6 witness: the amended theorem at the chain with the nothing-selected
predicate. -/
theorem c6_witness : cbChain.flatten_once envAtomic (fun _ => false) = .ok cbChain :=
  @c6_flatten_once_noop envAtomic actsChain finsChain cbChain (fun _ => false)
    (by decide) (by decide)

/-! ### C7: `flatten_once` on a selected non-decomposable instance -/

/-- C7: on a finalized graph, `flatten_once` with a predicate that rejects
every instance before `bB`, selects `bB`, and where `bB`'s operation exposes
no decomposition, fails with `notDecomposable`. -/
theorem c7_flatten_once_not_decomposable {env : BloqEnv} {acts : List BAct}
    {fins : List (String × SoquetT)} {G : CompositeBloq} {pred : BloqInstance → Bool}
    {pref : List BloqInstance} {bB : BloqInstance} {rest : List BloqInstance}
    (h : buildScript env acts fins = .ok G)
    (hsplit : G.binsts = pref ++ bB :: rest)
    (hpref : ∀ bj ∈ pref, pred bj = false)
    (hsel : pred bB = true)
    (hnd : decompose env bB.bloq = none) :
    G.flatten_once env pred = .error .notDecomposable := by
  have hT := buildScript_GraphOK h
  obtain ⟨bb0, hfs⟩ := from_signature_ok_of hT.regsOk hT.widthsPos
  obtain ⟨bbN, mN, hloopPref, _, _, _, hstN⟩ :=
    @rebuildLoop_spec env G hT 0 (fun x => x) (RenOK_id env G) (ldUnits G.sig.regs)
      (fun bb bi ins =>
        if pred bi then bb.add_from env bi.bloq ins else bb.add_t env bi.bloq ins)
      pref [] (bB :: rest) bb0 []
      (by rw [hsplit]; rfl)
      (fun b2 bj ins2 hbj => by simp [hpref bj hbj])
      (LoopSt_init hfs)
  have hbBT : bB ∈ G.binsts := by
    rw [hsplit]
    exact List.mem_append.2 (Or.inr (List.mem_cons_self ..))
  have hinsB := cbloqIns_eq hT hbBT
  have hactB : (fun bb bi ins =>
      if pred bi then bb.add_from env bi.bloq ins else bb.add_t env bi.bloq ins) bbN bB
      (mapIns mN (reconIns (fun r => (regUnitsAt (.inst bB) r).map (theSrc G))
        (bloqSig env bB.bloq).lefts)) = .error .notDecomposable := by
    show (if pred bB = true then bbN.add_from env bB.bloq _ else bbN.add_t env bB.bloq _)
      = .error .notDecomposable
    rw [if_pos hsel, BloqBuilder.add_from, hnd]
  have hloopB : rebuildLoop env G
      (fun bb bi ins =>
        if pred bi then bb.add_from env bi.bloq ins else bb.add_t env bi.bloq ins)
      (bB :: rest) bbN mN = .error .notDecomposable :=
    rebuildLoop_cons_err hinsB hactB
  rw [CompositeBloq.flatten_once, rebuildWith, hfs]
  show (match rebuildLoop env G
      (fun bb bi ins =>
        if pred bi then bb.add_from env bi.bloq ins else bb.add_t env bi.bloq ins)
      G.binsts bb0 [] with
    | .error e => Except.error e
    | .ok (bb, m) =>
      match G.final_soqs with
      | none => Except.error BloqError.danglingSoquetUnused
      | some fins2 => bb.finalize (mapIns m fins2)) = _
  rw [hsplit, rebuildLoop_append pref (bB :: rest) bb0 [], hloopPref]
  show (match rebuildLoop env G
      (fun bb bi ins =>
        if pred bi then bb.add_from env bi.bloq ins else bb.add_t env bi.bloq ins)
      (bB :: rest) bbN mN with
    | .error e => Except.error e
    | .ok (bb, m) =>
      match G.final_soqs with
      | none => Except.error BloqError.danglingSoquetUnused
      | some fins2 => bb.finalize (mapIns m fins2)) = _
  rw [hloopB]

/-- C7 witness: the three-instance linear chain `A → B → C` with a predicate
selecting only the middle instance, whose operation has no decomposition. -/
theorem c7_witness :
    cbChain.flatten_once envAtomic (fun bi => bi.i == 1) = .error .notDecomposable :=
  @c7_flatten_once_not_decomposable envAtomic actsChain finsChain cbChain
    (fun bi => bi.i == 1) [⟨⟨0, 0⟩, 0⟩] ⟨⟨1, 0⟩, 1⟩ [⟨⟨2, 0⟩, 2⟩]
    (by decide) (by decide) (by decide) (by decide) (by decide)

/-! ### C3: `add_from` splices the one-level decomposition -/

theorem insShaped_units_length (h0 : InstOrDangle) : ∀ {rs : List Register}
    {ins : List (String × SoquetT)}, insShaped rs ins = true →
    (insUnits ins).length = (rs.flatMap (regUnitsAt h0)).length
  | [], [], _ => rfl
  | r :: rs, (n, st) :: ins, h => by
    have h2 := h
    simp only [insShaped, Bool.and_eq_true, beq_iff_eq] at h2
    rw [insUnits_cons, List.flatMap_cons, List.length_append, List.length_append,
      regUnitsAt_length, insShaped_units_length h0 h2.2, h2.1.2]
  | [], (n, st) :: ins, h => by simp [insShaped] at h
  | r :: rs, [], h => by simp [insShaped] at h

theorem bindDangles_ok : ∀ {rs : List Register} {ins : List (String × SoquetT)}
    {m0 : List (Soquet × Soquet)}, bindDangles rs ins = .ok m0 →
    insShaped rs ins = true ∧
    m0 = (rs.flatMap (regUnitsAt .leftDangle)).zip (insUnits ins)
  | [], [], m0, h => by
    cases h
    exact ⟨rfl, rfl⟩
  | r :: rs, (n, st) :: ins, m0, h => by
    rw [bindDangles] at h
    by_cases hc : (n == r.name && kindOk r st && (st.units.length == r.idxs.length)) = true
    · rw [if_pos hc] at h
      rcases hbd : bindDangles rs ins with e | m1
      · rw [hbd] at h
        cases h
      · rw [hbd] at h
        obtain ⟨h1, h2⟩ := bindDangles_ok hbd
        have hm0 : m0 = ((regUnitsAt .leftDangle r).zip st.units) ++ m1 := by
          cases h
          rfl
        constructor
        · rw [insShaped, h1, Bool.and_true]
          exact hc
        · have hlen : (regUnitsAt .leftDangle r).length = st.units.length := by
            rw [regUnitsAt_length]
            simp only [Bool.and_eq_true, beq_iff_eq] at hc
            omega
          rw [hm0, h2, List.flatMap_cons, insUnits_cons, List.zip_append hlen]
    · rw [if_neg hc] at h
      cases h
  | [], (n, st) :: ins, m0, h => by
    rw [bindDangles] at h
    · cases h
    · intro h1 h2
      cases h2
    · intro r rs n1 st1 ins1 h1 h2
      cases h1
  | r :: rs, [], m0, h => by
    rw [bindDangles] at h
    · cases h
    · intro h1 h2
      cases h1
    · intro r1 rs1 n1 st1 ins1 h1 h2
      cases h2

theorem bindDangles_widths : ∀ {rs : List Register} {ins : List (String × SoquetT)}
    {m0 : List (Soquet × Soquet)}, bindDangles rs ins = .ok m0 →
    widthsMatch rs ins = true →
    ∀ p ∈ m0, p.2.reg.bitsize = p.1.reg.bitsize
  | [], [], m0, h, _, p, hp => by
    cases h
    cases hp
  | r :: rs, (n, st) :: ins, m0, h, hw, p, hp => by
    rw [bindDangles] at h
    by_cases hc : (n == r.name && kindOk r st && (st.units.length == r.idxs.length)) = true
    · rw [if_pos hc] at h
      rcases hbd : bindDangles rs ins with e | m1
      · rw [hbd] at h
        cases h
      · rw [hbd] at h
        have hm0 : m0 = ((regUnitsAt .leftDangle r).zip st.units) ++ m1 := by
          cases h
          rfl
        rw [hm0] at hp
        simp only [widthsMatch, Bool.and_eq_true] at hw
        rcases List.mem_append.1 hp with h1 | h1
        · obtain ⟨a, c⟩ := p
          have hz := List.of_mem_zip h1
          have ha : a.reg = r := (mem_regUnitsAt.1 hz.1).2.1
          have hcw : c.reg.bitsize = r.bitsize := by
            simpa using List.all_eq_true.1 hw.1 c hz.2
          show c.reg.bitsize = a.reg.bitsize
          rw [hcw, ha]
        · exact bindDangles_widths hbd hw.2 p h1
    · rw [if_neg hc] at h
      cases h
  | [], (n, st) :: ins, m0, h, _, p, hp => by
    rw [bindDangles] at h
    · cases h
    · intro h1 h2
      cases h2
    · intro r rs n1 st1 ins1 h1 h2
      cases h1
  | r :: rs, [], m0, h, _, p, hp => by
    rw [bindDangles] at h
    · cases h
    · intro h1 h2
      cases h1
    · intro r1 rs1 n1 st1 ins1 h1 h2
      cases h2

theorem mapSoq_zip_pair_mem : ∀ {ks vs : List Soquet}, ks.length = vs.length →
    ∀ {s : Soquet}, s ∈ ks → (s, mapSoq (ks.zip vs) s) ∈ ks.zip vs
  | [], [], _, s, hs => by cases hs
  | k :: ks, v :: vs, hlen, s, hs => by
    rw [List.zip_cons_cons]
    by_cases hk : k = s
    · rw [mapSoq_cons_pos hk, ← hk]
      exact List.mem_cons_self ..
    · rcases List.mem_cons.1 hs with rfl | hs2
      · exact absurd rfl hk
      · rw [mapSoq_cons_neg hk]
        exact List.mem_cons_of_mem _ (mapSoq_zip_pair_mem (by simpa using hlen) hs2)

theorem map_mapSoq_zip_self : ∀ {ks vs : List Soquet}, ks.Nodup → ks.length = vs.length →
    ks.map (mapSoq (ks.zip vs)) = vs
  | [], [], _, _ => rfl
  | k :: ks, v :: vs, hnd, hlen => by
    rw [List.zip_cons_cons, List.map_cons, mapSoq_cons_pos rfl]
    have hstep : ∀ x ∈ ks, mapSoq ((k, v) :: ks.zip vs) x = mapSoq (ks.zip vs) x := by
      intro x hx
      refine mapSoq_cons_neg ?_
      intro hkx
      have hkx2 : k = x := hkx
      exact (List.nodup_cons.1 hnd).1 (by rw [hkx2]; exact hx)
    rw [List.map_congr_left hstep,
      map_mapSoq_zip_self (List.Nodup.of_cons hnd) (by simpa using hlen)]

theorem BInv.available_inst_lt {env : BloqEnv} {bb : BloqBuilder} (h : BInv env bb)
    {v : Soquet} (hv : v ∈ bb.available) {bi' : BloqInstance}
    (hb : v.binst = .inst bi') : bi'.i < bb.i := by
  rcases mem_produced_cases (h.available_sub hv) with h1 | ⟨bj, hbj, h1⟩
  · rw [binst_of_mem_ldUnits h1] at hb
    cases hb
  · have h2 := binst_of_mem_outUnits h1
    rw [h2] at hb
    have hji : bj = bi' := by injection hb
    exact hji ▸ h.bi_lt hbj

theorem RenOK_bind {env : BloqEnv} {D : CompositeBloq} (hD : GraphOK env D)
    {bb : BloqBuilder} (hBInv : BInv env bb) {ins : List (String × SoquetT)}
    {m0 : List (Soquet × Soquet)}
    (hbd : bindDangles D.sig.lefts ins = .ok m0)
    (hwm : widthsMatch D.sig.lefts ins = true)
    (hnd : (insUnits ins).Nodup)
    (hmem : ∀ s ∈ insUnits ins, s ∈ bb.available) :
    RenOK env D bb.i (mapSoq m0) := by
  obtain ⟨hsh, hm0⟩ := bindDangles_ok hbd
  have hldeq : D.sig.lefts.flatMap (regUnitsAt .leftDangle) = ldUnits D.sig.regs := rfl
  have hlen : (ldUnits D.sig.regs).length = (insUnits ins).length := by
    rw [← hldeq]
    exact (insShaped_units_length .leftDangle hsh).symm
  have hm0' : m0 = (ldUnits D.sig.regs).zip (insUnits ins) := by
    rw [hm0, hldeq]
  refine ⟨?_, ?_, ?_⟩
  · intro s1 h1 s2 h2 he
    rw [hm0'] at he
    exact mapSoq_zip_inj hlen (ldUnits_nodup hD.regsOk) hnd h1 h2 he
  · intro s hs bi' hb
    have hv : mapSoq m0 s ∈ insUnits ins := by
      rw [hm0']
      exact mapSoq_zip_mem hlen hs
    exact hBInv.available_inst_lt (hmem _ hv) hb
  · intro s hs
    have hp : (s, mapSoq m0 s) ∈ m0 := by
      rw [hm0']
      exact mapSoq_zip_pair_mem hlen hs
    exact bindDangles_widths hbd hwm _ hp

theorem LoopSt_bind_init {env : BloqEnv} {D : CompositeBloq}
    {bb : BloqBuilder} (hBInv : BInv env bb) {ins : List (String × SoquetT)}
    {m0 : List (Soquet × Soquet)}
    (hbd : bindDangles D.sig.lefts ins = .ok m0)
    (hmem : ∀ s ∈ insUnits ins, s ∈ bb.available) :
    LoopSt env D bb.i (mapSoq m0) bb.available [] bb m0 := by
  obtain ⟨hsh, hm0⟩ := bindDangles_ok hbd
  have hldeq : D.sig.lefts.flatMap (regUnitsAt .leftDangle) = ldUnits D.sig.regs := rfl
  have hlen : (ldUnits D.sig.regs).length = (insUnits ins).length := by
    rw [← hldeq]
    exact (insShaped_units_length .leftDangle hsh).symm
  have hm0' : m0 = (ldUnits D.sig.regs).zip (insUnits ins) := by
    rw [hm0, hldeq]
  refine ⟨hBInv, rfl, ?_, ?_, ?_, rfl⟩
  · intro s hs
    rcases List.mem_append.1 hs with h1 | h1
    · rw [renSoq_ld (binst_of_mem_ldUnits h1)]
    · cases h1
  · intro p hp
    rw [hm0'] at hp
    obtain ⟨a, c⟩ := p
    exact List.mem_append.2 (Or.inl (List.of_mem_zip hp).1)
  · intro k hk _
    rcases List.mem_append.1 hk with h1 | h1
    · rw [renSoq_ld (binst_of_mem_ldUnits h1)]
      refine hmem _ ?_
      rw [hm0']
      exact mapSoq_zip_mem hlen h1
    · cases h1

/-- The full characterization of splicing a decomposition graph into an open
builder: the graph's instances arrive shifted by the builder's counter, its
internal connections arrive with the boundary bound to the provided inputs,
and the outputs are its renamed final bundles. -/
theorem add_from_cbloq_spec {env : BloqEnv} {D : CompositeBloq} (hD : GraphOK env D)
    {bb : BloqBuilder} (hBInv : BInv env bb) {ins : List (String × SoquetT)}
    {m0 : List (Soquet × Soquet)}
    (hbd : bindDangles D.sig.lefts ins = .ok m0)
    (hwm : widthsMatch D.sig.lefts ins = true)
    (hnd : (insUnits ins).Nodup)
    (hmem : ∀ s ∈ insUnits ins, s ∈ bb.available) :
    ∃ bb2, bb.add_from_cbloq env D ins = .ok (bb2, D.sig.rights.map (fun r =>
        packUnits r (((regUnitsAt .rightDangle r).map (theSrc D)).map
          (renSoq bb.i (mapSoq m0))))) ∧
      bb2.regs = bb.regs ∧ bb2.i = bb.i + D.binsts.length ∧
      bb2.binsts = bb.binsts ++ D.binsts.map (renInst bb.i) ∧
      bb2.cxns = bb.cxns ++ (D.binsts.flatMap (bodyOf env D)).map
        (renCxn bb.i (mapSoq m0)) ∧
      BInv env bb2 ∧
      (bb.available ++ ((rdUnits D.sig.regs).map (theSrc D)).map
        (renSoq bb.i (mapSoq m0))).Perm (insUnits ins ++ bb2.available) := by
  obtain ⟨bb2, mF, hloop, hregs2, hbinsts2, hcxns2, hstF⟩ :=
    @rebuildLoop_spec env D hD bb.i (mapSoq m0) (RenOK_bind hD hBInv hbd hwm hnd hmem)
      bb.available (fun b2 bi ins2 => b2.add_t env bi.bloq ins2) D.binsts [] [] bb m0
      (by simp) (fun b2 bj ins2 _ => rfl) (LoopSt_bind_init hBInv hbd hmem)
  obtain ⟨hsh, hm0⟩ := bindDangles_ok hbd
  have hldeq : D.sig.lefts.flatMap (regUnitsAt .leftDangle) = ldUnits D.sig.regs := rfl
  have hlen : (ldUnits D.sig.regs).length = (insUnits ins).length := by
    rw [← hldeq]
    exact (insShaped_units_length .leftDangle hsh).symm
  have hm0' : m0 = (ldUnits D.sig.regs).zip (insUnits ins) := by
    rw [hm0, hldeq]
  have hldl : (ldUnits D.sig.regs).map (renSoq bb.i (mapSoq m0)) = insUnits ins := by
    have hstep : ∀ x ∈ ldUnits D.sig.regs,
        renSoq bb.i (mapSoq m0) x = mapSoq m0 x := fun x hx =>
      renSoq_ld (binst_of_mem_ldUnits hx)
    rw [List.map_congr_left hstep, hm0']
    exact map_mapSoq_zip_self (ldUnits_nodup hD.regsOk) hlen
  have hpermX : (bb.available ++ ((rdUnits D.sig.regs).map (theSrc D)).map
      (renSoq bb.i (mapSoq m0))).Perm (insUnits ins ++ bb2.available) := by
    have hlp := hD.leftsPerm
    rw [lefts_split hD] at hlp
    have hlp2 := hlp.map (renSoq bb.i (mapSoq m0))
    rw [List.map_append, List.map_append] at hlp2
    have hlpM : (↑((tplConsumed env D D.binsts).map (renSoq bb.i (mapSoq m0)))
        + ↑(((rdUnits D.sig.regs).map (theSrc D)).map (renSoq bb.i (mapSoq m0)))
        : Multiset Soquet)
        = ↑((ldUnits D.sig.regs).map (renSoq bb.i (mapSoq m0)))
        + ↑((D.binsts.flatMap (outUnits env)).map (renSoq bb.i (mapSoq m0))) :=
      Multiset.coe_eq_coe.2 hlp2
    have hpermF := hstF.hperm
    rw [List.nil_append] at hpermF
    have key : (↑bb2.available
          + ↑((ldUnits D.sig.regs).map (renSoq bb.i (mapSoq m0))) : Multiset Soquet)
          + ↑((D.binsts.flatMap (outUnits env)).map (renSoq bb.i (mapSoq m0)))
        = (↑bb.available
          + ↑(((rdUnits D.sig.regs).map (theSrc D)).map (renSoq bb.i (mapSoq m0))))
          + ↑((D.binsts.flatMap (outUnits env)).map (renSoq bb.i (mapSoq m0))) := by
      calc (↑bb2.available
            + ↑((ldUnits D.sig.regs).map (renSoq bb.i (mapSoq m0))) : Multiset Soquet)
            + ↑((D.binsts.flatMap (outUnits env)).map (renSoq bb.i (mapSoq m0)))
          = ↑bb2.available
            + (↑((ldUnits D.sig.regs).map (renSoq bb.i (mapSoq m0)))
              + ↑((D.binsts.flatMap (outUnits env)).map (renSoq bb.i (mapSoq m0)))) := by
            rw [add_assoc]
        _ = ↑bb2.available
            + (↑((tplConsumed env D D.binsts).map (renSoq bb.i (mapSoq m0)))
              + ↑(((rdUnits D.sig.regs).map (theSrc D)).map (renSoq bb.i (mapSoq m0)))) := by
            rw [hlpM]
        _ = (↑bb2.available
              + ↑((tplConsumed env D D.binsts).map (renSoq bb.i (mapSoq m0))))
            + ↑(((rdUnits D.sig.regs).map (theSrc D)).map (renSoq bb.i (mapSoq m0))) := by
            rw [add_assoc]
        _ = (↑bb.available
              + ↑((D.binsts.flatMap (outUnits env)).map (renSoq bb.i (mapSoq m0))))
            + ↑(((rdUnits D.sig.regs).map (theSrc D)).map (renSoq bb.i (mapSoq m0))) := by
            rw [hpermF]
        _ = (↑bb.available
              + ↑(((rdUnits D.sig.regs).map (theSrc D)).map (renSoq bb.i (mapSoq m0))))
            + ↑((D.binsts.flatMap (outUnits env)).map (renSoq bb.i (mapSoq m0))) := by
            abel
    have key2 := add_right_cancel key
    rw [← Multiset.coe_eq_coe]
    show (↑bb.available
        + ↑(((rdUnits D.sig.regs).map (theSrc D)).map (renSoq bb.i (mapSoq m0)))
        : Multiset Soquet)
      = ↑(insUnits ins) + ↑bb2.available
    rw [← hldl, ← key2]
    exact add_comm _ _
  have hmapfins : mapIns mF (finSrcs D)
      = reconIns (fun r => ((regUnitsAt .rightDangle r).map (theSrc D)).map
          (renSoq bb.i (mapSoq m0))) D.sig.rights := by
    rw [finSrcs, mapIns_recon (finSrcs_lens D)]
    refine reconIns_congr ?_
    intro r hr
    refine List.map_congr_left ?_
    intro k hk
    obtain ⟨u, hu, rfl⟩ := List.mem_map.1 hk
    have hurd : u ∈ rdUnits D.sig.regs := List.mem_flatMap.2 ⟨r, hr, hu⟩
    exact hstF.hmap (theSrc D u) (theSrc_rd_mem_tplDom hD hurd)
  refine ⟨bb2, ?_, hregs2, hstF.hiEq, hbinsts2, hcxns2, hstF.hbi, hpermX⟩
  rw [BloqBuilder.add_from_cbloq, hbd]
  show (match rebuildLoop env D (fun b2 bi ins2 => b2.add_t env bi.bloq ins2)
      D.binsts bb m0 with
    | .error e => Except.error e
    | .ok (bb2, m) =>
      match D.final_soqs with
      | none => Except.error BloqError.danglingSoquetUnused
      | some fins => Except.ok (bb2, (mapIns m fins).map (fun p : String × SoquetT => p.2))) = _
  rw [hloop]
  show (match D.final_soqs with
    | none => Except.error BloqError.danglingSoquetUnused
    | some fins => Except.ok (bb2, (mapIns mF fins).map (fun p : String × SoquetT => p.2))) = _
  have hfs2 : D.final_soqs = some (finSrcs D) := final_soqs_eq hD
  rw [hfs2]
  show Except.ok (bb2, (mapIns mF (finSrcs D)).map (fun p : String × SoquetT => p.2)) = _
  rw [hmapfins, reconIns, List.map_map]
  rfl

/-- C3: `add_from` on a decomposable operation splices the one-level
decomposition directly into the graph under construction — the builder gains
the decomposition's instances (counter-shifted) and its internal connections
with the boundary bound to the provided inputs, instead of one opaque
instance of the operation — and is otherwise contract-identical to `add`:
the builder invariant is maintained and one output bundle per right-side
register of the operation's signature is returned. -/
theorem c3_add_from_splices {env : BloqEnv} {b : Bloq} {D : CompositeBloq}
    {bb : BloqBuilder} {ins : List (String × SoquetT)} {m0 : List (Soquet × Soquet)}
    (hdec : decompose env b = some D) (hsig : bloqSig env b = D.sig)
    (hD : GraphOK env D) (hBInv : BInv env bb)
    (hbd : bindDangles D.sig.lefts ins = .ok m0)
    (hwm : widthsMatch D.sig.lefts ins = true)
    (hnd : (insUnits ins).Nodup)
    (hmem : ∀ s ∈ insUnits ins, s ∈ bb.available) :
    ∃ bb2 outs, bb.add_from env b ins = .ok (bb2, outs) ∧
      bb2.regs = bb.regs ∧
      bb2.i = bb.i + D.binsts.length ∧
      bb2.binsts = bb.binsts ++ D.binsts.map (renInst bb.i) ∧
      bb2.cxns = bb.cxns ++ (D.binsts.flatMap (bodyOf env D)).map
        (renCxn bb.i (mapSoq m0)) ∧
      BInv env bb2 ∧
      outs.length = (bloqSig env b).rights.length := by
  obtain ⟨bb2, hok, h1, h2, h3, h4, h5, _⟩ := add_from_cbloq_spec hD hBInv hbd hwm hnd hmem
  refine ⟨bb2, D.sig.rights.map (fun r =>
      packUnits r (((regUnitsAt .rightDangle r).map (theSrc D)).map
        (renSoq bb.i (mapSoq m0)))), ?_, h1, h2, h3, h4, h5, ?_⟩
  · rw [BloqBuilder.add_from, hdec]
    exact hok
  · rw [hsig, List.length_map]

/-- The one-instance decomposition graph of base operation `0`. -/
def D1 : CompositeBloq :=
  ⟨sigQ, [⟨⟨0, 0⟩, 0⟩],
   [⟨ldQ, ⟨.inst ⟨⟨0, 0⟩, 0⟩, regQ, []⟩⟩,
    ⟨⟨.inst ⟨⟨0, 0⟩, 0⟩, regQ, []⟩, ⟨.rightDangle, regQ, []⟩⟩]⟩

/-- An environment where operation `1` decomposes into `D1`. -/
def env2 : BloqEnv := ⟨fun _ => sigQ, fun i => if i == 1 then some D1 else none⟩

/-- An open builder that has declared the boundary register `q`. -/
def bbW : BloqBuilder := ⟨[regQ], [], [], 0, [ldQ]⟩

/-- C3 witness: splicing the decomposition of operation `1` into an open
builder over the boundary soquet. -/
theorem c3_witness :
    ∃ bb2 outs, bbW.add_from env2 ⟨1, 0⟩ [("q", .one ldQ)] = .ok (bb2, outs) ∧
      bb2.regs = bbW.regs ∧
      bb2.i = bbW.i + D1.binsts.length ∧
      bb2.binsts = bbW.binsts ++ D1.binsts.map (renInst bbW.i) ∧
      bb2.cxns = bbW.cxns ++ (D1.binsts.flatMap (bodyOf env2 D1)).map
        (renCxn bbW.i (mapSoq [(ldQ, ldQ)])) ∧
      BInv env2 bb2 ∧
      outs.length = (bloqSig env2 ⟨1, 0⟩).rights.length :=
  @c3_add_from_splices env2 ⟨1, 0⟩ D1 bbW [("q", .one ldQ)] [(ldQ, ldQ)]
    (by decide) (by decide)
    (buildScript_GraphOK (show buildScript env2
      [.areg regQ, .aadd ⟨0, 0⟩ [("q", .one ldQ)]]
      [("q", .one (outQ 0 0))] = .ok D1 by decide))
    (runActs_BInv (BInv.empty env2)
      (show runActs env2 [.areg regQ] .empty = .ok bbW by decide))
    (by decide) (by decide) (by decide) (by decide)

/-! ### C5: flatten terminates within the bound, or exhausts it -/

/-- An environment where base operation `0` decomposes into the one-instance
graph of operation `0` itself: an unboundedly self-decomposing operation. -/
def env1 : BloqEnv := ⟨fun _ => sigQ, fun i => if i == 0 then some D1 else none⟩

theorem decomposeAux_envAtomic (i : Nat) : ∀ n : Nat, decomposeAux envAtomic i n = none
  | 0 => rfl
  | n + 1 => by
    rw [decomposeAux, decomposeAux_envAtomic i n]
    rfl

theorem decompose_envAtomic (b : Bloq) : decompose envAtomic b = none :=
  decomposeAux_envAtomic b.id b.nctrl

theorem anyFlattenable_envAtomic (pred : BloqInstance → Bool) (cb : CompositeBloq) :
    anyFlattenable envAtomic pred cb = false := by
  rw [anyFlattenable, List.any_eq_false]
  intro bi _
  rw [decompose_envAtomic]
  simp

/-! ### The general replay: free-key bookkeeping -/

theorem bindDangles_ok_of : ∀ {rs : List Register} {ins : List (String × SoquetT)},
    insShaped rs ins = true → ∃ m0, bindDangles rs ins = .ok m0
  | [], [], _ => ⟨[], rfl⟩
  | r :: rs, (n, st) :: ins, h => by
    have h2 := h
    rw [insShaped, Bool.and_eq_true] at h2
    obtain ⟨m1, hm1⟩ := bindDangles_ok_of h2.2
    refine ⟨((regUnitsAt .leftDangle r).zip st.units) ++ m1, ?_⟩
    rw [bindDangles, if_pos h2.1, hm1]
  | [], (n, st) :: ins, h => by simp [insShaped] at h
  | r :: rs, [], h => by simp [insShaped] at h

theorem insUnits_mapIns_recon (env : BloqEnv) (T : CompositeBloq)
    (m : List (Soquet × Soquet)) (bi : BloqInstance) :
    insUnits (mapIns m (reconIns (fun r => (regUnitsAt (.inst bi) r).map (theSrc T))
        (bloqSig env bi.bloq).lefts))
      = (inUnits env bi).map (fun u => mapSoq m (theSrc T u)) := by
  have h1 : ∀ r ∈ (bloqSig env bi.bloq).lefts,
      ((regUnitsAt (.inst bi) r).map (theSrc T)).length = r.idxs.length := by
    intro r _
    rw [List.length_map, regUnitsAt_length]
  have h2 : ∀ r ∈ (bloqSig env bi.bloq).lefts,
      (((regUnitsAt (.inst bi) r).map (theSrc T)).map (mapSoq m)).length = r.idxs.length := by
    intro r hr
    rw [List.length_map]
    exact h1 r hr
  rw [mapIns_recon h1, insUnits_recon h2, inUnits, List.map_flatMap]
  refine List.flatMap_congr ?_
  intro r _
  rw [List.map_map]
  exact List.map_congr_left fun u _ => rfl

theorem flatMap_regUnitsAt_length (h1 h2 : InstOrDangle) :
    ∀ rs : List Register,
    (rs.flatMap (regUnitsAt h1)).length = (rs.flatMap (regUnitsAt h2)).length
  | [] => rfl
  | r :: rs => by
    rw [List.flatMap_cons, List.flatMap_cons, List.length_append, List.length_append,
      regUnitsAt_length, regUnitsAt_length, flatMap_regUnitsAt_length h1 h2 rs]

theorem flatMap_length_congr {α β : Type} {f g : α → List β} :
    ∀ {rs : List α}, (∀ r ∈ rs, (f r).length = (g r).length) →
    (rs.flatMap f).length = (rs.flatMap g).length
  | [], _ => rfl
  | r :: rs, h => by
    rw [List.flatMap_cons, List.flatMap_cons, List.length_append, List.length_append,
      h r (List.mem_cons_self ..),
      flatMap_length_congr (fun q hq => h q (List.mem_cons_of_mem _ hq))]

theorem zip_flatMap_congr {α β : Type} {f g : α → List β} :
    ∀ {rs : List α}, (∀ r ∈ rs, (f r).length = (g r).length) →
    (rs.flatMap f).zip (rs.flatMap g) = rs.flatMap (fun r => (f r).zip (g r))
  | [], _ => rfl
  | r :: rs, h => by
    rw [List.flatMap_cons, List.flatMap_cons, List.flatMap_cons,
      List.zip_append (h r (List.mem_cons_self ..)),
      zip_flatMap_congr (fun q hq => h q (List.mem_cons_of_mem _ hq))]

theorem flatMap_units_packUnits {g : Register → List Soquet} :
    ∀ {rs : List Register}, (∀ r ∈ rs, (g r).length = r.idxs.length) →
    ((rs.map (fun r => packUnits r (g r))).flatMap SoquetT.units) = rs.flatMap g
  | [], _ => rfl
  | r :: rs, h => by
    rw [List.map_cons, List.flatMap_cons, packUnits_units (h r (List.mem_cons_self ..)),
      List.flatMap_cons, flatMap_units_packUnits (fun q hq => h q (List.mem_cons_of_mem _ hq))]

theorem rdUnits_map_map (T : CompositeBloq) (f g : Soquet → Soquet) :
    ((rdUnits T.sig.regs).map f).map g
      = T.sig.rights.flatMap (fun r => ((regUnitsAt .rightDangle r).map f).map g) := by
  rw [rdUnits_eq_rights, List.map_flatMap, List.map_flatMap]

theorem zip_regUnits_width {h1 h2 : InstOrDangle} {rs : List Register}
    {p : Soquet × Soquet}
    (hp : p ∈ rs.flatMap (fun r => (regUnitsAt h1 r).zip (regUnitsAt h2 r))) :
    p.2.reg.bitsize = p.1.reg.bitsize := by
  obtain ⟨r, _, hpr⟩ := List.mem_flatMap.1 hp
  obtain ⟨a, b⟩ := p
  have hz := List.of_mem_zip hpr
  show b.reg.bitsize = a.reg.bitsize
  rw [(mem_regUnitsAt.1 hz.1).2.1, (mem_regUnitsAt.1 hz.2).2.1]

theorem mem_prefix_id_lt {env : BloqEnv} {T : CompositeBloq} (hT : GraphOK env T)
    {pre rest : List BloqInstance} (hsplit : T.binsts = pre ++ rest)
    {bj : BloqInstance} (hbj : bj ∈ pre) : bj.i < pre.length := by
  have h := hT.ids
  rw [hsplit, List.range_eq_range', List.map_append] at h
  have hlen : (pre ++ rest).length = rest.length + pre.length := by
    rw [List.length_append]
    omega
  rw [hlen, ← List.range'_append_1 0 pre.length rest.length] at h
  have h2 : pre.map (fun x => x.i) = List.range' 0 pre.length :=
    (List.append_inj h (by simp)).1
  have h3 : bj.i ∈ List.range' 0 pre.length := by
    rw [← h2]
    exact List.mem_map.2 ⟨bj, hbj, rfl⟩
  rw [List.mem_range'] at h3
  obtain ⟨i, hi, hieq⟩ := h3
  omega

theorem tplDom_nodup {env : BloqEnv} {T : CompositeBloq} (hT : GraphOK env T)
    {done rest : List BloqInstance} (hsplit : T.binsts = done ++ rest) :
    (tplDom env T done).Nodup := by
  have hdnd : done.Nodup := by
    have hx := hT.instsNodup
    rw [hsplit, List.nodup_append] at hx
    exact hx.1
  refine List.Nodup.append (ldUnits_nodup hT.regsOk)
    (flatMap_outUnits_nodup hdnd ?_) ?_
  · intro bi hbi
    exact hT.sigsOk bi (by rw [hsplit]; exact List.mem_append.2 (Or.inl hbi))
  · intro s hs1 hs2
    obtain ⟨bj, _, hbj⟩ := List.mem_flatMap.1 hs2
    have h1 := binst_of_mem_ldUnits hs1
    have h2 := binst_of_mem_outUnits hbj
    rw [h1] at h2
    cases h2

/-- The decidable form of `freeAfter`. -/
def freeB (T : CompositeBloq) (done : List BloqInstance) (k : Soquet) : Bool :=
  T.cxns.all (fun c => !(c.left == k) || done.all (fun bj => !(c.right.binst == .inst bj)))

theorem freeB_iff {T : CompositeBloq} {done : List BloqInstance} {k : Soquet} :
    freeB T done k = true ↔ freeAfter T done k := by
  constructor
  · intro h c hc hl bj hbj hr
    have h1 := List.all_eq_true.1 h c hc
    rw [Bool.or_eq_true] at h1
    rcases h1 with h1 | h1
    · rw [Bool.not_eq_true', beq_eq_false_iff_ne] at h1
      exact h1 hl
    · have h2 := List.all_eq_true.1 h1 bj hbj
      rw [Bool.not_eq_true', beq_eq_false_iff_ne] at h2
      exact h2 hr
  · intro h
    refine List.all_eq_true.2 ?_
    intro c hc
    rw [Bool.or_eq_true]
    by_cases hl : c.left = k
    · refine Or.inr (List.all_eq_true.2 ?_)
      intro bj hbj
      rw [Bool.not_eq_true', beq_eq_false_iff_ne]
      exact h c hc hl bj hbj
    · refine Or.inl ?_
      rw [Bool.not_eq_true', beq_eq_false_iff_ne]
      exact hl

/-- The template soquets produced and not yet consumed after replaying
`done`. -/
def freeKeys (env : BloqEnv) (T : CompositeBloq) (done : List BloqInstance) : List Soquet :=
  (tplDom env T done).filter (freeB T done)

theorem freeB_nil (T : CompositeBloq) (k : Soquet) : freeB T [] k = true := by
  refine List.all_eq_true.2 ?_
  intro c _
  rw [Bool.or_eq_true]
  exact Or.inr rfl

theorem freeKeys_nil (env : BloqEnv) (T : CompositeBloq) :
    freeKeys env T [] = tplDom env T [] := by
  rw [freeKeys]
  exact List.filter_eq_self.2 (fun a _ => freeB_nil T a)

/-- A new instance's outputs are unconsumed right after replaying it. -/
theorem freeB_outUnits {env : BloqEnv} {T : CompositeBloq} (hT : GraphOK env T)
    {done rest : List BloqInstance} {bi : BloqInstance}
    (hsplit : T.binsts = done ++ bi :: rest) {k : Soquet} (hk : k ∈ outUnits env bi) :
    freeB T (done ++ [bi]) k = true := by
  rw [freeB_iff]
  intro c hc hl bj hbj hr
  have hrm : c.right ∈ T.cxns.map (fun x => x.right) := List.mem_map.2 ⟨c, hc, rfl⟩
  rw [hT.rightsExact] at hrm
  rcases List.mem_append.1 hrm with h1 | h1
  · obtain ⟨bk, hbk, hmem2⟩ := List.mem_flatMap.1 h1
    have hb2 := binst_of_mem_inUnits hmem2
    have hbjk : bj = bk := by
      rw [hr] at hb2
      injection hb2
    rcases hT.orderOk c hc bk hbk (binst_of_mem_inUnits hmem2) with hld | ⟨bm, _, hlt, hout⟩
    · have hx := binst_of_mem_ldUnits hld
      rw [hl, binst_of_mem_outUnits hk] at hx
      cases hx
    · have hkm : k ∈ outUnits env bm := hl ▸ hout
      have hbmi : bm = bi := by
        have h3 := binst_of_mem_outUnits hkm
        have h4 := binst_of_mem_outUnits hk
        rw [h3] at h4
        injection h4
      have hbii : bi.i = done.length := ids_prefix_len hT hsplit
      have hjlt : bj.i < (done ++ [bi]).length :=
        @mem_prefix_id_lt env T hT (done ++ [bi]) rest (by rw [hsplit]; simp) bj hbj
      rw [List.length_append, List.length_singleton] at hjlt
      rw [hbmi] at hlt
      rw [← hbjk] at hlt
      omega
  · have hx := binst_of_mem_rdUnits h1
    rw [hr] at hx
    cases hx

/-- The keys a replayed instance consumes, characterized by the change of
freeness. -/
theorem src_iff_freed {env : BloqEnv} {T : CompositeBloq} (hT : GraphOK env T)
    {done rest : List BloqInstance} {bi : BloqInstance}
    (hsplit : T.binsts = done ++ bi :: rest) {k : Soquet} :
    k ∈ (inUnits env bi).map (theSrc T) ↔
      (k ∈ tplDom env T done ∧ freeB T done k = true ∧ freeB T (done ++ [bi]) k = false) := by
  constructor
  · intro hk
    obtain ⟨u, hu, rfl⟩ := List.mem_map.1 hk
    refine ⟨theSrc_mem_tplDom hT hsplit hu, freeB_iff.2 (theSrc_free hT hsplit hu), ?_⟩
    have hbiT : bi ∈ T.binsts := by
      rw [hsplit]
      exact List.mem_append.2 (Or.inr (List.mem_cons_self ..))
    have hc0 := srcPair_mem hT (dest_mem_of_inUnits hT hbiT hu)
    rw [Bool.eq_false_iff]
    intro hcontra
    refine freeB_iff.1 hcontra _ hc0 rfl bi ?_ (binst_of_mem_inUnits hu)
    exact List.mem_append.2 (Or.inr (List.mem_cons_self ..))
  · rintro ⟨hdom, hfree, hnotfree⟩
    have hnf : ¬freeAfter T (done ++ [bi]) k := by
      intro hx
      rw [(freeB_iff.2 hx : freeB T (done ++ [bi]) k = true)] at hnotfree
      cases hnotfree
    rw [freeAfter] at hnf
    push_neg at hnf
    obtain ⟨c, hc, hl, bj, hbj, hr⟩ := hnf
    have hbji : bj = bi := by
      rcases List.mem_append.1 hbj with h1 | h1
      · exfalso
        exact freeB_iff.1 hfree c hc hl bj h1 hr
      · exact List.mem_singleton.1 h1
    have hrm : c.right ∈ T.cxns.map (fun x => x.right) := List.mem_map.2 ⟨c, hc, rfl⟩
    rw [hT.rightsExact] at hrm
    rcases List.mem_append.1 hrm with h1 | h1
    · obtain ⟨bk, _, hmem2⟩ := List.mem_flatMap.1 h1
      have hb2 := binst_of_mem_inUnits hmem2
      have hki : bk = bi := by
        rw [hr, hbji] at hb2
        injection hb2 with h
        exact h.symm
      refine List.mem_map.2 ⟨c.right, hki ▸ hmem2, ?_⟩
      rw [theSrc_eq hT hc, hl]
    · exfalso
      have hx := binst_of_mem_rdUnits h1
      rw [hr] at hx
      cases hx

theorem filter_perm_split {l : List Soquet} (hnd : l.Nodup) {p q : Soquet → Bool}
    {s : List Soquet} (hsnd : s.Nodup)
    (hmem : ∀ a, a ∈ s ↔ (a ∈ l ∧ p a = true ∧ q a = false))
    (himp : ∀ a ∈ l, q a = true → p a = true) :
    (l.filter p).Perm (l.filter q ++ s) := by
  have h1 := List.filter_append_perm q (l.filter p)
  have h2 : (l.filter p).filter q = l.filter q := by
    rw [List.filter_filter]
    refine List.filter_congr ?_
    intro x hx
    by_cases hq : q x = true
    · rw [hq, himp x hx hq]
      rfl
    · rw [Bool.not_eq_true] at hq
      rw [hq]
      rfl
  have h3 : ((l.filter p).filter (fun a => !q a)).Perm s := by
    refine (List.perm_ext_iff_of_nodup (List.Nodup.filter _ (List.Nodup.filter _ hnd)) hsnd).2 ?_
    intro a
    rw [List.mem_filter, List.mem_filter, hmem a]
    constructor
    · rintro ⟨⟨hal, hpa⟩, hqa⟩
      rw [Bool.not_eq_true'] at hqa
      exact ⟨hal, hpa, hqa⟩
    · rintro ⟨hal, hpa, hqa⟩
      refine ⟨⟨hal, hpa⟩, ?_⟩
      rw [Bool.not_eq_true']
      exact hqa
  refine h1.symm.trans ?_
  rw [h2]
  exact List.Perm.append_left _ h3

/-! ### The weak replay: flattening every well-formed selected instance -/

/-- The operations an instance contributes after one flattening pass: its
decomposition's operations if selected, itself otherwise. -/
def expandB (env : BloqEnv) (pred' : BloqInstance → Bool) (bi : BloqInstance) : List Bloq :=
  if pred' bi then
    match decompose env bi.bloq with
    | some D => D.binsts.map (fun bj => bj.bloq)
    | none => [bi.bloq]
  else [bi.bloq]

/-- The weak replay invariant: the builder invariant holds, the mapping's
keys stay inside the replayed domain, the mapping preserves widths there,
and the live soquets are exactly the mapped unconsumed template
soquets. -/
structure WeakSt (env : BloqEnv) (T : CompositeBloq) (done : List BloqInstance)
    (bb : BloqBuilder) (m : List (Soquet × Soquet)) : Prop where
  hbi : BInv env bb
  hkeys : ∀ p ∈ m, p.1 ∈ tplDom env T done
  hwid : ∀ k ∈ tplDom env T done, (mapSoq m k).reg.bitsize = k.reg.bitsize
  hav : bb.available.Perm ((freeKeys env T done).map (mapSoq m))

/-- Unfolding one step of the rebuild loop under the `flatten_once`
action. -/
theorem flattenLoop_cons {env : BloqEnv} {T : CompositeBloq} {pred' : BloqInstance → Bool}
    {bi : BloqInstance} {rest : List BloqInstance} {bb : BloqBuilder}
    {m : List (Soquet × Soquet)} {ins : List (String × SoquetT)} {bbN : BloqBuilder}
    {outs : List SoquetT}
    (hins : cbloqIns env T bi = some ins)
    (hact : (if pred' bi then bb.add_from env bi.bloq (mapIns m ins)
      else bb.add_t env bi.bloq (mapIns m ins)) = .ok (bbN, outs)) :
    rebuildLoop env T (fun b2 bj ins2 =>
        if pred' bj then b2.add_from env bj.bloq ins2 else b2.add_t env bj.bloq ins2)
      (bi :: rest) bb m =
      rebuildLoop env T (fun b2 bj ins2 =>
        if pred' bj then b2.add_from env bj.bloq ins2 else b2.add_t env bj.bloq ins2)
      rest bbN (m ++ (outUnits env bi).zip (outs.flatMap SoquetT.units)) :=
  rebuildLoop_cons hins hact

/-- One step of the weak replay invariant: an action that consumed the
mapped sources of `bi` and produced equally many width-matched fresh
outputs advances the invariant by one instance. -/
theorem WeakSt.snoc {env : BloqEnv} {T : CompositeBloq} (hT : GraphOK env T)
    {done rest : List BloqInstance} {bi : BloqInstance}
    (hsplit : T.binsts = done ++ bi :: rest)
    {bb : BloqBuilder} {m : List (Soquet × Soquet)}
    (hst : WeakSt env T done bb m)
    {bbN : BloqBuilder} {newOuts : List Soquet}
    (hBN : BInv env bbN)
    (hlen : (outUnits env bi).length = newOuts.length)
    (hwidN : ∀ p ∈ (outUnits env bi).zip newOuts, p.2.reg.bitsize = p.1.reg.bitsize)
    (hpermN : (bb.available ++ newOuts).Perm
      ((((inUnits env bi).map (theSrc T)).map (mapSoq m)) ++ bbN.available)) :
    WeakSt env T (done ++ [bi]) bbN (m ++ (outUnits env bi).zip newOuts) := by
  have hbiT : bi ∈ T.binsts := by
    rw [hsplit]
    exact List.mem_append.2 (Or.inr (List.mem_cons_self ..))
  have hbinotdone : bi ∉ done := by
    intro hmem
    have hnd0 := hT.instsNodup
    rw [hsplit, List.nodup_append] at hnd0
    exact hnd0.2.2 hmem (List.mem_cons_self ..)
  have hsg := hT.sigsOk bi hbiT
  have hextfree : ∀ k ∈ tplDom env T done,
      ∀ p ∈ (outUnits env bi).zip newOuts, p.1 ≠ k := by
    intro k hk p hp he
    exact tplDom_disjoint_out hbinotdone hk (by rw [← he]; exact (List.of_mem_zip hp).1)
  have hmfree : ∀ k ∈ outUnits env bi, ∀ p ∈ m, p.1 ≠ k := by
    intro k hk p hp he
    exact tplDom_disjoint_out hbinotdone (hst.hkeys p hp) (by rw [he]; exact hk)
  refine ⟨hBN, ?_, ?_, ?_⟩
  · intro p hp
    rcases List.mem_append.1 hp with h1 | h1
    · exact tplDom_mono (fun bj hbj => List.mem_append.2 (Or.inl hbj)) (hst.hkeys p h1)
    · rw [tplDom_snoc]
      exact List.mem_append.2 (Or.inr (List.of_mem_zip h1).1)
  · intro k hk
    rw [tplDom_snoc] at hk
    rcases List.mem_append.1 hk with h1 | h1
    · rw [mapSoq_append_keyfree (hextfree k h1)]
      exact hst.hwid k h1
    · rw [mapSoq_append_right (hmfree k h1)]
      exact hwidN _ (mapSoq_zip_pair_mem hlen h1)
  · have hF1 : (freeKeys env T done).Perm
        (((tplDom env T done).filter (freeB T (done ++ [bi])))
          ++ (inUnits env bi).map (theSrc T)) := by
      refine filter_perm_split (tplDom_nodup hT hsplit) (srcs_inUnits_nodup hT hbiT)
        (fun a => @src_iff_freed env T hT done rest bi hsplit a) ?_
      intro a _ h
      exact freeB_iff.2 (freeAfter_mono
        (fun bj hbj => List.mem_append.2 (Or.inl hbj)) (freeB_iff.1 h))
    have hF2 : freeKeys env T (done ++ [bi])
        = ((tplDom env T done).filter (freeB T (done ++ [bi]))) ++ outUnits env bi := by
      rw [freeKeys, tplDom_snoc, List.filter_append,
        List.filter_eq_self.2 (fun a ha => freeB_outUnits hT hsplit ha)]
    have hmapA : ((tplDom env T done).filter (freeB T (done ++ [bi]))).map
          (mapSoq (m ++ (outUnits env bi).zip newOuts))
        = ((tplDom env T done).filter (freeB T (done ++ [bi]))).map (mapSoq m) := by
      refine List.map_congr_left ?_
      intro k hk
      exact mapSoq_append_keyfree (hextfree k (List.mem_filter.1 hk).1)
    have hmapO : (outUnits env bi).map (mapSoq (m ++ (outUnits env bi).zip newOuts))
        = newOuts := by
      rw [List.map_congr_left (fun k hk => mapSoq_append_right (hmfree k hk))]
      exact map_mapSoq_zip_self (outUnits_nodup hsg) hlen
    refine Multiset.coe_eq_coe.1 ?_
    rw [hF2, List.map_append, hmapA, hmapO]
    have e1 : (↑bb.available + ↑newOuts : Multiset Soquet)
        = ↑(((inUnits env bi).map (theSrc T)).map (mapSoq m)) + ↑bbN.available :=
      Multiset.coe_eq_coe.2 hpermN
    have e2 : (↑bb.available : Multiset Soquet)
        = ↑(((tplDom env T done).filter (freeB T (done ++ [bi]))).map (mapSoq m))
          + ↑(((inUnits env bi).map (theSrc T)).map (mapSoq m)) := by
      have h3 := hF1.map (mapSoq m)
      rw [List.map_append] at h3
      exact Multiset.coe_eq_coe.2 (hst.hav.trans h3)
    rw [e2] at e1
    have e4 : (↑(((inUnits env bi).map (theSrc T)).map (mapSoq m))
          + (↑(((tplDom env T done).filter (freeB T (done ++ [bi]))).map (mapSoq m))
            + ↑newOuts) : Multiset Soquet)
        = ↑(((inUnits env bi).map (theSrc T)).map (mapSoq m)) + ↑bbN.available := by
      rw [← e1]
      abel
    have e5 := add_left_cancel e4
    show (↑bbN.available : Multiset Soquet)
      = ↑(((tplDom env T done).filter (freeB T (done ++ [bi]))).map (mapSoq m))
        + ↑newOuts
    rw [← e5]

/-- The weak replay loop: under decomposition well-formedness of the
selected instances, the `flatten_once` action replays every pending
instance successfully, expanding each selected instance into its
decomposition's instances, and maintains the weak invariant. -/
theorem weakLoop {env : BloqEnv} {T : CompositeBloq} (hT : GraphOK env T)
    {pred' : BloqInstance → Bool}
    (hwf : ∀ bi ∈ T.binsts, pred' bi = true →
      ∃ D, decompose env bi.bloq = some D ∧ GraphOK env D ∧ bloqSig env bi.bloq = D.sig) :
    ∀ (pending : List BloqInstance) {done : List BloqInstance} {bb : BloqBuilder}
      {m : List (Soquet × Soquet)},
    T.binsts = done ++ pending →
    WeakSt env T done bb m →
    ∃ bb2 m2,
      rebuildLoop env T (fun b2 bj ins2 =>
          if pred' bj then b2.add_from env bj.bloq ins2 else b2.add_t env bj.bloq ins2)
        pending bb m = .ok (bb2, m2) ∧
      bb2.regs = bb.regs ∧
      (∃ newBs, bb2.binsts = bb.binsts ++ newBs ∧
        newBs.map (fun bj => bj.bloq) = pending.flatMap (expandB env pred')) ∧
      WeakSt env T (done ++ pending) bb2 m2
  | [], done, bb, m, hsplit, hst =>
    ⟨bb, m, rfl, rfl, ⟨[], (List.append_nil _).symm, rfl⟩, by
      rw [List.append_nil]
      exact hst⟩
  | bi :: pending, done, bb, m, hsplit, hst => by
    have hbiT : bi ∈ T.binsts := by
      rw [hsplit]
      exact List.mem_append.2 (Or.inr (List.mem_cons_self ..))
    have hsg := hT.sigsOk bi hbiT
    have hins0 := cbloqIns_eq hT hbiT
    obtain ⟨insR, hinsR⟩ : ∃ x, reconIns (fun r => (regUnitsAt (.inst bi) r).map (theSrc T))
        (bloqSig env bi.bloq).lefts = x := ⟨_, rfl⟩
    rw [hinsR] at hins0
    have hsplit1 : T.binsts = (done ++ [bi]) ++ pending := by
      rw [hsplit, List.append_assoc]
      rfl
    have hlens1 : ∀ r ∈ (bloqSig env bi.bloq).lefts,
        ((regUnitsAt (.inst bi) r).map (theSrc T)).length = r.idxs.length := by
      intro r _
      rw [List.length_map, regUnitsAt_length]
    have hlens2 : ∀ r ∈ (bloqSig env bi.bloq).lefts,
        (((regUnitsAt (.inst bi) r).map (theSrc T)).map (mapSoq m)).length
          = r.idxs.length := by
      intro r hr
      rw [List.length_map]
      exact hlens1 r hr
    have hwids : ∀ r ∈ (bloqSig env bi.bloq).lefts,
        ∀ s ∈ ((regUnitsAt (.inst bi) r).map (theSrc T)).map (mapSoq m),
          s.reg.bitsize = r.bitsize := by
      intro r hr s hs
      obtain ⟨k, hk, rfl⟩ := List.mem_map.1 hs
      obtain ⟨u, hu, rfl⟩ := List.mem_map.1 hk
      have huin : u ∈ inUnits env bi := List.mem_flatMap.2 ⟨r, hr, hu⟩
      rw [hst.hwid _ (theSrc_mem_tplDom hT hsplit huin),
        theSrc_width hT (dest_mem_of_inUnits hT hbiT huin),
        (mem_regUnitsAt.1 hu).2.1]
    have hmapIns : mapIns m insR
        = reconIns (fun r => ((regUnitsAt (.inst bi) r).map (theSrc T)).map (mapSoq m))
          (bloqSig env bi.bloq).lefts := by
      rw [← hinsR]
      exact mapIns_recon hlens1
    have hunits2 : (inUnits env bi).map (fun u => mapSoq m (theSrc T u))
        = ((inUnits env bi).map (theSrc T)).map (mapSoq m) := by
      rw [List.map_map]
      exact List.map_congr_left fun u _ => rfl
    have hunitsI : insUnits (mapIns m insR)
        = ((inUnits env bi).map (theSrc T)).map (mapSoq m) := by
      rw [← hinsR, insUnits_mapIns_recon env T m bi]
      exact hunits2
    have hshI : insShaped (bloqSig env bi.bloq).lefts (mapIns m insR) = true := by
      rw [hmapIns]
      exact insShaped_recon hlens2
    have hwmI : widthsMatch (bloqSig env bi.bloq).lefts (mapIns m insR) = true := by
      rw [hmapIns]
      exact widthsMatch_recon hlens2 hwids
    have hfknd : ((freeKeys env T done).map (mapSoq m)).Nodup :=
      (hst.hav.nodup_iff).1 hst.hbi.available_nodup
    have hsrcFK : ∀ u ∈ inUnits env bi, theSrc T u ∈ freeKeys env T done := by
      intro u hu
      exact List.mem_filter.2 ⟨theSrc_mem_tplDom hT hsplit hu,
        freeB_iff.2 (theSrc_free hT hsplit hu)⟩
    have hndI : (insUnits (mapIns m insR)).Nodup := by
      rw [hunitsI]
      refine List.Nodup.map_on ?_ (srcs_inUnits_nodup hT hbiT)
      intro x hx y hy he
      obtain ⟨u, hu, rfl⟩ := List.mem_map.1 hx
      obtain ⟨v, hv, rfl⟩ := List.mem_map.1 hy
      rw [List.inj_on_of_nodup_map hfknd (hsrcFK u hu) (hsrcFK v hv) he]
    have hmemI : ∀ s ∈ insUnits (mapIns m insR), s ∈ bb.available := by
      intro s hs
      rw [hunitsI] at hs
      obtain ⟨k, hk, rfl⟩ := List.mem_map.1 hs
      exact hst.hav.mem_iff.2 (List.mem_map.2 ⟨k, by
        obtain ⟨u, hu, rfl⟩ := List.mem_map.1 hk
        exact hsrcFK u hu, rfl⟩)
    by_cases hpred : pred' bi = true
    · obtain ⟨D, hdec, hD, hsig⟩ := hwf bi hbiT hpred
      rw [hsig] at hshI hwmI
      obtain ⟨m0, hbd⟩ := bindDangles_ok_of hshI
      obtain ⟨bbN, hok, hregsN, _, hbinstsN, _, hBN, hpermF⟩ :=
        add_from_cbloq_spec hD hst.hbi hbd hwmI hndI hmemI
      have hact : (if pred' bi then bb.add_from env bi.bloq (mapIns m insR)
          else bb.add_t env bi.bloq (mapIns m insR))
          = Except.ok (bbN, D.sig.rights.map (fun r => packUnits r
            (((regUnitsAt .rightDangle r).map (theSrc D)).map
              (renSoq bb.i (mapSoq m0))))) := by
        rw [if_pos hpred, BloqBuilder.add_from, hdec]
        exact hok
      have houtsF : (D.sig.rights.map (fun r => packUnits r
            (((regUnitsAt .rightDangle r).map (theSrc D)).map
              (renSoq bb.i (mapSoq m0))))).flatMap SoquetT.units
          = D.sig.rights.flatMap (fun r =>
            ((regUnitsAt .rightDangle r).map (theSrc D)).map
              (renSoq bb.i (mapSoq m0))) :=
        flatMap_units_packUnits (fun r _ => by
          rw [List.length_map, List.length_map, regUnitsAt_length])
      have hR := RenOK_bind hD hst.hbi hbd hwmI hndI hmemI
      have hlenF : (outUnits env bi).length
          = (D.sig.rights.flatMap (fun r =>
            ((regUnitsAt .rightDangle r).map (theSrc D)).map
              (renSoq bb.i (mapSoq m0)))).length := by
        show ((bloqSig env bi.bloq).rights.flatMap (regUnitsAt (.inst bi))).length = _
        rw [hsig]
        exact flatMap_length_congr (fun r _ => by
          rw [List.length_map, List.length_map, regUnitsAt_length, regUnitsAt_length])
      have hwidF : ∀ p ∈ (outUnits env bi).zip (D.sig.rights.flatMap (fun r =>
            ((regUnitsAt .rightDangle r).map (theSrc D)).map
              (renSoq bb.i (mapSoq m0)))),
          p.2.reg.bitsize = p.1.reg.bitsize := by
        have hz : (outUnits env bi).zip (D.sig.rights.flatMap (fun r =>
              ((regUnitsAt .rightDangle r).map (theSrc D)).map
                (renSoq bb.i (mapSoq m0))))
            = D.sig.rights.flatMap (fun r => (regUnitsAt (.inst bi) r).zip
              (((regUnitsAt .rightDangle r).map (theSrc D)).map
                (renSoq bb.i (mapSoq m0)))) := by
          show ((bloqSig env bi.bloq).rights.flatMap (regUnitsAt (.inst bi))).zip _ = _
          rw [hsig]
          exact zip_flatMap_congr (fun r _ => by
            rw [List.length_map, List.length_map, regUnitsAt_length, regUnitsAt_length])
        intro p hp
        rw [hz] at hp
        obtain ⟨r, hr, hpr⟩ := List.mem_flatMap.1 hp
        obtain ⟨a, c⟩ := p
        have hz2 := List.of_mem_zip hpr
        obtain ⟨k, hk, hck⟩ := List.mem_map.1 hz2.2
        obtain ⟨u, hu, hku⟩ := List.mem_map.1 hk
        have hurd : u ∈ rdUnits D.sig.regs := by
          rw [rdUnits_eq_rights]
          exact List.mem_flatMap.2 ⟨r, hr, hu⟩
        show c.reg.bitsize = a.reg.bitsize
        rw [← hck, ← hku, renSoq_width hR (theSrc_rd_mem_tplDom hD hurd),
          theSrc_width hD (dest_mem_of_rdUnits hD hurd),
          (mem_regUnitsAt.1 hu).2.1, (mem_regUnitsAt.1 hz2.1).2.1]
      have hpermF2 : (bb.available ++ D.sig.rights.flatMap (fun r =>
            ((regUnitsAt .rightDangle r).map (theSrc D)).map
              (renSoq bb.i (mapSoq m0)))).Perm
          ((((inUnits env bi).map (theSrc T)).map (mapSoq m)) ++ bbN.available) := by
        have h := hpermF
        rw [rdUnits_map_map D (theSrc D) (renSoq bb.i (mapSoq m0)), hunitsI] at h
        exact h
      have hstN := WeakSt.snoc hT hsplit hst hBN hlenF hwidF hpermF2
      obtain ⟨bb2, m2, hloop, hregs2, ⟨newBs, hbs, hbsmap⟩, hst2⟩ :=
        weakLoop hT hwf pending hsplit1 hstN
      refine ⟨bb2, m2, ?_, ?_, ?_, ?_⟩
      · rw [flattenLoop_cons hins0 hact, houtsF]
        exact hloop
      · rw [hregs2, hregsN]
      · refine ⟨D.binsts.map (renInst bb.i) ++ newBs, ?_, ?_⟩
        · rw [hbs, hbinstsN, List.append_assoc]
        · rw [List.map_append, hbsmap, List.flatMap_cons]
          congr 1
          rw [List.map_map]
          have hexp : expandB env pred' bi = D.binsts.map (fun bj => bj.bloq) := by
            show (if pred' bi then
              match decompose env bi.bloq with
              | some D2 => D2.binsts.map (fun bj => bj.bloq)
              | none => [bi.bloq]
            else [bi.bloq]) = _
            rw [if_pos hpred, hdec]
          rw [hexp]
          exact List.map_congr_left fun bj _ => rfl
      · have he : (done ++ [bi]) ++ pending = done ++ bi :: pending := by
          rw [List.append_assoc]
          rfl
        rw [← he]
        exact hst2
    · obtain ⟨bbN, hok⟩ := add_t_ok_of hsg hshI hwmI hndI hmemI
      have hBN : BInv env bbN := hst.hbi.add_t hok
      obtain ⟨_, _, _, _, hregsN, _, hbinstsN, _, _, hpermT, _⟩ := add_t_ok hok
      have hact : (if pred' bi then bb.add_from env bi.bloq (mapIns m insR)
          else bb.add_t env bi.bloq (mapIns m insR))
          = Except.ok (bbN, (bloqSig env bi.bloq).rights.map
            (packSoqT (.inst ⟨bi.bloq, bb.i⟩))) := by
        rw [if_neg hpred]
        exact hok
      have houtsT : ((bloqSig env bi.bloq).rights.map
            (packSoqT (.inst ⟨bi.bloq, bb.i⟩))).flatMap SoquetT.units
          = outUnits env ⟨bi.bloq, bb.i⟩ :=
        flatMap_units_packSoqT (.inst ⟨bi.bloq, bb.i⟩) (bloqSig env bi.bloq).rights
      have hlenT : (outUnits env bi).length = (outUnits env ⟨bi.bloq, bb.i⟩).length :=
        flatMap_regUnitsAt_length (.inst bi) (.inst ⟨bi.bloq, bb.i⟩)
          (bloqSig env bi.bloq).rights
      have hwidT : ∀ p ∈ (outUnits env bi).zip (outUnits env ⟨bi.bloq, bb.i⟩),
          p.2.reg.bitsize = p.1.reg.bitsize := by
        intro p hp
        have hz : (outUnits env bi).zip (outUnits env ⟨bi.bloq, bb.i⟩)
            = (bloqSig env bi.bloq).rights.flatMap (fun r =>
              (regUnitsAt (.inst bi) r).zip (regUnitsAt (.inst ⟨bi.bloq, bb.i⟩) r)) :=
          zip_flatMap_congr (fun r _ => by rw [regUnitsAt_length, regUnitsAt_length])
        rw [hz] at hp
        exact zip_regUnits_width hp
      have hpermT2 : (bb.available ++ outUnits env ⟨bi.bloq, bb.i⟩).Perm
          ((((inUnits env bi).map (theSrc T)).map (mapSoq m)) ++ bbN.available) := by
        have h := hpermT
        rw [hunitsI] at h
        exact h
      have hstN := WeakSt.snoc hT hsplit hst hBN hlenT hwidT hpermT2
      obtain ⟨bb2, m2, hloop, hregs2, ⟨newBs, hbs, hbsmap⟩, hst2⟩ :=
        weakLoop hT hwf pending hsplit1 hstN
      refine ⟨bb2, m2, ?_, ?_, ?_, ?_⟩
      · rw [flattenLoop_cons hins0 hact, houtsT]
        exact hloop
      · rw [hregs2, hregsN]
      · refine ⟨⟨bi.bloq, bb.i⟩ :: newBs, ?_, ?_⟩
        · rw [hbs, hbinstsN, List.append_assoc]
          rfl
        · rw [List.map_cons, hbsmap, List.flatMap_cons]
          have hexp : expandB env pred' bi = [bi.bloq] := by
            show (if pred' bi then
              match decompose env bi.bloq with
              | some D2 => D2.binsts.map (fun bj => bj.bloq)
              | none => [bi.bloq]
            else [bi.bloq]) = _
            rw [if_neg hpred]
          rw [hexp]
          rfl
      · have he : (done ++ [bi]) ++ pending = done ++ bi :: pending := by
          rw [List.append_assoc]
          rfl
        rw [← he]
        exact hst2

/-- `flatten_once` succeeds on every finalized graph whose selected
instances all decompose into finalized graphs matching their signature,
and the result's instances carry exactly the operations of the one-level
expansion. -/
theorem flatten_once_ok {env : BloqEnv} {T : CompositeBloq} (hT : GraphOK env T)
    {pred' : BloqInstance → Bool}
    (hwf : ∀ bi ∈ T.binsts, pred' bi = true →
      ∃ D, decompose env bi.bloq = some D ∧ GraphOK env D ∧ bloqSig env bi.bloq = D.sig) :
    ∃ cb2, T.flatten_once env pred' = .ok cb2 ∧ GraphOK env cb2 ∧
      cb2.binsts.map (fun bj => bj.bloq) = T.binsts.flatMap (expandB env pred') := by
  obtain ⟨bb0, hfs⟩ := from_signature_ok_of hT.regsOk hT.widthsPos
  obtain ⟨hb0regs, hb0binsts, hb0cxns, hb0i, hb0avail⟩ := from_signature_ok hfs
  have hst0 : WeakSt env T [] bb0 [] := by
    refine ⟨fromRegs_BInv (BInv.empty env) hfs, ?_, ?_, ?_⟩
    · intro p hp
      cases hp
    · intro k _
      rw [mapSoq_nil]
    · rw [hb0avail, freeKeys_nil]
      have h1 : tplDom env T [] = ldUnits T.sig.regs := List.append_nil _
      have h2 : (ldUnits T.sig.regs).map (mapSoq []) = ldUnits T.sig.regs := by
        have h3 : (ldUnits T.sig.regs).map (mapSoq [])
            = (ldUnits T.sig.regs).map (fun k => k) :=
          List.map_congr_left (fun k _ => mapSoq_nil k)
        rw [h3]
        exact List.map_id' _
      rw [h1, h2]
  obtain ⟨bb2, m2, hloop, hregs2, ⟨newBs, hbs, hbsmap⟩, hstF⟩ :=
    weakLoop hT hwf T.binsts (by rw [List.nil_append]) hst0
  have hregsAll : bb2.regs = T.sig.regs := by
    rw [hregs2, hb0regs]
  have hsigeq : Signature.mk bb2.regs = T.sig := by
    rw [hregsAll]
  have hfk : (freeKeys env T T.binsts).Perm ((rdUnits T.sig.regs).map (theSrc T)) := by
    refine (List.perm_ext_iff_of_nodup
      (List.Nodup.filter _ (tplDom_nodup hT (List.append_nil T.binsts).symm))
      (srcs_rdUnits_nodup hT)).2 ?_
    intro k
    constructor
    · intro hk
      obtain ⟨hdom, hfree⟩ := List.mem_filter.1 hk
      have hkl : k ∈ T.cxns.map (fun c => c.left) := hT.leftsPerm.mem_iff.2 hdom
      obtain ⟨c, hc, rfl⟩ := List.mem_map.1 hkl
      have hrm : c.right ∈ T.cxns.map (fun x => x.right) := List.mem_map.2 ⟨c, hc, rfl⟩
      rw [hT.rightsExact] at hrm
      rcases List.mem_append.1 hrm with h1 | h1
      · obtain ⟨bj, hbj, hmem⟩ := List.mem_flatMap.1 h1
        exact absurd (binst_of_mem_inUnits hmem) (freeB_iff.1 hfree c hc rfl bj hbj)
      · refine List.mem_map.2 ⟨c.right, h1, ?_⟩
        exact theSrc_eq hT hc
    · intro hk
      obtain ⟨u, hu, rfl⟩ := List.mem_map.1 hk
      exact List.mem_filter.2 ⟨theSrc_rd_mem_tplDom hT hu,
        freeB_iff.2 (theSrc_rd_free hT hu)⟩
  have hmapfins : mapIns m2 (finSrcs T)
      = reconIns (fun r => ((regUnitsAt .rightDangle r).map (theSrc T)).map (mapSoq m2))
        T.sig.rights := by
    rw [finSrcs]
    exact mapIns_recon (finSrcs_lens T)
  have hfu : insUnits (mapIns m2 (finSrcs T))
      = ((rdUnits T.sig.regs).map (theSrc T)).map (mapSoq m2) := by
    rw [hmapfins, insUnits_recon (fun r hr => by
      rw [List.length_map, List.length_map, regUnitsAt_length])]
    exact (rdUnits_map_map T (theSrc T) (mapSoq m2)).symm
  have hsh : insShaped (Signature.mk bb2.regs).rights (mapIns m2 (finSrcs T)) = true := by
    rw [hsigeq, hmapfins]
    exact insShaped_recon (fun r hr => by
      rw [List.length_map, List.length_map, regUnitsAt_length])
  have hwm : widthsMatch (Signature.mk bb2.regs).rights (mapIns m2 (finSrcs T)) = true := by
    rw [hsigeq, hmapfins]
    refine widthsMatch_recon (fun r hr => by
      rw [List.length_map, List.length_map, regUnitsAt_length]) ?_
    intro r hr s hs
    obtain ⟨k, hk, rfl⟩ := List.mem_map.1 hs
    obtain ⟨u, hu, rfl⟩ := List.mem_map.1 hk
    have hurd : u ∈ rdUnits T.sig.regs := List.mem_flatMap.2 ⟨r, hr, hu⟩
    rw [hstF.hwid _ (theSrc_rd_mem_tplDom hT hurd),
      theSrc_width hT (dest_mem_of_rdUnits hT hurd),
      (mem_regUnitsAt.1 hu).2.1]
  have hndF : (insUnits (mapIns m2 (finSrcs T))).Nodup := by
    rw [hfu]
    have hfknd : ((freeKeys env T T.binsts).map (mapSoq m2)).Nodup :=
      (hstF.hav.nodup_iff).1 hstF.hbi.available_nodup
    refine List.Nodup.map_on ?_ (srcs_rdUnits_nodup hT)
    intro x hx y hy he
    exact List.inj_on_of_nodup_map hfknd (hfk.mem_iff.2 hx) (hfk.mem_iff.2 hy) he
  have hpermFin : bb2.available.Perm (insUnits (mapIns m2 (finSrcs T))) := by
    rw [hfu]
    exact hstF.hav.trans (hfk.map (mapSoq m2))
  have hfin := finalize_ok_of hstF.hbi hsh hwm hndF hpermFin
  refine ⟨⟨⟨bb2.regs⟩, bb2.binsts, bb2.cxns ++ List.zipWith Connection.mk
      (insUnits (mapIns m2 (finSrcs T))) (rdUnits bb2.regs)⟩, ?_, ?_, ?_⟩
  · rw [CompositeBloq.flatten_once, rebuildWith, hfs]
    show (match rebuildLoop env T (fun b2 bj ins2 =>
        if pred' bj then b2.add_from env bj.bloq ins2 else b2.add_t env bj.bloq ins2)
        T.binsts bb0 [] with
      | .error e => Except.error e
      | .ok (bb, m) =>
        match T.final_soqs with
        | none => Except.error BloqError.danglingSoquetUnused
        | some fins => bb.finalize (mapIns m fins)) = _
    rw [hloop]
    show (match T.final_soqs with
      | none => Except.error BloqError.danglingSoquetUnused
      | some fins => bb2.finalize (mapIns m2 fins)) = _
    rw [final_soqs_eq hT]
    show bb2.finalize (mapIns m2 (finSrcs T)) = _
    exact hfin
  · exact (finalize_ok hstF.hbi hfin).1
  · show bb2.binsts.map (fun bj => bj.bloq) = _
    rw [hbs, hb0binsts, List.nil_append, hbsmap]

/-! ### C5: flatten terminates within the bound, or exhausts it -/

/-- Selects instances of operation `1`. -/
def pred2 : BloqInstance → Bool := fun bi => bi.bloq == ⟨1, 0⟩

/-- The decomposition-depth measure under `env2`: the number of selected
still-decomposable instances. -/
def mu2 : CompositeBloq → Nat :=
  fun cb => cb.binsts.countP (fun bi => pred2 bi && (decompose env2 bi.bloq).isSome)

/-- The decomposition graph registered for operation `1` is finalized. -/
theorem GraphOK_D1_env2 : GraphOK env2 D1 :=
  buildScript_GraphOK (show buildScript env2
    [.areg regQ, .aadd ⟨0, 0⟩ [("q", .one ldQ)]]
    [("q", .one (outQ 0 0))] = .ok D1 by decide)

/-- Decomposition well-formedness of `env2` under the selection of
operation `1`. -/
theorem hwf_env2 : ∀ cb : CompositeBloq, GraphOK env2 cb → ∀ bi ∈ cb.binsts,
    (pred2 bi && (decompose env2 bi.bloq).isSome) = true →
    ∃ D, decompose env2 bi.bloq = some D ∧ GraphOK env2 D ∧
      bloqSig env2 bi.bloq = D.sig := by
  intro cb _ bi _ hp
  rw [Bool.and_eq_true] at hp
  have hp1 : (bi.bloq == (⟨1, 0⟩ : Bloq)) = true := hp.1
  have hb : bi.bloq = ⟨1, 0⟩ := beq_iff_eq.1 hp1
  refine ⟨D1, ?_, GraphOK_D1_env2, ?_⟩
  · rw [hb]
    rfl
  · rw [hb]
    rfl

/-- Under `env2`, every flattening pass strictly decreases the measure:
the selected instances of operation `1` are replaced by instances of the
unselected operation `0`. -/
theorem hdec_env2 : ∀ cb cb2 : CompositeBloq, GraphOK env2 cb →
    anyFlattenable env2 pred2 cb = true →
    cb.flatten_once env2 (fun bi => pred2 bi && (decompose env2 bi.bloq).isSome)
      = .ok cb2 →
    mu2 cb2 < mu2 cb := by
  intro cb cb2 hG hany hone
  obtain ⟨cb2', hone', _, hmap'⟩ :=
    @flatten_once_ok env2 cb hG (fun bi => pred2 bi && (decompose env2 bi.bloq).isSome)
      (fun bi hbi hp => hwf_env2 cb hG bi hbi hp)
  rw [hone] at hone'
  injection hone' with hcb2
  subst hcb2
  have h0 : mu2 cb2 = 0 := by
    show cb2.binsts.countP (fun bi => pred2 bi && (decompose env2 bi.bloq).isSome) = 0
    rw [List.countP_eq_zero]
    intro bi hbi hcon
    have hbl : bi.bloq ∈ cb.binsts.flatMap (expandB env2
        (fun bj => pred2 bj && (decompose env2 bj.bloq).isSome)) := by
      rw [← hmap']
      exact List.mem_map.2 ⟨bi, hbi, rfl⟩
    obtain ⟨bj, hbj, hmem⟩ := List.mem_flatMap.1 hbl
    by_cases hsel : (pred2 bj && (decompose env2 bj.bloq).isSome) = true
    · have hbj1 : bj.bloq = ⟨1, 0⟩ := by
        have hs2 := hsel
        rw [Bool.and_eq_true] at hs2
        have hp1 : (bj.bloq == (⟨1, 0⟩ : Bloq)) = true := hs2.1
        exact beq_iff_eq.1 hp1
      have hexp : expandB env2
          (fun bj2 => pred2 bj2 && (decompose env2 bj2.bloq).isSome) bj
          = [(⟨0, 0⟩ : Bloq)] := by
        show (if (pred2 bj && (decompose env2 bj.bloq).isSome) = true then
          match decompose env2 bj.bloq with
          | some D => D.binsts.map (fun bk => bk.bloq)
          | none => [bj.bloq]
        else [bj.bloq]) = _
        rw [if_pos hsel, hbj1]
        rfl
      rw [hexp] at hmem
      have hbb : bi.bloq = (⟨0, 0⟩ : Bloq) := List.mem_singleton.1 hmem
      have hcon2 : ((bi.bloq == (⟨1, 0⟩ : Bloq)) && (decompose env2 bi.bloq).isSome)
          = true := hcon
      rw [hbb] at hcon2
      exact absurd hcon2 (by decide)
    · have hexp : expandB env2
          (fun bj2 => pred2 bj2 && (decompose env2 bj2.bloq).isSome) bj
          = [bj.bloq] := by
        show (if (pred2 bj && (decompose env2 bj.bloq).isSome) = true then
          match decompose env2 bj.bloq with
          | some D => D.binsts.map (fun bk => bk.bloq)
          | none => [bj.bloq]
        else [bj.bloq]) = _
        rw [if_neg hsel]
      rw [hexp] at hmem
      have hbb : bi.bloq = bj.bloq := List.mem_singleton.1 hmem
      refine hsel ?_
      have hcon2 : ((bi.bloq == (⟨1, 0⟩ : Bloq)) && (decompose env2 bi.bloq).isSome)
          = true := hcon
      rw [hbb] at hcon2
      exact hcon2
  have h1 : 0 < mu2 cb := by
    show 0 < cb.binsts.countP (fun bi => pred2 bi && (decompose env2 bi.bloq).isSome)
    rw [List.countP_pos_iff]
    have hx := hany
    rw [anyFlattenable, List.any_eq_true] at hx
    obtain ⟨bi, hbi, hp⟩ := hx
    exact ⟨bi, hbi, hp⟩
  rw [h0]
  exact h1

/-- The finalized one-instance graph of the decomposable operation `1`. -/
def cb1 : CompositeBloq :=
  ⟨sigQ, [⟨⟨1, 0⟩, 0⟩],
   [⟨ldQ, outQ 1 0⟩, ⟨outQ 1 0, ⟨.rightDangle, regQ, []⟩⟩]⟩

/-- The one-instance graph of operation `1` is finalized. -/
theorem GraphOK_cb1_env2 : GraphOK env2 cb1 :=
  buildScript_GraphOK (show buildScript env2
    [.areg regQ, .aadd ⟨1, 0⟩ [("q", .one ldQ)]]
    [("q", .one (outQ 1 0))] = .ok cb1 by decide)

/-- C5: `flatten` terminates within the bound on every finite-depth
decomposition hierarchy — whenever the selected decompositions are
well-formed and a measure of the hierarchy strictly decreases at each
flattening pass (each pass is proven to succeed), any bound at least the
measure yields success — and on the unboundedly self-decomposing
operation, `flatten` fails with `flattenDepthExceeded` for every bound. -/
theorem c5_flatten_termination_and_depth :
    (∀ (env : BloqEnv) (pred : BloqInstance → Bool) (μ : CompositeBloq → Nat),
      (∀ cb : CompositeBloq, GraphOK env cb → ∀ bi ∈ cb.binsts,
        (pred bi && (decompose env bi.bloq).isSome) = true →
        ∃ D, decompose env bi.bloq = some D ∧ GraphOK env D ∧
          bloqSig env bi.bloq = D.sig) →
      (∀ cb cb2 : CompositeBloq, GraphOK env cb → anyFlattenable env pred cb = true →
        cb.flatten_once env (fun bi => pred bi && (decompose env bi.bloq).isSome)
          = .ok cb2 → μ cb2 < μ cb) →
      ∀ (bound : Nat) (cb : CompositeBloq), GraphOK env cb → μ cb ≤ bound →
        ∃ cb2, cb.flatten env pred bound = .ok cb2) ∧
    (∀ bound : Nat, D1.flatten env1 (fun _ => true) bound = .error .flattenDepthExceeded) := by
  constructor
  · intro env pred μ hwf hdec bound
    induction bound with
    | zero =>
      intro cb hG hcb
      by_cases hany : anyFlattenable env pred cb = true
      · obtain ⟨cb2, hone, _, _⟩ :=
          @flatten_once_ok env cb hG (fun bi => pred bi && (decompose env bi.bloq).isSome)
            (fun bi hbi hp => hwf cb hG bi hbi hp)
        exact absurd (hdec cb cb2 hG hany hone) (by omega)
      · refine ⟨cb, ?_⟩
        rw [CompositeBloq.flatten, flattenAux, if_neg hany]
    | succ n ih =>
      intro cb hG hcb
      by_cases hany : anyFlattenable env pred cb = true
      · obtain ⟨cb2, hone, hG2, _⟩ :=
          @flatten_once_ok env cb hG (fun bi => pred bi && (decompose env bi.bloq).isSome)
            (fun bi hbi hp => hwf cb hG bi hbi hp)
        obtain ⟨cb3, hcb3⟩ := ih cb2 hG2 (by
          have := hdec cb cb2 hG hany hone
          omega)
        refine ⟨cb3, ?_⟩
        rw [CompositeBloq.flatten, flattenAux, if_pos hany, hone]
        exact hcb3
      · refine ⟨cb, ?_⟩
        rw [CompositeBloq.flatten, flattenAux, if_neg hany]
  · intro bound
    induction bound with
    | zero =>
      rw [CompositeBloq.flatten, flattenAux,
        if_pos (show anyFlattenable env1 (fun _ => true) D1 = true by decide)]
    | succ n ih =>
      rw [CompositeBloq.flatten, flattenAux,
        if_pos (show anyFlattenable env1 (fun _ => true) D1 = true by decide)]
      have hone : D1.flatten_once env1
          (fun bi => (fun _ => true : BloqInstance → Bool) bi
            && (decompose env1 bi.bloq).isSome) = .ok D1 := by
        decide
      rw [hone]
      exact ih

/-- C5 witness: under the environment where operation `1` decomposes, its
one-instance graph flattens successfully within bound 1 — the pass
actually splices the decomposition — and the self-decomposing operation
exhausts bound 5. -/
theorem c5_witness :
    (∃ cb2, cb1.flatten env2 pred2 1 = .ok cb2) ∧
    D1.flatten env1 (fun _ => true) 5 = .error .flattenDepthExceeded :=
  ⟨c5_flatten_termination_and_depth.1 env2 pred2 mu2 hwf_env2 hdec_env2 1 cb1
      GraphOK_cb1_env2 (by decide),
   c5_flatten_termination_and_depth.2 5⟩

end Spec2Proof
